import Mathlib

/-!
# Batch gradient descent and the conditional log-likelihood objective

A shallow embedding of the Go packages `optimizers/gd` (file `gd.go`) and
`nlp/cloglik` (file `cloglik.go`), of the objectives used by their tests, and of the
driver (file `gradient-descent.go`).

Conventions of the embedding.

* `float64` is modelled by an ordered field `α` (the rationals where results are
  evaluated, the reals where `math.Exp` and `math.Log` are meant); `math.Exp` and
  `math.Log` are parameters `exp` and `log` of the definitions that use them. The section
  on binary64 arithmetic gives the optimizer and the objective `Parabola` once more with
  every operation rounded (the definitions whose names end in `64`).
* A slice is a `List`; an index out of range makes the Go program stop with a run-time
  error, which the embedding reports as `none` (or `Fault.panic`).
* A loop that need not terminate takes a `fuel : Nat`; running out of it is reported as
  `Fault.outOfFuel` and is never confused with a normal return.
* Goroutines that work on disjoint index blocks are run one after the other, in the order
  of their block; the shared flag `optimized` is then the conjunction of what they write.
  The workers of the optimizer read and write that flag without synchronisation; the
  section on schedules runs them step by step in a given order.
-/

set_option autoImplicit false

/-- The two ways in which a modelled run can fail to return normally. -/
inductive Fault where
  | panic
  | outOfFuel
  deriving DecidableEq, Repr

/-- Value of `int(math.Ceil(float64(a)/float64(b)))` for slice lengths `a` and a positive
`b` (the quotient of two such integers is rounded correctly by `float64` division). For
`b = 0` the Go value is not used by any worker and is taken to be `0`. -/
def ceilDiv (a b : Nat) : Nat := (a + b - 1) / b

/-- The Go `int` obtained from an integer by two's complement wrap-around (64 bits). -/
def wrapInt (z : Int) : Int := (z + 2 ^ 63) % 2 ^ 64 - 2 ^ 63

namespace gd

/-- `type NDimensionalValue []float64`. -/
abbrev NDimensionalValue (α : Type) := List α

/-- The interface `Function`. `Fprime v r` returns the contents of the buffer `r` after the
call (`none` when the call stops with a run-time error). A Go callee cannot change the
length of the caller's slice, which is the field `Fprime_length`. -/
structure Function (α : Type) where
  Val : NDimensionalValue α → Option α
  Fprime : NDimensionalValue α → NDimensionalValue α → Option (NDimensionalValue α)
  Fprime_length : ∀ v r r', Fprime v r = some r' → r'.length = r.length

/-- The configuration `GradientDescent`. `Threads` counts goroutines and is a natural
number (a negative value makes `make(chan int, gd.Threads)` stop the program). -/
structure GradientDescent (α : Type) where
  LearningRate : α
  Threshold : α
  MaxIter : Int
  Threads : Nat

/-- The `message` sent to a worker: the block `[start, end)`. -/
structure message where
  start : Nat
  end_ : Nat
  deriving DecidableEq, Repr

variable {α : Type} [LinearOrderedField α]

/-- Body of the worker loop of `computeRoutine` at index `i`:
`x[i] -= gd.LearningRate*fp[i]` and
`*optimized = *optimized && (math.Abs(fp[i]) < gd.Threshold)`. -/
def computeRoutine.update (gd : GradientDescent α) (fp : NDimensionalValue α)
    (st : NDimensionalValue α × Bool) (i : Nat) : Option (NDimensionalValue α × Bool) :=
  match st.1[i]?, fp[i]? with
  | some xi, some fpi =>
    some (st.1.set i (xi - gd.LearningRate * fpi), st.2 && decide (|fpi| < gd.Threshold))
  | _, _ => none

/-- What `computeRoutine` does with one message: `for i:=msg.start;i<msg.end;i++`. The
pair holds the shared slice `x` and the shared flag `optimized`. -/
def computeRoutine (gd : GradientDescent α) (msg : message) (fp : NDimensionalValue α)
    (st : NDimensionalValue α × Bool) : Option (NDimensionalValue α × Bool) :=
  (List.range' msg.start (msg.end_ - msg.start)).foldlM (computeRoutine.update gd fp) st

/-- The variables of `Optimize` that change while the loop runs. -/
structure State (α : Type) where
  x : NDimensionalValue α
  fp : NDimensionalValue α
  optimized : Bool
  iter : Int

/-- The message for worker `i`:
`message{i*items_per_thread, int(math.Min(float64((i+1)*items_per_thread), float64(dim)))}`. -/
def Optimize.dispatch (dim items_per_thread i : Nat) : message :=
  ⟨i * items_per_thread, min ((i + 1) * items_per_thread) dim⟩

/-- One pass through the body of the loop of `Optimize`: `optimized = true`, then
`f.Fprime(x, fp)`, then one message per worker, then `iter += 1`. -/
def Optimize.body (gd : GradientDescent α) (f : Function α) (dim items_per_thread : Nat)
    (s : State α) : Option (State α) :=
  match f.Fprime s.x s.fp with
  | none => none
  | some fp =>
    match (List.range gd.Threads).foldlM
        (fun st i => computeRoutine gd (Optimize.dispatch dim items_per_thread i) fp st)
        (s.x, true) with
    | none => none
    | some st => some ⟨st.1, fp, st.2, wrapInt (s.iter + 1)⟩

/-- The loop test `!optimized && gd.MaxIter != iter`. -/
def Optimize.continues (gd : GradientDescent α) (s : State α) : Bool :=
  !s.optimized && gd.MaxIter != s.iter

/-- The loop `for !optimized && gd.MaxIter != iter { ... }`. -/
def Optimize.loop (gd : GradientDescent α) (f : Function α) (dim items_per_thread : Nat) :
    Nat → State α → Except Fault (State α)
  | fuel, s =>
    if Optimize.continues gd s then
      match fuel with
      | 0 => .error .outOfFuel
      | fuel + 1 =>
        match Optimize.body gd f dim items_per_thread s with
        | none => .error .panic
        | some s' => Optimize.loop gd f dim items_per_thread fuel s'
    else .ok s

/-- The state in which the loop of `Optimize` is entered: `iter := 0`,
`optimized := false`, `fp := make(NDimensionalValue, dim)`. -/
def Optimize.start (x : NDimensionalValue α) : State α :=
  ⟨x, List.replicate x.length 0, false, 0⟩

/-- The loop of `Optimize` run from its starting state; the result is the final state. -/
def Optimize.run (fuel : Nat) (gd : GradientDescent α) (f : Function α)
    (x : NDimensionalValue α) : Except Fault (State α) :=
  Optimize.loop gd f x.length (ceilDiv x.length gd.Threads) fuel (Optimize.start x)

/-- The method `Optimize`: it returns the slice `x`. -/
def Optimize (fuel : Nat) (gd : GradientDescent α) (f : Function α)
    (x : NDimensionalValue α) : Except Fault (NDimensionalValue α) :=
  (Optimize.run fuel gd f x).map State.x

/-- The state after `n` passes through the loop body (`none` after a run-time error),
whatever the loop test says. -/
def Optimize.passes (gd : GradientDescent α) (f : Function α) (dim items_per_thread : Nat) :
    Nat → State α → Option (State α)
  | 0, s => some s
  | n + 1, s => (Optimize.body gd f dim items_per_thread s).bind
      (Optimize.passes gd f dim items_per_thread n)

/-- The vector `x - eta*g`. -/
def descend (eta : α) (x g : NDimensionalValue α) : NDimensionalValue α :=
  List.zipWith (fun xi gi => xi - eta * gi) x g

/-- Whether every coordinate of `g` has `|g[i]| < tau`. -/
def below (tau : α) (g : NDimensionalValue α) : Bool :=
  g.all fun gi => decide (|gi| < tau)

/-- The objective `Parabola` of the tests: `Fprime` writes `r[0] = 2*p.a*x[0] + p.b`. -/
structure Parabola (α : Type) where
  a : α
  b : α
  c : α

/-- The method `Parabola.Fprime`. -/
def Parabola.Fprime (p : Parabola α) (x r : NDimensionalValue α) :
    Option (NDimensionalValue α) :=
  match x[0]?, r with
  | some x0, _ :: rs => some ((2 * p.a * x0 + p.b) :: rs)
  | _, _ => none

/-- The method `Parabola.Val`. -/
def Parabola.Val (p : Parabola α) (x : NDimensionalValue α) : Option α :=
  match x[0]? with
  | some x0 => some (p.a * x0 * x0 + p.b * x0 + p.c)
  | none => none

/-- `Parabola` seen through the interface `Function`. -/
def Parabola.toFunction (p : Parabola α) : Function α where
  Val := p.Val
  Fprime := p.Fprime
  Fprime_length := by
    intro v r r' h
    unfold Parabola.Fprime at h
    split at h
    · simp only [Option.some.injEq] at h
      subst h
      simp
    · simp at h

/-- The sub-slice `v[i:i+1]` of a slice whose capacity is its length (as made by `make`):
a run-time error unless `i+1 <= len(v)`. -/
def slice1 (v : NDimensionalValue α) (i : Nat) : Option (NDimensionalValue α) :=
  if i + 1 ≤ v.length then some ((v.drop i).take 1) else none

/-- The objective `NDimensionalParabola` of the tests. -/
structure NDimensionalParabola (α : Type) where
  Parabolas : List (Parabola α)

/-- The call `p.Fprime(x[i:i+1], r[i:i+1])` for the parabola `p` numbered `i`; what the
callee writes into the sub-slice of `r` is written into `r`. -/
def NDimensionalParabola.Fprime.step (x r : NDimensionalValue α) (ip : Nat × Parabola α) :
    Option (NDimensionalValue α) :=
  match slice1 x ip.1, slice1 r ip.1 with
  | some xs, some rs =>
    match ip.2.Fprime xs rs with
    | some rs' => some (r.take ip.1 ++ rs' ++ r.drop (ip.1 + 1))
    | none => none
  | _, _ => none

/-- The method `NDimensionalParabola.Fprime`:
`for i,p := range ndp.Parabolas { p.Fprime(x[i:i+1], r[i:i+1]) }`. -/
def NDimensionalParabola.Fprime (ndp : NDimensionalParabola α) (x r : NDimensionalValue α) :
    Option (NDimensionalValue α) :=
  ndp.Parabolas.enum.foldlM (NDimensionalParabola.Fprime.step x) r

/-- The statement `v += p.Val(x[i:i+1])` for the parabola `p` numbered `i`. -/
def NDimensionalParabola.Val.step (x : NDimensionalValue α) (v : α) (ip : Nat × Parabola α) :
    Option α :=
  match slice1 x ip.1 with
  | some xs =>
    match ip.2.Val xs with
    | some w => some (v + w)
    | none => none
  | none => none

/-- The method `NDimensionalParabola.Val`. -/
def NDimensionalParabola.Val (ndp : NDimensionalParabola α) (x : NDimensionalValue α) :
    Option α :=
  ndp.Parabolas.enum.foldlM (NDimensionalParabola.Val.step x) 0

/-- `NDimensionalParabola` seen through the interface `Function`. -/
def NDimensionalParabola.toFunction (ndp : NDimensionalParabola α) : Function α where
  Val := ndp.Val
  Fprime := ndp.Fprime
  Fprime_length := by
    intro v r r' h
    unfold NDimensionalParabola.Fprime at h
    generalize ndp.Parabolas.enum = l at h
    induction l generalizing r with
    | nil =>
      simp only [List.foldlM_nil, pure, Option.some.injEq] at h
      subst h
      rfl
    | cons ip l ih =>
      rw [List.foldlM_cons] at h
      unfold NDimensionalParabola.Fprime.step at h
      cases hs : slice1 v ip.1 with
      | none => simp [hs] at h
      | some xs =>
        cases hr : slice1 r ip.1 with
        | none => simp [hs, hr] at h
        | some rs =>
          cases hp : ip.2.Fprime xs rs with
          | none => simp [hs, hr, hp] at h
          | some rs' =>
            simp only [hs, hr, hp, Option.bind_eq_bind, Option.some_bind] at h
            rw [ih _ h]
            have h1 : rs'.length = rs.length := (Parabola.toFunction ip.2).Fprime_length _ _ _ hp
            unfold slice1 at hr
            split at hr
            · simp only [Option.some.injEq] at hr
              subst hr
              simp only [List.length_append, List.length_take, List.length_drop, h1]
              omega
            · simp at hr

end gd

namespace cloglik

/-- The struct `Document`: one list of feature indices per class, and the gold class.
`Class` is never negative: the constructor reads it from a map of lengths. -/
structure Document where
  Features : List (List Nat)
  Class : Nat
  deriving DecidableEq, Repr

/-- The method `CorrectFeatures`: `d.Features[d.Class]`. -/
def Document.CorrectFeatures (d : Document) : Option (List Nat) :=
  d.Features[d.Class]?

section objective

variable {α : Type} [LinearOrderedField α]

/-- The statement `tmp += l[fi]`. -/
def Document.score.add (l : gd.NDimensionalValue α) (tmp : α) (fi : Nat) : Option α :=
  match l[fi]? with
  | some v => some (tmp + v)
  | none => none

/-- The inner loop of `Document.P`: `tmp = 0.0` and `tmp += l[fi]` for every `fi` of the
list. -/
def Document.score (l : gd.NDimensionalValue α) (features : List Nat) : Option α :=
  features.foldlM (Document.score.add l) 0

/-- One turn of the outer loop of `Document.P`, on the pair `(numerator, denominator)`. -/
def Document.P.accumulate (exp : α → α) (l : gd.NDimensionalValue α) (class_ : Nat)
    (acc : α × α) (entry : Nat × List Nat) : Option (α × α) :=
  match Document.score l entry.2 with
  | none => none
  | some tmp =>
    some (if entry.1 = class_ then acc.1 + exp tmp else acc.1, acc.2 + exp tmp)

/-- The method `Document.P`. In exact arithmetic the quotient is not a number exactly when
it is `0/0`; that is the case in which the source returns `1`. -/
def Document.P (exp : α → α) (d : Document) (l : gd.NDimensionalValue α) (class_ : Nat) :
    Option α :=
  match d.Features.enum.foldlM (Document.P.accumulate exp l class_) (0, 0) with
  | none => none
  | some (numerator, denominator) =>
    some (if numerator = 0 ∧ denominator = 0 then 1 else numerator / denominator)

/-- The struct `CLogLik`. -/
structure CLogLik (α : Type) where
  Docs : List Document
  FeatureMap : List String
  ClassMap : List String
  numerators : gd.NDimensionalValue α
  features_to_docs : List (List Nat)
  Threads : Nat

/-- The statement `p.numerators[fi]++`. -/
def CLogLik.computeNumerators.incr (numerators : gd.NDimensionalValue α) (fi : Nat) :
    Option (gd.NDimensionalValue α) :=
  match numerators[fi]? with
  | some v => some (numerators.set fi (v + 1))
  | none => none

/-- The loop `for _,fi := range d.Features[d.Class]` of `computeNumerators`. -/
def CLogLik.computeNumerators.doc (numerators : gd.NDimensionalValue α) (d : Document) :
    Option (gd.NDimensionalValue α) :=
  match d.Features[d.Class]? with
  | some features => features.foldlM CLogLik.computeNumerators.incr numerators
  | none => none

/-- The method `computeNumerators`. -/
def CLogLik.computeNumerators (p : CLogLik α) : Option (CLogLik α) :=
  match p.Docs.foldlM CLogLik.computeNumerators.doc
      (List.replicate p.FeatureMap.length (0 : α)) with
  | some nums => some { p with numerators := nums }
  | none => none

/-- The statement `ret += math.Log( doc.P(l, doc.Class) )`. -/
def CLogLik.Val.add (exp log : α → α) (l : gd.NDimensionalValue α) (ret : α)
    (doc : Document) : Option α :=
  match doc.P exp l doc.Class with
  | some v => some (ret + log v)
  | none => none

/-- The method `Val`. -/
def CLogLik.Val (exp log : α → α) (p : CLogLik α) (l : gd.NDimensionalValue α) : Option α :=
  p.Docs.foldlM (CLogLik.Val.add exp log l) 0

/-- The statement `r[i] = -p.numerators[i]`. -/
def CLogLik.Fprime.negate.step (p : CLogLik α) (r : gd.NDimensionalValue α) (i : Nat) :
    Option (gd.NDimensionalValue α) :=
  match p.numerators[i]? with
  | some v => if i < r.length then some (r.set i (-v)) else none
  | none => none

/-- First loop of `Fprime`: `for i,_ := range r { r[i] = -p.numerators[i] }`. -/
def CLogLik.Fprime.negate (p : CLogLik α) (r : gd.NDimensionalValue α) :
    Option (gd.NDimensionalValue α) :=
  (List.range r.length).foldlM (CLogLik.Fprime.negate.step p) r

/-- The statement `P_vec[class*doccnt + j] = doc.P(l,class)`. -/
def CLogLik.Fprime.fill.step (exp : α → α) (doc : Document) (l : gd.NDimensionalValue α)
    (doccnt j : Nat) (P_vec : List α) (class_ : Nat) : Option (List α) :=
  match doc.P exp l class_ with
  | some v =>
    if class_ * doccnt + j < P_vec.length then some (P_vec.set (class_ * doccnt + j) v)
    else none
  | none => none

/-- What a worker of the first pool does for document `j`: `doc := p.Docs[j]` and the
loop `for class,_ := range doc.Features`. -/
def CLogLik.Fprime.fill (exp : α → α) (p : CLogLik α) (l : gd.NDimensionalValue α)
    (doccnt : Nat) (P_vec : List α) (j : Nat) : Option (List α) :=
  match p.Docs[j]? with
  | none => none
  | some doc =>
    (List.range doc.Features.length).foldlM (CLogLik.Fprime.fill.step exp doc l doccnt j) P_vec

/-- The statement `r[j] += P_vec[doc]`. -/
def CLogLik.Fprime.scatter.step (P_vec : List α) (j : Nat) (r : gd.NDimensionalValue α)
    (doc : Nat) : Option (gd.NDimensionalValue α) :=
  match r[j]?, P_vec[doc]? with
  | some rj, some v => some (r.set j (rj + v))
  | _, _ => none

/-- What a worker of the second pool does for feature `j`: the loop
`for _,doc := range p.features_to_docs[j]`. -/
def CLogLik.Fprime.scatter (p : CLogLik α) (P_vec : List α) (r : gd.NDimensionalValue α)
    (j : Nat) : Option (gd.NDimensionalValue α) :=
  match p.features_to_docs[j]? with
  | none => none
  | some docs => docs.foldlM (CLogLik.Fprime.scatter.step P_vec j) r

/-- The matrix `P_vec` after the first pool of `Fprime` has finished. Worker `i` has the
documents from `i*docs_per_thread` to
`int(math.Min(float64((i+1)*docs_per_thread), float64(len(p.Docs))))`. -/
def CLogLik.Fprime.matrix (exp : α → α) (p : CLogLik α) (l : gd.NDimensionalValue α)
    (classcnt doccnt : Nat) : Option (List α) :=
  let docs_per_thread := ceilDiv doccnt p.Threads
  (List.range p.Threads).foldlM (fun P_vec i =>
    (List.range' (i * docs_per_thread)
        (min ((i + 1) * docs_per_thread) doccnt - i * docs_per_thread)).foldlM
      (CLogLik.Fprime.fill exp p l doccnt) P_vec)
    (List.replicate (classcnt * doccnt) 0)

/-- The method `Fprime`; the result is the buffer `r` after the call. A value of `Threads`
below one starts no worker. -/
def CLogLik.Fprime (exp : α → α) (p : CLogLik α) (l r : gd.NDimensionalValue α) :
    Option (gd.NDimensionalValue α) :=
  match CLogLik.Fprime.negate p r with
  | none => none
  | some r =>
    match p.Docs[0]? with
    | none => none
    | some d0 =>
      match CLogLik.Fprime.matrix exp p l d0.Features.length p.Docs.length with
      | none => none
      | some P_vec =>
        let features_per_thread := ceilDiv l.length p.Threads
        (List.range p.Threads).foldlM (fun r i =>
          (List.range' (i * features_per_thread)
              (min ((i + 1) * features_per_thread) l.length - i * features_per_thread)).foldlM
            (CLogLik.Fprime.scatter p P_vec) r) r

/-- The method `DimCnt`. -/
def CLogLik.DimCnt (p : CLogLik α) : Nat := p.numerators.length

end objective

/-- An element of a decoded JSON array: a string, or anything else. -/
inductive Item where
  | str (s : String)
  | other
  deriving DecidableEq, Repr

/-- A value of a decoded JSON object, as far as the type assertions of `FromJson` tell
values apart: a string, an array, or anything else. -/
inductive Json where
  | str (s : String)
  | arr (items : List Item)
  | other
  deriving DecidableEq, Repr

/-- A Go `map[string]int`, as the list of its entries (keys are distinct). -/
abbrev GoMap := List (String × Nat)

/-- Reading `m[k]`: the zero value when the key is absent. -/
def GoMap.get (m : GoMap) (k : String) : Nat := (m.lookup k).getD 0

/-- The test `_,ok := m[k]`. -/
def GoMap.has (m : GoMap) (k : String) : Bool := (m.lookup k).isSome

/-- The assignment `m[k] = v`. -/
def GoMap.put (m : GoMap) (k : String) (v : Nat) : GoMap :=
  if m.has k then m.map (fun e => if e.1 = k then (k, v) else e) else m ++ [(k, v)]

/-- One turn of the loop over the keys of the first document:
`if k != "__label__" { classes[k] = len(classes) }`. -/
def FromJson.classes.add (classes : GoMap) (k : String) : GoMap :=
  if k != "__label__" then classes.put k classes.length else classes

/-- The loop over the keys of the first document; `keys0` is the order in which the loop
meets the keys. -/
def FromJson.classes (keys0 : List String) : GoMap :=
  keys0.foldl FromJson.classes.add []

/-- One turn of the loop `for i,fi := range v.([]interface{})`, on the map `features` and
the slice `df[class]`: a new feature name gets the index `len(features)`, and
`df[class][i] = features[fi.(string)]`. -/
def FromJson.encode.step (st : GoMap × List Nat) (entry : Nat × Item) :
    Option (GoMap × List Nat) :=
  match entry.2 with
  | .str name =>
    if entry.1 < st.2.length then
      some (if !st.1.has name then st.1.put name st.1.length else st.1,
        st.2.set entry.1
          ((if !st.1.has name then st.1.put name st.1.length else st.1).get name))
    else none
  | .other => none

/-- The loop `for i,fi := range v.([]interface{})` on the slice
`make([]int, len(v.([]interface{})))`. -/
def FromJson.encode (items : List Item) (features : GoMap) : Option (GoMap × List Nat) :=
  items.enum.foldlM FromJson.encode.step (features, List.replicate items.length 0)

/-- One turn of the loop `for k,v := range d`, on the map `features`, the slice `df` and
the field `Class` of the document. -/
def FromJson.entry (classes : GoMap) (st : GoMap × List (List Nat) × Nat)
    (kv : String × Json) : Option (GoMap × List (List Nat) × Nat) :=
  if kv.1 == "__label__" then
    match kv.2 with
    | .str s => some (st.1, st.2.1, classes.get s)
    | _ => none
  else
    match kv.2 with
    | .arr items =>
      if classes.get kv.1 < st.2.1.length then
        match FromJson.encode items st.1 with
        | some (features, fs) => some (features, st.2.1.set (classes.get kv.1) fs, st.2.2)
        | none => none
      else none
    | _ => none

/-- One turn of the loop `for di,d := range tmpDocs`: the document is the list of its
entries in the order in which the loop meets them. -/
def FromJson.document (classes : GoMap) (st : GoMap × List Document)
    (d : List (String × Json)) : Option (GoMap × List Document) :=
  match d.foldlM (FromJson.entry classes) (st.1, List.replicate classes.length [], 0) with
  | some (features, df, cls) => some (features, st.2 ++ [⟨df, cls⟩])
  | none => none

/-- The statement
`p.features_to_docs[fi] = append(p.features_to_docs[fi], class*doccnt+i)`, with
`k = class*doccnt+i`. -/
def FromJson.invert.step (k : Nat) (ftd : List (List Nat)) (fi : Nat) :
    Option (List (List Nat)) :=
  match ftd[fi]? with
  | some docs => some (ftd.set fi (docs ++ [k]))
  | none => none

/-- The loop `for class,features := range doc.Features` for document `i`. -/
def FromJson.invert.doc (doccnt : Nat) (ftd : List (List Nat)) (doc : Nat × Document) :
    Option (List (List Nat)) :=
  doc.2.Features.enum.foldlM (fun ftd (cf : Nat × List Nat) =>
    cf.2.foldlM (FromJson.invert.step (cf.1 * doccnt + doc.1)) ftd) ftd

/-- The loops that fill `p.features_to_docs`, started from `n` empty lists. -/
def FromJson.invert (Docs : List Document) (n : Nat) : Option (List (List Nat)) :=
  Docs.enum.foldlM (FromJson.invert.doc Docs.length) (List.replicate n [])

/-- The statement `names[int_repr] = name`. -/
def FromJson.names.step (names : List String) (e : String × Nat) : Option (List String) :=
  if e.2 < names.length then some (names.set e.2 e.1) else none

/-- The loops `for name,int_repr := range m { names[int_repr] = name }` on a slice of
`len(m)` strings. -/
def FromJson.names (m : GoMap) : Option (List String) :=
  m.foldlM FromJson.names.step (List.replicate m.length "")

/-- The function `FromJson`, from what `json.Unmarshal` leaves behind: `err` tells whether
it reported an error, `tmpDocs` holds the decoded documents, and `keys0` is the order in
which the first loop meets the keys of `tmpDocs[0]`. The result is `none` where the source
returns `nil`. -/
def FromJson {α : Type} [LinearOrderedField α] (err : Bool) (keys0 : List String)
    (tmpDocs : List (List (String × Json))) : Except Fault (Option (CLogLik α)) :=
  if err || tmpDocs.length == 0 then .ok none
  else
    match tmpDocs.foldlM (FromJson.document (FromJson.classes keys0)) ([], []) with
    | none => .error .panic
    | some (features, Docs) =>
      match FromJson.invert Docs features.length, FromJson.names (FromJson.classes keys0),
          FromJson.names features with
      | some ftd, some ClassMap, some FeatureMap =>
        match CLogLik.computeNumerators (⟨Docs, FeatureMap, ClassMap, [], ftd, 0⟩ : CLogLik α) with
        | some p => .ok (some { p with Threads := 1 })
        | none => .error .panic
      | _, _, _ => .error .panic

end cloglik

namespace cloglik

/-- The corpus of `TestMaxent` as decoded: two documents with the classes `A` and `B`. -/
def TestMaxent.tmpDocs : List (List (String × Json)) :=
  [[("A", .arr [.str "a"]), ("B", .arr [.str "b"]), ("__label__", .str "A")],
   [("A", .arr [.str "b"]), ("B", .arr [.str "a"]), ("__label__", .str "B")]]

/-- The keys of the first document of `TestMaxent`, in the order of the text. -/
def TestMaxent.keys0 : List String := ["A", "B", "__label__"]

end cloglik

namespace cloglik

variable {α : Type} [LinearOrderedField α]

/-- `CLogLik` seen through the interface `Function`, for given `math.Exp` and `math.Log`. -/
def CLogLik.toFunction (exp log : α → α) (p : CLogLik α) : gd.Function α where
  Val := p.Val exp log
  Fprime := p.Fprime exp
  Fprime_length := by
    have inv : ∀ (β : Type) (f : List α → β → Option (List α)),
        (∀ s x s', f s x = some s' → s'.length = s.length) →
        ∀ (xs : List β) (s s' : List α), xs.foldlM f s = some s' → s'.length = s.length := by
      intro β f hf xs
      induction xs with
      | nil =>
        intro s s' h
        simp only [List.foldlM_nil, pure, Option.some.injEq] at h
        rw [h]
      | cons y ys ih =>
        intro s s' h
        rw [List.foldlM_cons] at h
        cases hy : f s y with
        | none => simp [hy] at h
        | some s1 =>
          simp only [hy, Option.bind_eq_bind, Option.some_bind] at h
          rw [ih s1 s' h, hf s y s1 hy]
    intro v r r' h
    unfold CLogLik.Fprime at h
    cases hneg : CLogLik.Fprime.negate p r with
    | none => simp [hneg] at h
    | some r1 =>
      have h1 : r1.length = r.length := by
        refine inv Nat (CLogLik.Fprime.negate.step p) ?_ _ r r1 hneg
        intro s x s' hs
        unfold CLogLik.Fprime.negate.step at hs
        split at hs
        · split at hs
          · simp only [Option.some.injEq] at hs
            rw [← hs, List.length_set]
          · simp at hs
        · simp at hs
      simp only [hneg] at h
      split at h
      · simp at h
      · split at h
        · simp at h
        · rw [← h1]
          refine inv Nat _ ?_ _ r1 r' h
          intro s i s' hs
          refine inv Nat (CLogLik.Fprime.scatter p _) ?_ _ s s' hs
          intro t j t' ht
          unfold CLogLik.Fprime.scatter at ht
          split at ht
          · simp at ht
          · refine inv Nat (CLogLik.Fprime.scatter.step _ j) ?_ _ t t' ht
            intro u k u' hu
            unfold CLogLik.Fprime.scatter.step at hu
            split at hu
            · simp only [Option.some.injEq] at hu
              rw [← hu, List.length_set]
            · simp at hu

end cloglik

/-! ## Closed forms used in the statements -/

namespace cloglik

variable {α : Type} [LinearOrderedField α]

/-- The linear score of a feature list: the sum of the weights at its indices. -/
def scoreOf (l : gd.NDimensionalValue α) (features : List Nat) : α :=
  (features.map fun fi => l.getD fi 0).sum

/-- The sum of `exp` of the scores of all classes of a document. -/
def denomOf (exp : α → α) (d : Document) (l : gd.NDimensionalValue α) : α :=
  (d.Features.map fun fs => exp (scoreOf l fs)).sum

/-- The numerator of `P(c | d; x)`: `exp` of the score of class `c`, and `0` when the
document has no such class. -/
def numerOf (exp : α → α) (d : Document) (l : gd.NDimensionalValue α) (class_ : Nat) : α :=
  if class_ < d.Features.length then exp (scoreOf l (d.Features.getD class_ [])) else 0

end cloglik

namespace cloglik

variable {α : Type} [LinearOrderedField α]

/-- The value of `P(c | d; x)` as the source computes it from the numerator and the
denominator. -/
def probOf (exp : α → α) (d : Document) (l : gd.NDimensionalValue α) (class_ : Nat) : α :=
  if numerOf exp d l class_ = 0 ∧ denomOf exp d l = 0 then 1
  else numerOf exp d l class_ / denomOf exp d l

/-- The entry of the matrix `P_vec` at the combined index `k = class*doccnt + doc`. -/
def CLogLik.cell (exp : α → α) (p : CLogLik α) (l : gd.NDimensionalValue α) (k : Nat) : α :=
  match p.Docs[k % p.Docs.length]? with
  | some doc => probOf exp doc l (k / p.Docs.length)
  | none => 0

/-- The vector that `Fprime` assembles: `-numerators[i]` plus the entries of `P_vec` at
the combined indices listed in `features_to_docs[i]`. -/
def CLogLik.gradOf (exp : α → α) (p : CLogLik α) (l : gd.NDimensionalValue α) :
    gd.NDimensionalValue α :=
  (List.range p.numerators.length).map fun i =>
    -p.numerators.getD i 0 + ((p.features_to_docs.getD i []).map (p.cell exp l)).sum

/-- The shape of an objective with `C` classes and `D` features: at least one document,
`C` feature lists per document, gold classes and feature indices in range, `D` numerators
and `D` inverted lists whose entries are combined indices. -/
structure CLogLik.Valid (p : CLogLik α) (C D : Nat) : Prop where
  docs : 0 < p.Docs.length
  classes : ∀ d ∈ p.Docs, d.Features.length = C
  gold : ∀ d ∈ p.Docs, d.Class < C
  features : ∀ d ∈ p.Docs, ∀ fs ∈ d.Features, ∀ fi ∈ fs, fi < D
  numerators : p.numerators.length = D
  inverted : p.features_to_docs.length = D
  entries : ∀ docs ∈ p.features_to_docs, ∀ k ∈ docs, k < C * p.Docs.length

end cloglik

namespace cloglik

/-- The pairs (feature index, combined index `class*doccnt + doc`) in the order in which
the constructor meets them: documents, then classes, then the features of the list. -/
def FromJson.firings (Docs : List Document) : List (Nat × Nat) :=
  Docs.enum.flatMap fun doc =>
    doc.2.Features.enum.flatMap fun cf =>
      cf.2.map fun fi => (fi, cf.1 * Docs.length + doc.1)

/-- The feature indices of the gold-class lists of all documents, in order. -/
def goldFeatures (Docs : List Document) : List Nat :=
  Docs.flatMap fun d => (d.Features[d.Class]?).getD []

/-- The feature list `F_{d,c}` of document `d` and class `c` (empty outside the corpus). -/
def featuresOf (Docs : List Document) (d c : Nat) : List Nat :=
  match Docs[d]? with
  | some doc => doc.Features.getD c []
  | none => []

end cloglik

namespace cloglik

variable {α : Type} [LinearOrderedField α]

/-- The value `P(c | d; x)` for document number `d` of the objective (`0` outside the
corpus). -/
def CLogLik.prob (exp : α → α) (p : CLogLik α) (l : gd.NDimensionalValue α) (d c : Nat) : α :=
  match p.Docs[d]? with
  | some doc => probOf exp doc l c
  | none => 0

end cloglik

namespace gd

variable {α : Type} [LinearOrderedField α]

/-- One step of descent for a gradient given as a function: `x - eta * grad x`. -/
def descentMap (eta : α) (grad : NDimensionalValue α → NDimensionalValue α)
    (x : NDimensionalValue α) : NDimensionalValue α :=
  descend eta x (grad x)

/-- The gradient of a sum of parabolas on independent coordinates. -/
def parabolasGrad (ps : List (Parabola α)) (x : NDimensionalValue α) : NDimensionalValue α :=
  List.zipWith (fun p xi => 2 * p.a * xi + p.b) ps x

end gd

namespace cloglik

/-- The objectives that the constructor can build for the corpus of `TestMaxent`,
according to the indices it gives to the features and to the classes; `e` is `1` when the
feature `a` has index `0` and `-1` when it has index `1`. -/
def TestMaxent.shape (p : CLogLik ℝ) (e : ℝ) : Prop :=
  (e = 1 ∧ p.numerators = [0 + 1 + 1, 0]
    ∧ ((p.Docs = [⟨[[0], [1]], 0⟩, ⟨[[1], [0]], 1⟩] ∧ p.features_to_docs = [[0, 3], [2, 1]])
      ∨ (p.Docs = [⟨[[1], [0]], 1⟩, ⟨[[0], [1]], 0⟩]
          ∧ p.features_to_docs = [[2, 1], [0, 3]])))
  ∨ (e = -1 ∧ p.numerators = [0, 0 + 1 + 1]
    ∧ ((p.Docs = [⟨[[1], [0]], 0⟩, ⟨[[0], [1]], 1⟩] ∧ p.features_to_docs = [[2, 1], [0, 3]])
      ∨ (p.Docs = [⟨[[0], [1]], 1⟩, ⟨[[1], [0]], 0⟩]
          ∧ p.features_to_docs = [[0, 3], [2, 1]])))

end cloglik

/-! ## Further definitions used in the statements -/

/-- The indices that worker `i` gets when `n` indices are dealt out in blocks of `per`: the
loop `for j:=start;j<end;j++` with `start = i*per` and
`end = int(math.Min(float64((i+1)*per), float64(n)))`. -/
def block (n per i : Nat) : List Nat :=
  List.range' (i * per) (min ((i + 1) * per) n - i * per)

namespace gd

variable {α : Type} [LinearOrderedField α]

/-- The update phase of one pass when the workers get to their blocks one after the other
in the order `order` (a list of worker numbers). -/
def Optimize.workers (gd : GradientDescent α) (dim items_per_thread : Nat) (order : List Nat)
    (fp : NDimensionalValue α) (st : NDimensionalValue α × Bool) :
    Option (NDimensionalValue α × Bool) :=
  order.foldlM (fun st i => computeRoutine gd (Optimize.dispatch dim items_per_thread i) fp st)
    st

/-- The loop that the workers have replaced, kept in `Optimize` as a comment:
`for i,fpi := range fp { x[i] -= gd.LearningRate*fpi;
optimized = optimized && (math.Abs(fpi) < gd.Threshold) }`. -/
def Optimize.sequential (gd : GradientDescent α) (fp : NDimensionalValue α)
    (st : NDimensionalValue α × Bool) : Option (NDimensionalValue α × Bool) :=
  (List.range fp.length).foldlM (computeRoutine.update gd fp) st

end gd

namespace cloglik

/-- The order of the entries of an inverted list in the words "class outer, document
inner": the list is non-decreasing in the combined index `c*N + d`. -/
def FromJson.classOuter (docs : List Nat) : Prop :=
  docs.Pairwise fun k1 k2 => k1 ≤ k2

/-- The order of the entries of an inverted list when the documents are the outer loop and
the classes the inner one: of two entries `c1*N + d1` and `c2*N + d2` the earlier one has
`d1 < d2`, or `d1 = d2` and `c1 <= c2`. -/
def FromJson.documentOuter (N : Nat) (docs : List Nat) : Prop :=
  docs.Pairwise fun k1 k2 => k1 % N < k2 % N ∨ (k1 % N = k2 % N ∧ k1 / N ≤ k2 / N)

/-- The map `features` (or `classes`) that gives the names of `ns` their positions. -/
def GoMap.ofNames (ns : List String) : GoMap := ns.enum.map fun e => (e.2, e.1)

/-- The names after one more has been met: a new name goes to the end. -/
def FromJson.addName (ns : List String) (name : String) : List String :=
  if name ∈ ns then ns else ns ++ [name]

/-- The feature names of a decoded array, in order. -/
def FromJson.itemNames (items : List Item) : List String :=
  items.filterMap fun it => match it with
    | .str s => some s
    | .other => none

/-- The feature names of an entry of a decoded document (none for the label). -/
def FromJson.entryNames (kv : String × Json) : List String :=
  if kv.1 == "__label__" then []
  else match kv.2 with
    | .arr items => FromJson.itemNames items
    | _ => []

/-- The feature names of a decoded document, in the order in which the loop over its
entries meets them. -/
def FromJson.documentNames (d : List (String × Json)) : List String :=
  d.flatMap FromJson.entryNames

/-- The feature names that occur in the corpus, in the order in which the constructor
meets them (with repetitions). -/
def FromJson.featureNames (tmpDocs : List (List (String × Json))) : List String :=
  tmpDocs.flatMap FromJson.documentNames

/-- Whether a decoded entry has the types that `FromJson` asserts: a string for the label,
an array of strings for a class. -/
def FromJson.typedEntry (kv : String × Json) : Bool :=
  if kv.1 == "__label__" then
    match kv.2 with
    | .str _ => true
    | _ => false
  else
    match kv.2 with
    | .arr items => items.all fun it => match it with
      | .str _ => true
      | .other => false
    | _ => false

/-- One turn of the loop over the entries of a decoded document when nothing fails, on the
slice `df` and the field `Class`, for the feature names `ns`. -/
def FromJson.entryOf (classes : GoMap) (ns : List String) (st : List (List Nat) × Nat)
    (kv : String × Json) : List (List Nat) × Nat :=
  if kv.1 == "__label__" then
    match kv.2 with
    | .str s => (st.1, classes.get s)
    | _ => st
  else (st.1.set (classes.get kv.1) ((FromJson.entryNames kv).map fun nm => ns.indexOf nm),
    st.2)

/-- The document that the constructor builds from a decoded document when nothing fails,
for the feature names `ns`. -/
def FromJson.documentOf (classes : GoMap) (ns : List String) (d : List (String × Json)) :
    Document :=
  ⟨(d.foldl (FromJson.entryOf classes ns) (List.replicate classes.length [], 0)).1,
   (d.foldl (FromJson.entryOf classes ns) (List.replicate classes.length [], 0)).2⟩

/-- A decoded corpus in the input format, with `keys0` the keys of its first document in
the order in which the first loop of `FromJson` meets them: there is a document; every
document is a map (no key twice) with the keys of the first one, among them `__label__` and
at least one class; the classes hold arrays of strings, and the label holds a string that
names a class. -/
structure FromJson.Corpus (keys0 : List String) (tmpDocs : List (List (String × Json))) :
    Prop where
  nonempty : tmpDocs ≠ []
  first : ∀ d0, tmpDocs.head? = some d0 → keys0.Perm (d0.map Prod.fst)
  maps : ∀ d ∈ tmpDocs, (d.map Prod.fst).Nodup
  keys : ∀ d ∈ tmpDocs, ∀ k, k ∈ d.map Prod.fst ↔ k ∈ keys0
  labelled : "__label__" ∈ keys0
  classes : ∃ k ∈ keys0, k ≠ "__label__"
  typed : ∀ d ∈ tmpDocs, ∀ kv ∈ d, FromJson.typedEntry kv = true
  label : ∀ d ∈ tmpDocs, ∀ s, ("__label__", Json.str s) ∈ d → s ∈ keys0 ∧ s ≠ "__label__"

section
variable {α : Type} [LinearOrderedField α]

/-- The indices of `P_vec` that the first pool of `Fprime` writes, in the order of the
workers: worker `i` runs through the documents `j` of its block and, for each, through the
classes of `p.Docs[j]`, and writes `P_vec[class*doccnt + j]`. -/
def CLogLik.Fprime.writes (p : CLogLik α) : List Nat :=
  (List.range p.Threads).flatMap fun i =>
    (block p.Docs.length (ceilDiv p.Docs.length p.Threads) i).flatMap fun j =>
      match p.Docs[j]? with
      | some doc => (List.range doc.Features.length).map fun class_ => class_ * p.Docs.length + j
      | none => []

end
end cloglik

namespace driver

open cloglik

/-- What `main` writes: the number printed after `Loglikelihood:` and the map `rs` that is
marshalled, as the list of its entries. -/
structure Output (α : Type) where
  loglik : α
  rs : List (String × α)

section
variable {α : Type} [LinearOrderedField α]

/-- The assignment `rs[name] = v` on a `map[string]float64`. -/
def put (rs : List (String × α)) (name : String) (v : α) : List (String × α) :=
  if rs.any (fun e => e.1 == name) then rs.map fun e => if e.1 = name then (name, v) else e
  else rs ++ [(name, v)]

/-- The statement `rs[maxent.FeatureMap[i]] = v`. -/
def store (FeatureMap : List String) (rs : List (String × α)) (iv : Nat × α) :
    Option (List (String × α)) :=
  match FeatureMap[iv.1]? with
  | some name => some (put rs name iv.2)
  | none => none

/-- The function `main` of the driver, from what decoding the input leaves behind (as for
`FromJson`), with `threads` the value of `runtime.NumCPU()`. When `FromJson` has returned
`nil`, the assignment `maxent.Threads = threads` stops the program. -/
def main (exp log : α → α) (fuel threads : Nat) (err : Bool) (keys0 : List String)
    (tmpDocs : List (List (String × Json))) : Except Fault (Output α) :=
  match (FromJson err keys0 tmpDocs : Except Fault (Option (CLogLik α))) with
  | .error e => .error e
  | .ok none => .error .panic
  | .ok (some maxent) =>
    match gd.Optimize fuel ⟨1 / 10, 1 / 100, -1, threads⟩
        (CLogLik.toFunction exp log { maxent with Threads := threads })
        (List.replicate maxent.DimCnt 0) with
    | .error e => .error e
    | .ok xmin =>
      match CLogLik.Val exp log { maxent with Threads := threads } xmin with
      | none => .error .panic
      | some v =>
        match xmin.enum.foldlM (store maxent.FeatureMap) [] with
        | none => .error .panic
        | some rs => .ok ⟨v, rs⟩

end
end driver

/-! ## Binary64 arithmetic

The Go type `float64` is the IEEE 754 binary64 format. The definitions above take it as an
exact ordered field; the ones below round the result of every operation to the nearest
binary64 number, ties to even, as the Go compiler does where it does not fuse a product
with a sum (on amd64). Finite values are rationals. -/

namespace binary64

/-- The loop of `log2`: halve until the number is below `2`. -/
def log2.loop : Nat → Nat → Nat
  | 0, _ => 0
  | fuel + 1, n => if n < 2 then 0 else log2.loop fuel (n / 2) + 1

/-- The integer part of the binary logarithm of `n >= 1`. -/
def log2 (n : Nat) : Nat := log2.loop n n

/-- The binary exponent of `q != 0`: the `e` with `2^e <= |q| < 2^(e+1)`. -/
def exponent (q : ℚ) : Int :=
  let e0 : Int := (log2 q.num.natAbs : Int) - (log2 q.den : Int)
  if |q| < 2 ^ e0 then e0 - 1 else e0

/-- The integer nearest to `t >= 0`, the even one of the two when `t` is halfway. -/
def roundEven (t : ℚ) : ℚ :=
  if t - ⌊t⌋ < 1 / 2 then ⌊t⌋
  else if 1 / 2 < t - ⌊t⌋ then ⌊t⌋ + 1
  else if ⌊t⌋ % 2 = 0 then ⌊t⌋ else ⌊t⌋ + 1

/-- The binary64 number nearest to `q`: 53 significant bits, exponents from `-1022` (below
that the spacing stays `2^-1074`), ties to even; `none` when the rounded magnitude reaches
`2^1024`, where the format has an infinity. -/
def nearest (q : ℚ) : Option ℚ :=
  if q = 0 then some 0
  else
    let u : ℚ := 2 ^ (max (exponent q) (-1022) - 52)
    let v : ℚ := roundEven (|q| / u) * u
    if 2 ^ (1024 : Int) ≤ v then none else some (if q < 0 then -v else v)

end binary64

/-- A value of the Go type `float64`: a finite number, or an infinity or a NaN (`other`).
The two zeros are one value: the operations below do not tell them apart. -/
inductive Float64 where
  | finite (q : ℚ)
  | other
  deriving DecidableEq

/-- The `float64` value of an exact result. -/
def Float64.rounded (q : ℚ) : Float64 :=
  match binary64.nearest q with
  | some r => .finite r
  | none => .other

/-- The sum `a + b` of two `float64` values. -/
def Float64.add : Float64 → Float64 → Float64
  | .finite p, .finite q => Float64.rounded (p + q)
  | _, _ => .other

/-- The difference `a - b` of two `float64` values. -/
def Float64.sub : Float64 → Float64 → Float64
  | .finite p, .finite q => Float64.rounded (p - q)
  | _, _ => .other

/-- The product `a * b` of two `float64` values. -/
def Float64.mul : Float64 → Float64 → Float64
  | .finite p, .finite q => Float64.rounded (p * q)
  | _, _ => .other

/-- The test `math.Abs(a) < tau` for a finite `tau`: false for an infinity or a NaN. -/
def Float64.absLt (a : Float64) (tau : ℚ) : Bool :=
  match a with
  | .finite p => decide (|p| < tau)
  | .other => false

namespace gd

/-- Body of the worker loop of `computeRoutine` at index `i` in binary64 arithmetic: the
product `gd.LearningRate*fp[i]` is rounded, then the difference. The settings
`LearningRate` and `Threshold` are finite numbers. -/
def computeRoutine.update64 (gd : GradientDescent ℚ) (fp : NDimensionalValue Float64)
    (st : NDimensionalValue Float64 × Bool) (i : Nat) :
    Option (NDimensionalValue Float64 × Bool) :=
  match st.1[i]?, fp[i]? with
  | some xi, some fpi =>
    some (st.1.set i (Float64.sub xi (Float64.mul (.finite gd.LearningRate) fpi)),
      st.2 && Float64.absLt fpi gd.Threshold)
  | _, _ => none

/-- What `computeRoutine` does with one message, in binary64 arithmetic. -/
def computeRoutine64 (gd : GradientDescent ℚ) (msg : message) (fp : NDimensionalValue Float64)
    (st : NDimensionalValue Float64 × Bool) : Option (NDimensionalValue Float64 × Bool) :=
  (List.range' msg.start (msg.end_ - msg.start)).foldlM (computeRoutine.update64 gd fp) st

/-- One pass through the body of the loop of `Optimize`, in binary64 arithmetic. -/
def Optimize.body64 (gd : GradientDescent ℚ) (f : Function Float64)
    (dim items_per_thread : Nat) (s : State Float64) : Option (State Float64) :=
  match f.Fprime s.x s.fp with
  | none => none
  | some fp =>
    match (List.range gd.Threads).foldlM
        (fun st i => computeRoutine64 gd (Optimize.dispatch dim items_per_thread i) fp st)
        (s.x, true) with
    | none => none
    | some st => some ⟨st.1, fp, st.2, wrapInt (s.iter + 1)⟩

/-- The loop test `!optimized && gd.MaxIter != iter`. -/
def Optimize.continues64 (gd : GradientDescent ℚ) (s : State Float64) : Bool :=
  !s.optimized && gd.MaxIter != s.iter

/-- The loop `for !optimized && gd.MaxIter != iter { ... }`, in binary64 arithmetic. -/
def Optimize.loop64 (gd : GradientDescent ℚ) (f : Function Float64)
    (dim items_per_thread : Nat) : Nat → State Float64 → Except Fault (State Float64)
  | fuel, s =>
    if Optimize.continues64 gd s then
      match fuel with
      | 0 => .error .outOfFuel
      | fuel + 1 =>
        match Optimize.body64 gd f dim items_per_thread s with
        | none => .error .panic
        | some s' => Optimize.loop64 gd f dim items_per_thread fuel s'
    else .ok s

/-- The state in which the loop of `Optimize` is entered, in binary64 arithmetic. -/
def Optimize.start64 (x : NDimensionalValue Float64) : State Float64 :=
  ⟨x, List.replicate x.length (.finite 0), false, 0⟩

/-- The loop of `Optimize` run from its starting state, in binary64 arithmetic. -/
def Optimize.run64 (fuel : Nat) (gd : GradientDescent ℚ) (f : Function Float64)
    (x : NDimensionalValue Float64) : Except Fault (State Float64) :=
  Optimize.loop64 gd f x.length (ceilDiv x.length gd.Threads) fuel (Optimize.start64 x)

/-- The state after `n` passes through the loop body in binary64 arithmetic, whatever the
loop test says. -/
def Optimize.passes64 (gd : GradientDescent ℚ) (f : Function Float64)
    (dim items_per_thread : Nat) : Nat → State Float64 → Option (State Float64)
  | 0, s => some s
  | n + 1, s => (Optimize.body64 gd f dim items_per_thread s).bind
      (Optimize.passes64 gd f dim items_per_thread n)

/-- The method `Parabola.Fprime` in binary64 arithmetic: `r[0] = 2*p.a*x[0] + p.b`, the
products from the left, each result rounded. The coefficients are finite numbers. -/
def Parabola.Fprime64 (p : Parabola ℚ) (x r : NDimensionalValue Float64) :
    Option (NDimensionalValue Float64) :=
  match x[0]?, r with
  | some x0, _ :: rs =>
    some (Float64.add (Float64.mul (Float64.mul (.finite 2) (.finite p.a)) x0) (.finite p.b)
      :: rs)
  | _, _ => none

/-- The method `Parabola.Val` in binary64 arithmetic. -/
def Parabola.Val64 (p : Parabola ℚ) (x : NDimensionalValue Float64) : Option Float64 :=
  match x[0]? with
  | some x0 =>
    some (Float64.add
      (Float64.add (Float64.mul (Float64.mul (.finite p.a) x0) x0)
        (Float64.mul (.finite p.b) x0))
      (.finite p.c))
  | none => none

/-- `Parabola` seen through the interface `Function`, in binary64 arithmetic. -/
def Parabola.toFunction64 (p : Parabola ℚ) : Function Float64 where
  Val := p.Val64
  Fprime := p.Fprime64
  Fprime_length := by
    intro v r r' h
    unfold Parabola.Fprime64 at h
    split at h
    · simp only [Option.some.injEq] at h
      subst h
      simp
    · simp at h

end gd



/-! ## The workers of the optimizer under a schedule

The workers of `Optimize` are goroutines that share the flag `optimized`. The statement
`*optimized = *optimized && (math.Abs(fp[i]) < gd.Threshold)` reads the flag and then
writes it, and between the two another worker can read or write the same flag. The
definitions below run the workers of a pass step by step, in an order given by a
schedule. -/

namespace gd

variable {α : Type} [LinearOrderedField α]

/-- A worker while it handles its message: the indices of its block that are left and,
between its read of `*optimized` and its write for the first of them, the value read. -/
structure Worker where
  left : List Nat
  seen : Option Bool
  deriving DecidableEq, Repr

/-- The slice `x` and the flag `optimized` that the workers share, and the workers. -/
structure Pool (α : Type) where
  x : NDimensionalValue α
  optimized : Bool
  workers : List Worker

/-- One step of worker `w`. At an index `i` the worker first does
`x[i] -= gd.LearningRate*fp[i]` and reads `*optimized`; in its next step it writes
`*optimized` with the value read `&& (math.Abs(fp[i]) < gd.Threshold)` and goes on to the
next index. A worker that has nothing left, or a number that is no worker, does
nothing. -/
def computeRoutine.act (gd : GradientDescent α) (fp : NDimensionalValue α) (s : Pool α)
    (w : Nat) : Option (Pool α) :=
  match s.workers[w]? with
  | none => some s
  | some ⟨[], _⟩ => some s
  | some ⟨i :: rest, none⟩ =>
    match s.x[i]?, fp[i]? with
    | some xi, some fpi =>
      some ⟨s.x.set i (xi - gd.LearningRate * fpi), s.optimized,
        s.workers.set w ⟨i :: rest, some s.optimized⟩⟩
    | _, _ => none
  | some ⟨i :: rest, some b⟩ =>
    match fp[i]? with
    | some fpi =>
      some ⟨s.x, b && decide (|fpi| < gd.Threshold), s.workers.set w ⟨rest, none⟩⟩
    | none => none

/-- The workers as they receive their messages: worker `i` has the indices of
`message{i*items_per_thread, min((i+1)*items_per_thread, dim)}` before it. -/
def Optimize.pool (gd : GradientDescent α) (dim items_per_thread : Nat)
    (x : NDimensionalValue α) : Pool α :=
  ⟨x, true, (List.range gd.Threads).map fun i =>
    ⟨List.range' (Optimize.dispatch dim items_per_thread i).start
      ((Optimize.dispatch dim items_per_thread i).end_
        - (Optimize.dispatch dim items_per_thread i).start), none⟩⟩

/-- The steps with which every worker finishes what is left of its block, worker after
worker: two steps for each index. -/
def Optimize.finish (gd : GradientDescent α) (dim items_per_thread : Nat) : List Nat :=
  (List.range gd.Threads).flatMap fun i =>
    List.replicate (2 * ((Optimize.dispatch dim items_per_thread i).end_
      - (Optimize.dispatch dim items_per_thread i).start)) i

/-- The workers of one pass under the schedule `sched`, a list of worker numbers each of
which lets that worker take one step; after the schedule the workers finish one after
another (`Optimize` waits for all of them). The result is the slice `x` and the flag. -/
def Optimize.scheduled (gd : GradientDescent α) (dim items_per_thread : Nat)
    (sched : List Nat) (fp x : NDimensionalValue α) : Option (NDimensionalValue α × Bool) :=
  ((sched ++ Optimize.finish gd dim items_per_thread).foldlM (computeRoutine.act gd fp)
    (Optimize.pool gd dim items_per_thread x)).map fun s => (s.x, s.optimized)

/-- One pass through the body of the loop of `Optimize` with the workers under the
schedule `sched`. -/
def Optimize.bodyUnder (gd : GradientDescent α) (f : Function α) (dim items_per_thread : Nat)
    (sched : List Nat) (s : State α) : Option (State α) :=
  match f.Fprime s.x s.fp with
  | none => none
  | some fp =>
    match Optimize.scheduled gd dim items_per_thread sched fp s.x with
    | none => none
    | some st => some ⟨st.1, fp, st.2, wrapInt (s.iter + 1)⟩

/-- The loop of `Optimize` with one schedule for each pass; the loop is out of fuel when
the schedules are used up. -/
def Optimize.loopUnder (gd : GradientDescent α) (f : Function α) (dim items_per_thread : Nat) :
    List (List Nat) → State α → Except Fault (State α)
  | scheds, s =>
    if Optimize.continues gd s then
      match scheds with
      | [] => .error .outOfFuel
      | sched :: rest =>
        match Optimize.bodyUnder gd f dim items_per_thread sched s with
        | none => .error .panic
        | some s' => Optimize.loopUnder gd f dim items_per_thread rest s'
    else .ok s

/-- The loop of `Optimize` run from its starting state with one schedule for each pass. -/
def Optimize.runUnder (scheds : List (List Nat)) (gd : GradientDescent α) (f : Function α)
    (x : NDimensionalValue α) : Except Fault (State α) :=
  Optimize.loopUnder gd f x.length (ceilDiv x.length gd.Threads) scheds (Optimize.start x)

end gd


/-! ## Lemmas on the optimizer -/

namespace gd

variable {α : Type} [LinearOrderedField α]


theorem computeRoutine.update_some (gd : GradientDescent α) (fp x : NDimensionalValue α)
    (b : Bool) (i : Nat) (hx : i < x.length) (hf : i < fp.length) :
    computeRoutine.update gd fp (x, b) i
      = some (x.set i (x[i] - gd.LearningRate * fp[i]), b && decide (|fp[i]| < gd.Threshold)) := by
  simp [computeRoutine.update, List.getElem?_eq_getElem hx, List.getElem?_eq_getElem hf]

/-- A worker loop over `[k, k+n)` inside the slices updates exactly those coordinates. -/
theorem computeRoutine.sweep (gd : GradientDescent α) (fp : NDimensionalValue α) :
    ∀ (n k : Nat) (x : NDimensionalValue α) (b : Bool),
      k + n ≤ x.length → k + n ≤ fp.length →
      ∃ r, (List.range' k n).foldlM (computeRoutine.update gd fp) (x, b)
            = some (r, b && (List.range' k n).all
                (fun i => decide (|fp.getD i 0| < gd.Threshold)))
          ∧ r.length = x.length
          ∧ ∀ i, r.getD i 0 = if k ≤ i ∧ i < k + n
              then x.getD i 0 - gd.LearningRate * fp.getD i 0 else x.getD i 0 := by
  intro n
  induction n with
  | zero =>
    intro k x b _ _
    refine ⟨x, by simp, rfl, ?_⟩
    intro i
    have : ¬ (k ≤ i ∧ i < k + 0) := by omega
    rw [if_neg this]
  | succ n ih =>
    intro k x b hx hf
    have hkx : k < x.length := by omega
    have hkf : k < fp.length := by omega
    obtain ⟨r, hr, hlen, hget⟩ := ih (k + 1)
      (x.set k (x[k] - gd.LearningRate * fp[k]))
      (b && decide (|fp[k]| < gd.Threshold))
      (by simp; omega) (by omega)
    refine ⟨r, ?_, by simpa using hlen, ?_⟩
    · rw [List.range'_succ, List.foldlM_cons, computeRoutine.update_some gd fp x b k hkx hkf]
      simp only [Option.bind_eq_bind, Option.some_bind, hr, List.all_cons]
      simp [List.getElem?_eq_getElem hkf, Bool.and_assoc]
    · intro i
      rw [hget i]
      by_cases hik : i = k
      · subst hik
        simp [List.getElem?_eq_getElem hkx, List.getElem?_eq_getElem hkf, List.getElem?_set, hkx]
      · have h1 : (x.set k (x[k] - gd.LearningRate * fp[k])).getD i 0 = x.getD i 0 := by
          simp [List.getD_eq_getElem?_getD, List.getElem?_set, Ne.symm hik]
        rw [h1]
        by_cases h2 : k + 1 ≤ i ∧ i < k + 1 + n
        · have h3 : k ≤ i ∧ i < k + (n + 1) := by omega
          simp [h2, h3]
        · have h3 : ¬ (k ≤ i ∧ i < k + (n + 1)) := by omega
          simp [h2, h3]

/-- The blocks dispatched to the first `t` workers, run one after the other, are one sweep
over the coordinates below `min (t * ipt) dim`. -/
theorem Optimize.blocks_sweep (gd : GradientDescent α) (fp : NDimensionalValue α)
    (dim ipt : Nat) (st : NDimensionalValue α × Bool) :
    ∀ t : Nat, (List.range t).foldlM
        (fun st i => computeRoutine gd (Optimize.dispatch dim ipt i) fp st) st
      = (List.range' 0 (min (t * ipt) dim)).foldlM (computeRoutine.update gd fp) st := by
  intro t
  induction t with
  | zero => simp
  | succ t ih =>
    rw [List.range_succ, List.foldlM_append, ih]
    have hsplit : List.range' 0 (min ((t + 1) * ipt) dim)
        = List.range' 0 (min (t * ipt) dim)
          ++ List.range' (t * ipt) (min ((t + 1) * ipt) dim - t * ipt) := by
      rcases Nat.lt_or_ge dim (t * ipt) with h | h
      · have h1 : min (t * ipt) dim = dim := by omega
        have h2 : min ((t + 1) * ipt) dim = dim := by
          have : t * ipt ≤ (t + 1) * ipt := Nat.mul_le_mul_right _ (Nat.le_succ t)
          omega
        have h3 : dim - t * ipt = 0 := by omega
        simp [h1, h2, h3]
      · have h1 : min (t * ipt) dim = t * ipt := by omega
        have h4 : t * ipt ≤ min ((t + 1) * ipt) dim := by
          have : t * ipt ≤ (t + 1) * ipt := Nat.mul_le_mul_right _ (Nat.le_succ t)
          omega
        rw [h1]
        have := List.range'_append 0 (t * ipt) (min ((t + 1) * ipt) dim - t * ipt) 1
        simp only [Nat.zero_add, Nat.one_mul] at this
        rw [this]
        congr 1
        omega
    rw [hsplit, List.foldlM_append]
    simp [computeRoutine, Optimize.dispatch]

theorem ceilDiv_mul_ge (a b : Nat) (hb : 1 ≤ b) : a ≤ b * ceilDiv a b := by
  unfold ceilDiv
  have h := Nat.div_add_mod (a + b - 1) b
  have h2 := Nat.mod_lt (a + b - 1) (show 0 < b by omega)
  omega

/-- With at least one worker, the update phase of one iteration is `x - eta*fp` on the
whole vector, and the flag is the test of every coordinate of `fp`. -/
theorem Optimize.workers_eq (gd : GradientDescent α) (x fp : NDimensionalValue α)
    (hT : 1 ≤ gd.Threads) (hlen : fp.length = x.length) :
    (List.range gd.Threads).foldlM
        (fun st i => computeRoutine gd
          (Optimize.dispatch x.length (ceilDiv x.length gd.Threads) i) fp st) (x, true)
      = some (descend gd.LearningRate x fp, below gd.Threshold fp) := by
  rw [Optimize.blocks_sweep]
  have hmin : min (gd.Threads * ceilDiv x.length gd.Threads) x.length = x.length := by
    have := ceilDiv_mul_ge x.length gd.Threads hT
    omega
  rw [hmin]
  obtain ⟨r, hr, hrl, hget⟩ := computeRoutine.sweep gd fp x.length 0 x true
    (by omega) (by omega)
  rw [hr]
  congr 1
  refine Prod.ext ?_ ?_
  · show r = descend gd.LearningRate x fp
    apply List.ext_getElem
    · simp [descend, hrl, hlen]
    · intro i h1 h2
      have hi : i < x.length := by omega
      have hf : i < fp.length := by omega
      have := hget i
      rw [List.getD_eq_getElem _ _ h1, List.getD_eq_getElem _ _ hi,
        List.getD_eq_getElem _ _ hf, if_pos ⟨Nat.zero_le _, by omega⟩] at this
      simp [descend, this]
  · show (true && _) = below gd.Threshold fp
    simp only [Bool.true_and]
    rw [← hlen]
    unfold below
    rw [Bool.eq_iff_iff]
    simp only [List.all_eq_true, decide_eq_true_eq, List.mem_range']
    constructor
    · intro h g hg
      obtain ⟨i, hi, rfl⟩ := List.getElem_of_mem hg
      have := h i ⟨i, by omega⟩
      rwa [List.getD_eq_getElem _ _ hi] at this
    · intro h i hi
      obtain ⟨j, hj, hij⟩ := hi
      have hi2 : i < fp.length := by omega
      rw [List.getD_eq_getElem _ _ hi2]
      exact h _ (List.getElem_mem _)


theorem descend_length (eta : α) (x g : NDimensionalValue α) (h : g.length = x.length) :
    (descend eta x g).length = x.length := by
  simp [descend, h]

/-- One pass through the loop body, with at least one worker: the gradient is asked for
once, the whole of `x` becomes `x - eta*g`, and the flag is the test of `g`. -/
theorem Optimize.body_eq (gd : GradientDescent α) (f : Function α) (hT : 1 ≤ gd.Threads)
    (s : State α) (hlen : s.fp.length = s.x.length) :
    Optimize.body gd f s.x.length (ceilDiv s.x.length gd.Threads) s
      = (f.Fprime s.x s.fp).map fun g =>
          ⟨descend gd.LearningRate s.x g, g, below gd.Threshold g, wrapInt (s.iter + 1)⟩ := by
  unfold Optimize.body
  cases h : f.Fprime s.x s.fp with
  | none => rfl
  | some g =>
    have hg : g.length = s.x.length := by rw [f.Fprime_length _ _ _ h, hlen]
    simp only [Optimize.workers_eq gd s.x g hT hg, Option.map_some']

/-- The lengths of `x` and `fp` do not change in a pass. -/
theorem Optimize.body_length (gd : GradientDescent α) (f : Function α) (hT : 1 ≤ gd.Threads)
    (s s' : State α) (hlen : s.fp.length = s.x.length)
    (h : Optimize.body gd f s.x.length (ceilDiv s.x.length gd.Threads) s = some s') :
    s'.x.length = s.x.length ∧ s'.fp.length = s.x.length := by
  rw [Optimize.body_eq gd f hT s hlen] at h
  cases hg : f.Fprime s.x s.fp with
  | none => simp [hg] at h
  | some g =>
    have hgl : g.length = s.x.length := by rw [f.Fprime_length _ _ _ hg, hlen]
    simp only [hg, Option.map_some', Option.some.injEq] at h
    subst h
    exact ⟨descend_length _ _ _ hgl, hgl⟩

theorem Optimize.passes_length (gd : GradientDescent α) (f : Function α) (hT : 1 ≤ gd.Threads)
    (dim : Nat) : ∀ (n : Nat) (s s' : State α), s.x.length = dim → s.fp.length = dim →
      Optimize.passes gd f dim (ceilDiv dim gd.Threads) n s = some s' →
      s'.x.length = dim ∧ s'.fp.length = dim := by
  intro n
  induction n with
  | zero =>
    intro s s' hx hf h
    simp only [Optimize.passes, Option.some.injEq] at h
    subst h
    exact ⟨hx, hf⟩
  | succ n ih =>
    intro s s' hx hf h
    subst hx
    simp only [Optimize.passes] at h
    cases hb : Optimize.body gd f s.x.length (ceilDiv s.x.length gd.Threads) s with
    | none => simp [hb] at h
    | some s1 =>
      rw [hb, Option.some_bind] at h
      obtain ⟨h1, h2⟩ := Optimize.body_length gd f hT s s1 hf hb
      exact ih s1 s' h1 h2 h

theorem passes_succ_last (gd : GradientDescent α) (f : Function α) (dim ipt : Nat) :
    ∀ (n : Nat) (s : State α), Optimize.passes gd f dim ipt (n + 1) s
      = (Optimize.passes gd f dim ipt n s).bind (Optimize.body gd f dim ipt) := by
  intro n
  induction n with
  | zero => intro s; simp [Optimize.passes]
  | succ n ih =>
    intro s
    rw [Optimize.passes]
    cases hb : Optimize.body gd f dim ipt s with
    | none => simp [Optimize.passes, hb]
    | some s1 =>
      rw [Option.some_bind, ih s1]
      conv_rhs => rw [Optimize.passes, hb, Option.some_bind]

/-- A normal return of the loop is reached by a number of passes through the body, each
started with the loop test true, and ends in a state where the test is false. -/
theorem Optimize.loop_ok (gd : GradientDescent α) (f : Function α) (dim ipt : Nat) :
    ∀ (fuel : Nat) (s s' : State α), Optimize.loop gd f dim ipt fuel s = .ok s' →
      ∃ n, n ≤ fuel ∧ Optimize.passes gd f dim ipt n s = some s'
        ∧ Optimize.continues gd s' = false
        ∧ ∀ j, j < n → ∃ sj, Optimize.passes gd f dim ipt j s = some sj
            ∧ Optimize.continues gd sj = true := by
  intro fuel
  induction fuel with
  | zero =>
    intro s s' h
    unfold Optimize.loop at h
    by_cases hc : Optimize.continues gd s = true
    · simp [hc] at h
    · simp only [hc] at h
      simp only [Bool.false_eq_true, ↓reduceIte, Except.ok.injEq] at h
      subst h
      exact ⟨0, le_refl _, rfl, by simpa using hc, fun j hj => absurd hj (Nat.not_lt_zero j)⟩
  | succ fuel ih =>
    intro s s' h
    unfold Optimize.loop at h
    by_cases hc : Optimize.continues gd s = true
    · simp only [hc, ↓reduceIte] at h
      cases hb : Optimize.body gd f dim ipt s with
      | none => simp [hb] at h
      | some s1 =>
        simp only [hb] at h
        obtain ⟨n, hn, hp, hstop, htrace⟩ := ih s1 s' h
        refine ⟨n + 1, by omega, by simp [Optimize.passes, hb, hp], hstop, ?_⟩
        intro j hj
        cases j with
        | zero => exact ⟨s, rfl, hc⟩
        | succ j =>
          obtain ⟨sj, h1, h2⟩ := htrace j (by omega)
          exact ⟨sj, by simp [Optimize.passes, hb, h1], h2⟩
    · simp only [hc] at h
      simp only [Bool.false_eq_true, ↓reduceIte, Except.ok.injEq] at h
      subst h
      exact ⟨0, Nat.zero_le _, rfl, by simpa using hc, fun j hj => absurd hj (Nat.not_lt_zero j)⟩

/-- Conversely, passes that keep the loop test true until it fails are a run of the loop,
for any fuel that covers them. -/
theorem Optimize.loop_of_passes (gd : GradientDescent α) (f : Function α) (dim ipt : Nat) :
    ∀ (n : Nat) (s s' : State α), Optimize.passes gd f dim ipt n s = some s' →
      Optimize.continues gd s' = false →
      (∀ j, j < n → ∀ sj, Optimize.passes gd f dim ipt j s = some sj →
        Optimize.continues gd sj = true) →
      ∀ fuel, n ≤ fuel → Optimize.loop gd f dim ipt fuel s = .ok s' := by
  intro n
  induction n with
  | zero =>
    intro s s' hp hstop _ fuel _
    simp only [Optimize.passes, Option.some.injEq] at hp
    subst hp
    unfold Optimize.loop
    simp [hstop]
  | succ n ih =>
    intro s s' hp hstop htrace fuel hfuel
    have hc : Optimize.continues gd s = true := htrace 0 (by omega) s rfl
    cases fuel with
    | zero => omega
    | succ fuel =>
      unfold Optimize.loop
      simp only [hc, ↓reduceIte]
      simp only [Optimize.passes] at hp
      cases hb : Optimize.body gd f dim ipt s with
      | none => simp [hb] at hp
      | some s1 =>
        rw [hb, Option.some_bind] at hp
        simp only []
        refine ih s1 s' hp hstop ?_ fuel (by omega)
        intro j hj sj hsj
        exact htrace (j + 1) (by omega) sj (by simp [Optimize.passes, hb, hsj])

theorem wrapInt_of_lt (z : Int) (h0 : 0 ≤ z) (h1 : z < 2 ^ 63) : wrapInt z = z := by
  unfold wrapInt
  omega


theorem Optimize.start_continues (gd : GradientDescent α) (x : NDimensionalValue α) :
    Optimize.continues gd (Optimize.start x) = (gd.MaxIter != 0) := by
  simp [Optimize.continues, Optimize.start]

end gd

namespace gd
variable {α : Type} [LinearOrderedField α]

theorem Optimize.body_iter (gd : GradientDescent α) (f : Function α) (dim ipt : Nat)
    (s s' : State α) (h : Optimize.body gd f dim ipt s = some s') :
    s'.iter = wrapInt (s.iter + 1) := by
  unfold Optimize.body at h
  split at h
  · simp at h
  · split at h
    · simp at h
    · simp only [Option.some.injEq] at h
      subst h
      rfl

theorem Optimize.passes_iter (gd : GradientDescent α) (f : Function α) (dim ipt : Nat) :
    ∀ (n : Nat) (s s' : State α), Optimize.passes gd f dim ipt n s = some s' →
      0 ≤ s.iter → s.iter + n < 2 ^ 63 → s'.iter = s.iter + n := by
  intro n
  induction n with
  | zero =>
    intro s s' h _ _
    simp only [Optimize.passes, Option.some.injEq] at h
    subst h
    simp
  | succ n ih =>
    intro s s' h h0 h1
    simp only [Optimize.passes] at h
    cases hb : Optimize.body gd f dim ipt s with
    | none => simp [hb] at h
    | some s1 =>
      rw [hb, Option.some_bind] at h
      have hi := Optimize.body_iter gd f dim ipt s s1 hb
      rw [wrapInt_of_lt _ (by omega) (by push_cast at h1; omega)] at hi
      have := ih s1 s' h (by omega) (by push_cast at h1; omega)
      rw [this, hi]
      push_cast
      ring

/-- A run that exhausts its fuel has made that many passes, each started and ended with
the loop test true. -/
theorem Optimize.loop_outOfFuel (gd : GradientDescent α) (f : Function α) (dim ipt : Nat) :
    ∀ (fuel : Nat) (s : State α), Optimize.loop gd f dim ipt fuel s = .error .outOfFuel →
      ∃ s', Optimize.passes gd f dim ipt fuel s = some s'
        ∧ Optimize.continues gd s' = true := by
  intro fuel
  induction fuel with
  | zero =>
    intro s h
    unfold Optimize.loop at h
    by_cases hc : Optimize.continues gd s = true
    · exact ⟨s, rfl, hc⟩
    · simp [hc] at h
  | succ fuel ih =>
    intro s h
    unfold Optimize.loop at h
    by_cases hc : Optimize.continues gd s = true
    · simp only [hc, ↓reduceIte] at h
      cases hb : Optimize.body gd f dim ipt s with
      | none => simp [hb] at h
      | some s1 =>
        simp only [hb] at h
        obtain ⟨s', h1, h2⟩ := ih s1 h
        exact ⟨s', by simp [Optimize.passes, hb, h1], h2⟩
    · simp [hc] at h

end gd

/-! ## Lemmas on the objective -/

namespace cloglik

/-- A loop over the concatenation of lists is the nested loop. -/
theorem foldlM_flatMap {σ β γ : Type} (g : σ → γ → Option σ) (f : β → List γ) :
    ∀ (xs : List β) (s : σ),
      (xs.flatMap f).foldlM g s = xs.foldlM (fun s x => (f x).foldlM g s) s := by
  intro xs
  induction xs with
  | nil => intro s; rfl
  | cons x xs ih =>
    intro s
    rw [List.flatMap_cons, List.foldlM_append, List.foldlM_cons]
    cases h : (f x).foldlM g s with
    | none => rfl
    | some s1 => exact ih s1

/-- The blocks of the first `t` workers, run one after the other, are one loop over the
indices below `min (t * ipt) n`. -/
theorem blocks_foldlM {σ : Type} (g : σ → Nat → Option σ) (n ipt : Nat) (s : σ) :
    ∀ t : Nat, (List.range t).foldlM (fun s i =>
        (List.range' (i * ipt) (min ((i + 1) * ipt) n - i * ipt)).foldlM g s) s
      = (List.range' 0 (min (t * ipt) n)).foldlM g s := by
  intro t
  induction t with
  | zero => simp
  | succ t ih =>
    rw [List.range_succ, List.foldlM_append, ih]
    have hmono : t * ipt ≤ (t + 1) * ipt := Nat.mul_le_mul_right _ (Nat.le_succ t)
    have hsplit : List.range' 0 (min ((t + 1) * ipt) n)
        = List.range' 0 (min (t * ipt) n)
          ++ List.range' (t * ipt) (min ((t + 1) * ipt) n - t * ipt) := by
      rcases Nat.lt_or_ge n (t * ipt) with h | h
      · have h1 : min (t * ipt) n = n := by omega
        have h2 : min ((t + 1) * ipt) n = n := by omega
        have h3 : n - t * ipt = 0 := by omega
        simp [h1, h2, h3]
      · have h1 : min (t * ipt) n = t * ipt := by omega
        have h4 : t * ipt ≤ min ((t + 1) * ipt) n := by omega
        rw [h1]
        have := List.range'_append 0 (t * ipt) (min ((t + 1) * ipt) n - t * ipt) 1
        simp only [Nat.zero_add, Nat.one_mul] at this
        rw [this]
        congr 1
        omega
    rw [hsplit, List.foldlM_append]
    simp

/-- With at least one worker the blocks of `ceilDiv n T` indices cover `[0, n)` once. -/
theorem workers_foldlM {σ : Type} (g : σ → Nat → Option σ) (n T : Nat) (hT : 1 ≤ T) (s : σ) :
    (List.range T).foldlM (fun s i =>
        (List.range' (i * ceilDiv n T) (min ((i + 1) * ceilDiv n T) n - i * ceilDiv n T)).foldlM
          g s) s
      = (List.range n).foldlM g s := by
  rw [blocks_foldlM, List.range_eq_range']
  have := gd.ceilDiv_mul_ge n T hT
  have hmin : min (T * ceilDiv n T) n = n := by omega
  rw [hmin]

section objective

variable {α : Type} [LinearOrderedField α]

theorem Document.score_fold (l : gd.NDimensionalValue α) :
    ∀ (features : List Nat) (acc : α), (∀ fi ∈ features, fi < l.length) →
      features.foldlM (Document.score.add l) acc = some (acc + scoreOf l features) := by
  intro features
  induction features with
  | nil => intro acc _; simp [scoreOf]
  | cons fi fs ih =>
    intro acc h
    have hfi : fi < l.length := h fi (List.mem_cons_self _ _)
    rw [List.foldlM_cons]
    simp only [Document.score.add, List.getElem?_eq_getElem hfi, Option.bind_eq_bind,
      Option.some_bind]
    rw [ih _ (fun x hx => h x (List.mem_cons_of_mem _ hx))]
    simp [scoreOf, List.getElem?_eq_getElem hfi, add_assoc]

/-- The score loop returns the linear score when every index is in range. -/
theorem Document.score_eq (l : gd.NDimensionalValue α) (features : List Nat)
    (h : ∀ fi ∈ features, fi < l.length) :
    Document.score l features = some (scoreOf l features) := by
  unfold Document.score
  rw [Document.score_fold l features 0 h, zero_add]

theorem Document.score_fold_some (l : gd.NDimensionalValue α) :
    ∀ (features : List Nat) (acc v : α),
      features.foldlM (Document.score.add l) acc = some v →
        ∀ fi ∈ features, fi < l.length := by
  intro features
  induction features with
  | nil => intro _ _ _ fi hfi; simp at hfi
  | cons f fs ih =>
    intro acc v h fi hfi
    rw [List.foldlM_cons] at h
    cases hl : l[f]? with
    | none => simp [Document.score.add, hl] at h
    | some w =>
      simp only [Document.score.add, hl, Option.bind_eq_bind, Option.some_bind] at h
      rcases List.mem_cons.mp hfi with rfl | hmem
      · by_contra hcon
        rw [List.getElem?_eq_none (by omega)] at hl
        simp at hl
      · exact ih _ _ h fi hmem

/-- The values of the numerator and denominator of `Document.P` for the class lists
numbered from `k`. -/
theorem Document.P_fold (exp : α → α) (l : gd.NDimensionalValue α) (class_ : Nat) :
    ∀ (Features : List (List Nat)) (k : Nat) (acc : α × α),
      (∀ fs ∈ Features, ∀ fi ∈ fs, fi < l.length) →
      (List.enumFrom k Features).foldlM (Document.P.accumulate exp l class_) acc
        = some (acc.1 + ((List.enumFrom k Features).map fun e =>
                  if e.1 = class_ then exp (scoreOf l e.2) else 0).sum,
                acc.2 + (Features.map fun fs => exp (scoreOf l fs)).sum) := by
  intro Features
  induction Features with
  | nil => intro k acc _; simp
  | cons fs rest ih =>
    intro k acc h
    rw [List.enumFrom_cons, List.foldlM_cons]
    simp only [Document.P.accumulate,
      Document.score_eq l fs (h fs (List.mem_cons_self _ _)), Option.bind_eq_bind,
      Option.some_bind]
    rw [ih (k + 1) _ (fun x hx => h x (List.mem_cons_of_mem _ hx))]
    congr 1
    refine Prod.ext ?_ ?_
    · by_cases hk : k = class_
      · simp [hk, add_assoc]
      · simp [hk]
    · simp [add_assoc]

/-- The numerator sum picks the one list of the class. -/
theorem sum_pick (f : List Nat → α) (class_ : Nat) :
    ∀ (Features : List (List Nat)) (k : Nat),
      ((List.enumFrom k Features).map fun e => if e.1 = class_ then f e.2 else 0).sum
        = if k ≤ class_ ∧ class_ < k + Features.length
            then f (Features.getD (class_ - k) []) else 0 := by
  intro Features
  induction Features with
  | nil =>
    intro k
    have : ¬ (k ≤ class_ ∧ class_ < k + ([] : List (List Nat)).length) := by
      simp only [List.length_nil]; omega
    rw [if_neg this]
    simp
  | cons fs rest ih =>
    intro k
    rw [List.enumFrom_cons, List.map_cons, List.sum_cons, ih (k + 1)]
    by_cases hk : k = class_
    · subst hk
      have h1 : ¬ (k + 1 ≤ k ∧ k < k + 1 + rest.length) := by omega
      have h2 : k ≤ k ∧ k < k + (fs :: rest).length := by simp
      rw [if_neg h1, if_pos h2]
      simp
    · by_cases h1 : k + 1 ≤ class_ ∧ class_ < k + 1 + rest.length
      · have h2 : k ≤ class_ ∧ class_ < k + (fs :: rest).length := by
          simp only [List.length_cons]; omega
        rw [if_pos h1, if_pos h2]
        have h3 : class_ - k = (class_ - (k + 1)) + 1 := by omega
        simp [hk, h3]
      · have h2 : ¬ (k ≤ class_ ∧ class_ < k + (fs :: rest).length) := by
          simp only [List.length_cons]; omega
        rw [if_neg h1, if_neg h2]
        simp [hk]

/-- The value of `Document.P` when every feature index of the document is in range. -/
theorem Document.P_eq (exp : α → α) (d : Document) (l : gd.NDimensionalValue α) (class_ : Nat)
    (h : ∀ fs ∈ d.Features, ∀ fi ∈ fs, fi < l.length) :
    Document.P exp d l class_
      = some (if numerOf exp d l class_ = 0 ∧ denomOf exp d l = 0 then 1
          else numerOf exp d l class_ / denomOf exp d l) := by
  unfold Document.P
  rw [List.enum, Document.P_fold exp l class_ d.Features 0 (0, 0) h]
  simp only [zero_add, sum_pick (fun fs => exp (scoreOf l fs)) class_ d.Features 0,
    Nat.zero_le, true_and, Nat.sub_zero]
  rfl

end objective
end cloglik

namespace cloglik

/-- Two loop bodies that agree on the elements of the list give the same loop. -/
theorem foldlM_congr {σ β : Type} (f g : σ → β → Option σ) :
    ∀ (xs : List β) (s : σ), (∀ x ∈ xs, ∀ t, f t x = g t x) →
      xs.foldlM f s = xs.foldlM g s := by
  intro xs
  induction xs with
  | nil => intro s _; rfl
  | cons x xs ih =>
    intro s h
    rw [List.foldlM_cons, List.foldlM_cons, h x (List.mem_cons_self _ _) s]
    cases g s x with
    | none => rfl
    | some s1 => exact ih s1 (fun y hy t => h y (List.mem_cons_of_mem _ hy) t)

/-- A loop over `[0, n)` whose turn `i` rewrites the entry `i` of a slice of length `L`. -/
theorem foldlM_range_set {γ : Type} (F : Nat → γ → γ) (step : List γ → Nat → Option (List γ))
    (L : Nat)
    (hstep : ∀ (v : List γ) (i : Nat) (h : i < v.length), v.length = L →
      step v i = some (v.set i (F i v[i]))) :
    ∀ (n : Nat) (v : List γ), v.length = L → n ≤ L →
      ∃ v', (List.range n).foldlM step v = some v' ∧ v'.length = L
        ∧ ∀ i, v'[i]? = if i < n then v[i]?.map (F i) else v[i]? := by
  intro n
  induction n with
  | zero =>
    intro v hv _
    exact ⟨v, rfl, hv, fun i => by simp⟩
  | succ n ih =>
    intro v hv hn
    obtain ⟨v1, h1, hl1, hget⟩ := ih v hv (by omega)
    have hn1 : n < v1.length := by omega
    refine ⟨v1.set n (F n v1[n]), ?_, by simp [hl1], ?_⟩
    · rw [List.range_succ, List.foldlM_append, h1]
      simp [hstep v1 n hn1 hl1]
    · intro i
      rw [List.getElem?_set]
      by_cases hin : n = i
      · subst hin
        have hnv : n < v.length := by omega
        have h2 := hget n
        simp only [lt_irrefl, ↓reduceIte] at h2
        rw [List.getElem?_eq_getElem hn1, List.getElem?_eq_getElem hnv] at h2
        simp only [Option.some.injEq] at h2
        simp [hn1, h2, List.getElem?_eq_getElem hnv]
      · rw [if_neg hin, hget i]
        by_cases h3 : i < n
        · have h4 : i < n + 1 := by omega
          simp [h3, h4]
        · have h4 : ¬ i < n + 1 := by omega
          simp [h3, h4]

section objective
variable {α : Type} [LinearOrderedField α]

/-- The first loop of `Fprime` overwrites the whole buffer with the negated numerators. -/
theorem CLogLik.Fprime.negate_eq (p : CLogLik α) (r : gd.NDimensionalValue α)
    (h : p.numerators.length = r.length) :
    CLogLik.Fprime.negate p r = some (p.numerators.map fun v => -v) := by
  obtain ⟨v', h1, hl, hget⟩ := foldlM_range_set (fun i _ => -p.numerators.getD i 0)
    (CLogLik.Fprime.negate.step p) r.length
    (by
      intro v i hi hv
      have : i < p.numerators.length := by omega
      simp [CLogLik.Fprime.negate.step, List.getElem?_eq_getElem this, hi])
    r.length r rfl (le_refl _)
  unfold CLogLik.Fprime.negate
  rw [h1]
  congr 1
  apply List.ext_getElem?
  intro i
  rw [hget i]
  by_cases hi : i < r.length
  · have : i < p.numerators.length := by omega
    simp [hi, List.getElem?_eq_getElem this]
  · have : ¬ i < p.numerators.length := by omega
    simp [hi, List.getElem?_eq_none (not_lt.mp hi), List.getElem?_eq_none (not_lt.mp this)]

/-- The loop of a worker of the second pool for feature `j` adds the listed entries of
`P_vec` to `r[j]`. -/
theorem CLogLik.Fprime.scatter_fold (P_vec : List α) (j : Nat) :
    ∀ (docs : List Nat) (r : gd.NDimensionalValue α) (hj : j < r.length),
      (∀ k ∈ docs, k < P_vec.length) →
      docs.foldlM (CLogLik.Fprime.scatter.step P_vec j) r
        = some (r.set j (r[j] + (docs.map fun k => P_vec.getD k 0).sum)) := by
  intro docs
  induction docs with
  | nil =>
    intro r hj _
    simp only [List.foldlM_nil, List.map_nil, List.sum_nil, add_zero, pure]
    congr 1
    apply List.ext_getElem?
    intro i
    rw [List.getElem?_set]
    by_cases hij : j = i
    · subst hij
      simp [hj]
    · simp [hij]
  | cons k ks ih =>
    intro r hj h
    have hk : k < P_vec.length := h k (List.mem_cons_self _ _)
    rw [List.foldlM_cons]
    simp only [CLogLik.Fprime.scatter.step, List.getElem?_eq_getElem hj,
      List.getElem?_eq_getElem hk, Option.bind_eq_bind, Option.some_bind]
    rw [ih _ (by simpa using hj) (fun x hx => h x (List.mem_cons_of_mem _ hx))]
    simp [List.getElem?_eq_getElem hk, add_assoc]


/-- The loop over the classes of document `j` in the first pool: the cells of the document
hold its probabilities, the other cells are left as they were. -/
theorem CLogLik.Fprime.fill_classes (exp : α → α) (doc : Document)
    (l : gd.NDimensionalValue α) (N j : Nat) (hj : j < N)
    (hf : ∀ fs ∈ doc.Features, ∀ fi ∈ fs, fi < l.length) :
    ∀ (n : Nat) (P_vec : List α), n * N ≤ P_vec.length →
      ∃ Q, (List.range n).foldlM (CLogLik.Fprime.fill.step exp doc l N j) P_vec = some Q
        ∧ Q.length = P_vec.length
        ∧ (∀ c, c < n → Q[c * N + j]? = some (probOf exp doc l c))
        ∧ (∀ k, k % N ≠ j → Q[k]? = P_vec[k]?) := by
  intro n
  induction n with
  | zero =>
    intro P_vec _
    exact ⟨P_vec, rfl, rfl, fun c hc => absurd hc (Nat.not_lt_zero c), fun _ _ => rfl⟩
  | succ n ih =>
    intro P_vec hlen
    have hlen1 : n * N ≤ P_vec.length := by
      have : n * N ≤ (n + 1) * N := Nat.mul_le_mul_right _ (Nat.le_succ n)
      omega
    obtain ⟨Q, hQ, hQl, hcells, hframe⟩ := ih P_vec hlen1
    have hpos : n * N + j < Q.length := by
      have : (n + 1) * N = n * N + N := by ring
      omega
    refine ⟨Q.set (n * N + j) (probOf exp doc l n), ?_, by simp [hQl], ?_, ?_⟩
    · rw [List.range_succ, List.foldlM_append, hQ]
      simp only [Option.bind_eq_bind, Option.some_bind, List.foldlM_cons, List.foldlM_nil,
        CLogLik.Fprime.fill.step, Document.P_eq exp doc l n hf, probOf, hpos, ↓reduceIte]
      rfl
    · intro c hc
      rw [List.getElem?_set]
      by_cases hcn : c = n
      · subst hcn
        simp [hpos]
      · have hne : n * N + j ≠ c * N + j := by
          intro h
          have : n * N = c * N := by omega
          have hN : 0 < N := by omega
          exact hcn (Nat.eq_of_mul_eq_mul_right hN this).symm
        rw [if_neg hne]
        exact hcells c (by omega)
    · intro k hk
      rw [List.getElem?_set]
      have hne : n * N + j ≠ k := by
        intro h
        apply hk
        rw [← h, Nat.mul_comm, Nat.mul_add_mod, Nat.mod_eq_of_lt hj]
      rw [if_neg hne]
      exact hframe k hk

end objective
end cloglik

namespace cloglik
section objective
variable {α : Type} [LinearOrderedField α]

/-- The matrix `P_vec` after the first pool: every cell holds the probability of its
class for its document. -/
theorem CLogLik.Fprime.matrix_spec (exp : α → α) (p : CLogLik α) (C D : Nat)
    (hv : p.Valid C D) (hT : 1 ≤ p.Threads) (l : gd.NDimensionalValue α)
    (hl : l.length = D) :
    ∃ Pm, CLogLik.Fprime.matrix exp p l C p.Docs.length = some Pm
      ∧ Pm.length = C * p.Docs.length
      ∧ ∀ k, k < C * p.Docs.length → Pm[k]? = some (p.cell exp l k) := by
  have key : ∀ m, m ≤ p.Docs.length →
      ∃ Q, (List.range m).foldlM (CLogLik.Fprime.fill exp p l p.Docs.length)
            (List.replicate (C * p.Docs.length) 0) = some Q
        ∧ Q.length = C * p.Docs.length
        ∧ ∀ c d, c < C → d < m → ∀ doc, p.Docs[d]? = some doc →
            Q[c * p.Docs.length + d]? = some (probOf exp doc l c) := by
    intro m
    induction m with
    | zero =>
      intro _
      exact ⟨_, rfl, by simp, fun c d _ hd => absurd hd (Nat.not_lt_zero d)⟩
    | succ m ih =>
      intro hm
      obtain ⟨Q, hQ, hQl, hcells⟩ := ih (by omega)
      have hmN : m < p.Docs.length := by omega
      have hdoc : p.Docs[m]? = some p.Docs[m] := List.getElem?_eq_getElem hmN
      have hmem : p.Docs[m] ∈ p.Docs := List.getElem_mem _
      obtain ⟨Q', hQ', hQ'l, hnew, hframe⟩ := CLogLik.Fprime.fill_classes exp p.Docs[m] l
        p.Docs.length m hmN
        (fun fs hfs fi hfi => by rw [hl]; exact hv.features _ hmem fs hfs fi hfi)
        C Q (by omega)
      refine ⟨Q', ?_, by omega, ?_⟩
      · rw [List.range_succ, List.foldlM_append, hQ]
        simp only [Option.bind_eq_bind, Option.some_bind, List.foldlM_cons, List.foldlM_nil,
          CLogLik.Fprime.fill, hdoc, hv.classes _ hmem, hQ']
        rfl
      · intro c d hc hd doc hdoc'
        by_cases hdm : d = m
        · subst hdm
          rw [hdoc] at hdoc'
          simp only [Option.some.injEq] at hdoc'
          subst hdoc'
          exact hnew c hc
        · have hdN : d < p.Docs.length := by omega
          have hmod : (c * p.Docs.length + d) % p.Docs.length ≠ m := by
            rw [Nat.mul_comm, Nat.mul_add_mod, Nat.mod_eq_of_lt hdN]
            exact hdm
          rw [hframe _ hmod]
          exact hcells c d hc (by omega) doc hdoc'
  obtain ⟨Q, hQ, hQl, hcells⟩ := key p.Docs.length (le_refl _)
  refine ⟨Q, ?_, hQl, ?_⟩
  · unfold CLogLik.Fprime.matrix
    simp only []
    rw [workers_foldlM _ _ _ hT]
    exact hQ
  · intro k hk
    have hN : 0 < p.Docs.length := hv.docs
    have hd : k % p.Docs.length < p.Docs.length := Nat.mod_lt _ hN
    have hc : k / p.Docs.length < C := by
      rw [Nat.div_lt_iff_lt_mul hN]
      exact hk
    have hkk : k / p.Docs.length * p.Docs.length + k % p.Docs.length = k := by
      rw [Nat.mul_comm]
      exact Nat.div_add_mod k _
    have := hcells _ _ hc hd _ (List.getElem?_eq_getElem hd)
    rw [hkk] at this
    rw [this]
    simp only [CLogLik.cell, List.getElem?_eq_getElem hd]

/-- The closed form of `Fprime` on an objective of the constructor's shape: whatever the
buffer held, it ends as `-numerators[i]` plus the sum of the listed cells of `P_vec`. -/
theorem CLogLik.Fprime_eq (exp : α → α) (p : CLogLik α) (C D : Nat)
    (hv : p.Valid C D) (hT : 1 ≤ p.Threads) (l r : gd.NDimensionalValue α)
    (hl : l.length = D) (hr : r.length = D) :
    p.Fprime exp l r = some (p.gradOf exp l) := by
  obtain ⟨Pm, hPm, hPml, hcell⟩ := CLogLik.Fprime.matrix_spec exp p C D hv hT l hl
  have hN : 0 < p.Docs.length := hv.docs
  have hd0 : p.Docs[0]? = some p.Docs[0] := List.getElem?_eq_getElem hN
  have hC : p.Docs[0].Features.length = C := hv.classes _ (List.getElem_mem _)
  unfold CLogLik.Fprime
  rw [CLogLik.Fprime.negate_eq p r (by rw [hv.numerators, hr])]
  simp only [hd0, hC, hPm]
  rw [workers_foldlM _ _ _ hT]
  obtain ⟨v', h1, hl1, hget⟩ := foldlM_range_set
    (fun j rj => rj + ((p.features_to_docs.getD j []).map fun k => Pm.getD k 0).sum)
    (CLogLik.Fprime.scatter p Pm) D
    (by
      intro v i hi hvl
      have hi' : i < p.features_to_docs.length := by rw [hv.inverted]; omega
      unfold CLogLik.Fprime.scatter
      simp only [List.getElem?_eq_getElem hi']
      rw [CLogLik.Fprime.scatter_fold Pm i _ v hi
        (fun k hk => by rw [hPml]; exact hv.entries _ (List.getElem_mem _) k hk)]
      simp [List.getElem?_eq_getElem hi'])
    D (p.numerators.map fun v => -v) (by simp [hv.numerators]) (le_refl _)
  rw [hl, h1]
  congr 1
  apply List.ext_getElem?
  intro i
  rw [hget i]
  unfold CLogLik.gradOf
  by_cases hi : i < D
  · have hi1 : i < p.numerators.length := by rw [hv.numerators]; exact hi
    have hi2 : i < p.features_to_docs.length := by rw [hv.inverted]; exact hi
    have hsum : ((p.features_to_docs.getD i []).map fun k => Pm.getD k 0)
        = (p.features_to_docs.getD i []).map (p.cell exp l) := by
      apply List.map_congr_left
      intro k hk
      have hk' : k < C * p.Docs.length := by
        apply hv.entries _ _ k hk
        rw [List.getD_eq_getElem _ _ hi2]
        exact List.getElem_mem _
      have := hcell k hk'
      simp [List.getD_eq_getElem?_getD, this]
    rw [if_pos hi, hsum]
    simp [hi1, List.getElem?_eq_getElem hi1]
  · have hi1 : ¬ i < p.numerators.length := by rw [hv.numerators]; exact hi
    have h2 : (List.range p.numerators.length)[i]? = none :=
      List.getElem?_eq_none (by simp only [List.length_range]; omega)
    rw [if_neg hi]
    simp [h2, List.getElem?_eq_none (not_lt.mp hi1)]

end objective
end cloglik

namespace cloglik

/-- A loop over a mapped list is the loop with the map moved into the body. -/
theorem foldlM_map {σ β γ : Type} (g : σ → γ → Option σ) (f : β → γ) :
    ∀ (xs : List β) (s : σ), (xs.map f).foldlM g s = xs.foldlM (fun s x => g s (f x)) s := by
  intro xs
  induction xs with
  | nil => intro s; rfl
  | cons x xs ih =>
    intro s
    rw [List.map_cons, List.foldlM_cons, List.foldlM_cons]
    cases g s (f x) with
    | none => rfl
    | some s1 => exact ih s1

/-- The three nested loops that build the inverted index are one loop over the firings. -/
theorem FromJson.invert_eq_firings (Docs : List Document) (n : Nat) :
    FromJson.invert Docs n
      = (FromJson.firings Docs).foldlM (fun ftd pr => FromJson.invert.step pr.2 ftd pr.1)
          (List.replicate n []) := by
  unfold FromJson.invert FromJson.firings
  rw [foldlM_flatMap]
  apply foldlM_congr
  intro doc _ ftd
  unfold FromJson.invert.doc
  rw [foldlM_flatMap]
  apply foldlM_congr
  intro cf _ ftd'
  rw [foldlM_map]

/-- The appending loop: it returns exactly when every feature index is in range, and then
list `i` has grown by the combined indices paired with `i`, in order. -/
theorem FromJson.invert_fold :
    ∀ (pairs : List (Nat × Nat)) (ftd0 ftd : List (List Nat)),
      pairs.foldlM (fun ftd pr => FromJson.invert.step pr.2 ftd pr.1) ftd0 = some ftd →
      ftd.length = ftd0.length
        ∧ (∀ pr ∈ pairs, pr.1 < ftd0.length)
        ∧ ∀ i, ftd[i]? = ftd0[i]?.map
            (fun docs => docs ++ (pairs.filter fun pr => pr.1 = i).map Prod.snd) := by
  intro pairs
  induction pairs with
  | nil =>
    intro ftd0 ftd h
    simp only [List.foldlM_nil, pure, Option.some.injEq] at h
    subst h
    refine ⟨rfl, fun pr hpr => absurd hpr (List.not_mem_nil _), fun i => ?_⟩
    cases ftd0[i]? <;> simp
  | cons pr rest ih =>
    intro ftd0 ftd h
    rw [List.foldlM_cons] at h
    cases hstep : FromJson.invert.step pr.2 ftd0 pr.1 with
    | none => simp [hstep] at h
    | some ftd1 =>
      simp only [hstep, Option.bind_eq_bind, Option.some_bind] at h
      unfold FromJson.invert.step at hstep
      cases hlook : ftd0[pr.1]? with
      | none => simp [hlook] at hstep
      | some docs =>
        simp only [hlook, Option.some.injEq] at hstep
        subst hstep
        have hlt : pr.1 < ftd0.length := by
          by_contra hcon
          rw [List.getElem?_eq_none (by omega)] at hlook
          simp at hlook
        obtain ⟨hlen, hrange, hget⟩ := ih _ ftd h
        refine ⟨by simpa using hlen, ?_, ?_⟩
        · intro q hq
          rcases List.mem_cons.mp hq with rfl | hq
          · exact hlt
          · simpa using hrange q hq
        · intro i
          rw [hget i, List.getElem?_set]
          by_cases hi : pr.1 = i
          · subst hi
            simp [hlt, hlook, List.filter_cons]
          · simp [hi, List.filter_cons]

/-- The inverted index as a list: `features_to_docs[i]` is the sequence of combined
indices of the firings of feature `i`. -/
theorem FromJson.invert_spec (Docs : List Document) (n : Nat) (ftd : List (List Nat))
    (h : FromJson.invert Docs n = some ftd) :
    ftd.length = n
      ∧ (∀ pr ∈ FromJson.firings Docs, pr.1 < n)
      ∧ ∀ i, i < n →
          ftd[i]? = some (((FromJson.firings Docs).filter fun pr => pr.1 = i).map Prod.snd) := by
  rw [FromJson.invert_eq_firings] at h
  obtain ⟨hlen, hrange, hget⟩ := FromJson.invert_fold _ _ _ h
  refine ⟨by simpa using hlen, by simpa using hrange, ?_⟩
  intro i hi
  rw [hget i]
  simp [hi]

/-- Membership in the firings: a feature of a list of a class of a document. -/
theorem FromJson.mem_firings (Docs : List Document) (fi k : Nat) :
    (fi, k) ∈ FromJson.firings Docs ↔
      ∃ d c, d < Docs.length ∧ k = c * Docs.length + d
        ∧ ∃ doc, Docs[d]? = some doc ∧ ∃ fs, doc.Features[c]? = some fs ∧ fi ∈ fs := by
  unfold FromJson.firings
  simp only [List.mem_flatMap, List.mem_map, Prod.mk.injEq, Prod.exists]
  constructor
  · rintro ⟨d, doc, hd, c, fs, hc, f, hf, rfl, rfl⟩
    exact ⟨d, c, (List.mem_enum hd).1, rfl, doc, List.mem_enum_iff_getElem?.mp hd, fs,
      List.mem_enum_iff_getElem?.mp hc, hf⟩
  · rintro ⟨d, c, hd, rfl, doc, hdoc, fs, hfs, hf⟩
    refine ⟨d, doc, ?_, c, fs, ?_, fi, hf, rfl, rfl⟩
    · exact List.mem_enum_iff_getElem?.mpr hdoc
    · exact List.mem_enum_iff_getElem?.mpr hfs

end cloglik

namespace cloglik

/-- A loop whose body keeps a quantity keeps it. -/
theorem foldlM_invariant {σ β : Type} (f : σ → β → Option σ) (Q : σ → Prop)
    (hf : ∀ s x s', f s x = some s' → Q s → Q s') :
    ∀ (xs : List β) (s s' : σ), xs.foldlM f s = some s' → Q s → Q s' := by
  intro xs
  induction xs with
  | nil =>
    intro s s' h hq
    simp only [List.foldlM_nil, pure, Option.some.injEq] at h
    subst h
    exact hq
  | cons x xs ih =>
    intro s s' h hq
    rw [List.foldlM_cons] at h
    cases hx : f s x with
    | none => simp [hx] at h
    | some s1 =>
      simp only [hx, Option.bind_eq_bind, Option.some_bind] at h
      exact ih s1 s' h (hf s x s1 hx hq)

section objective
variable {α : Type} [LinearOrderedField α]

/-- The counting loop: it returns exactly when every index is in range, and then entry `i`
has grown by the number of occurrences of `i`. -/
theorem CLogLik.computeNumerators.incr_fold :
    ∀ (features : List Nat) (nums nums' : gd.NDimensionalValue α),
      features.foldlM CLogLik.computeNumerators.incr nums = some nums' →
      nums'.length = nums.length
        ∧ (∀ fi ∈ features, fi < nums.length)
        ∧ ∀ i, nums'[i]? = nums[i]?.map (fun v => v + (features.count i : α)) := by
  intro features
  induction features with
  | nil =>
    intro nums nums' h
    simp only [List.foldlM_nil, pure, Option.some.injEq] at h
    subst h
    refine ⟨rfl, fun fi hfi => absurd hfi (List.not_mem_nil _), fun i => ?_⟩
    cases nums[i]? <;> simp
  | cons f rest ih =>
    intro nums nums' h
    rw [List.foldlM_cons] at h
    cases hstep : CLogLik.computeNumerators.incr nums f with
    | none => simp [hstep] at h
    | some nums1 =>
      simp only [hstep, Option.bind_eq_bind, Option.some_bind] at h
      unfold CLogLik.computeNumerators.incr at hstep
      cases hlook : nums[f]? with
      | none => simp [hlook] at hstep
      | some v =>
        simp only [hlook, Option.some.injEq] at hstep
        subst hstep
        have hlt : f < nums.length := by
          by_contra hcon
          rw [List.getElem?_eq_none (by omega)] at hlook
          simp at hlook
        obtain ⟨hlen, hrange, hget⟩ := ih _ nums' h
        refine ⟨by simpa using hlen, ?_, ?_⟩
        · intro q hq
          rcases List.mem_cons.mp hq with rfl | hq
          · exact hlt
          · simpa using hrange q hq
        · intro i
          rw [hget i, List.getElem?_set]
          by_cases hi : f = i
          · subst hi
            simp only [hlt, ↓reduceIte, hlook, Option.map_some', List.count_cons_self,
              Nat.cast_add, Nat.cast_one, Option.some.injEq]
            ring
          · simp [hi, List.count_cons]

/-- The loop of `computeNumerators` over the documents. -/
theorem CLogLik.computeNumerators.doc_fold :
    ∀ (Docs : List Document) (nums nums' : gd.NDimensionalValue α),
      Docs.foldlM CLogLik.computeNumerators.doc nums = some nums' →
      nums'.length = nums.length
        ∧ (∀ d ∈ Docs, d.Class < d.Features.length)
        ∧ ∀ i, nums'[i]? = nums[i]?.map (fun v => v + ((goldFeatures Docs).count i : α)) := by
  intro Docs
  induction Docs with
  | nil =>
    intro nums nums' h
    simp only [List.foldlM_nil, pure, Option.some.injEq] at h
    subst h
    refine ⟨rfl, fun d hd => absurd hd (List.not_mem_nil _), fun i => ?_⟩
    cases nums[i]? <;> simp [goldFeatures]
  | cons d rest ih =>
    intro nums nums' h
    rw [List.foldlM_cons] at h
    cases hstep : CLogLik.computeNumerators.doc nums d with
    | none => simp [hstep] at h
    | some nums1 =>
      simp only [hstep, Option.bind_eq_bind, Option.some_bind] at h
      unfold CLogLik.computeNumerators.doc at hstep
      cases hlook : d.Features[d.Class]? with
      | none => simp [hlook] at hstep
      | some fs =>
        simp only [hlook] at hstep
        have hlt : d.Class < d.Features.length := by
          by_contra hcon
          rw [List.getElem?_eq_none (by omega)] at hlook
          simp at hlook
        obtain ⟨hlen1, -, hget1⟩ := CLogLik.computeNumerators.incr_fold fs nums nums1 hstep
        obtain ⟨hlen, hcls, hget⟩ := ih nums1 nums' h
        refine ⟨by omega, ?_, ?_⟩
        · intro q hq
          rcases List.mem_cons.mp hq with rfl | hq
          · exact hlt
          · exact hcls q hq
        · intro i
          rw [hget i, hget1 i]
          cases nums[i]? with
          | none => rfl
          | some v =>
            simp [goldFeatures, hlook, List.count_append, add_assoc]

/-- What `computeNumerators` leaves: the other fields untouched, one numerator per feature
name, every gold class in range, and `numerators[i]` the number of occurrences of `i` in
the gold-class lists. -/
theorem CLogLik.computeNumerators_spec (p p' : CLogLik α)
    (h : p.computeNumerators = some p') :
    p'.Docs = p.Docs ∧ p'.FeatureMap = p.FeatureMap ∧ p'.ClassMap = p.ClassMap
      ∧ p'.features_to_docs = p.features_to_docs ∧ p'.Threads = p.Threads
      ∧ p'.numerators.length = p.FeatureMap.length
      ∧ (∀ d ∈ p.Docs, d.Class < d.Features.length)
      ∧ ∀ i, i < p.FeatureMap.length →
          p'.numerators[i]? = some ((goldFeatures p.Docs).count i : α) := by
  unfold CLogLik.computeNumerators at h
  cases hfold : p.Docs.foldlM CLogLik.computeNumerators.doc
      (List.replicate p.FeatureMap.length (0 : α)) with
  | none => simp [hfold] at h
  | some nums =>
    simp only [hfold, Option.some.injEq] at h
    subst h
    obtain ⟨hlen, hcls, hget⟩ := CLogLik.computeNumerators.doc_fold _ _ _ hfold
    refine ⟨rfl, rfl, rfl, rfl, rfl, by simpa using hlen, hcls, ?_⟩
    intro i hi
    show nums[i]? = _
    rw [hget i]
    simp [hi]

end objective

/-- A turn of the loop over the entries of a document keeps the number of class lists. -/
theorem FromJson.entry_length (classes : GoMap) (st st' : GoMap × List (List Nat) × Nat)
    (kv : String × Json) (h : FromJson.entry classes st kv = some st') :
    st'.2.1.length = st.2.1.length := by
  unfold FromJson.entry at h
  split at h
  · split at h
    · simp only [Option.some.injEq] at h
      subst h
      rfl
    · simp at h
  · split at h
    · split at h
      · split at h
        · simp only [Option.some.injEq] at h
          subst h
          simp
        · simp at h
      · simp at h
    · simp at h

/-- Every document that the constructor encodes has one feature list per class, and the
documents are as many as the decoded ones. -/
theorem FromJson.document_fold (classes : GoMap) :
    ∀ (tmpDocs : List (List (String × Json))) (st st' : GoMap × List Document),
      tmpDocs.foldlM (FromJson.document classes) st = some st' →
      (∀ d ∈ st.2, d.Features.length = classes.length) →
      st'.2.length = st.2.length + tmpDocs.length
        ∧ ∀ d ∈ st'.2, d.Features.length = classes.length := by
  intro tmpDocs
  induction tmpDocs with
  | nil =>
    intro st st' h hq
    simp only [List.foldlM_nil, pure, Option.some.injEq] at h
    subst h
    exact ⟨rfl, hq⟩
  | cons d rest ih =>
    intro st st' h hq
    rw [List.foldlM_cons] at h
    cases hdoc : FromJson.document classes st d with
    | none => simp [hdoc] at h
    | some st1 =>
      simp only [hdoc, Option.bind_eq_bind, Option.some_bind] at h
      unfold FromJson.document at hdoc
      cases hent : d.foldlM (FromJson.entry classes)
          (st.1, List.replicate classes.length [], 0) with
      | none => simp [hent] at hdoc
      | some r =>
        obtain ⟨features, df, cls⟩ := r
        simp only [hent, Option.some.injEq] at hdoc
        subst hdoc
        have hdf : df.length = classes.length := by
          have := foldlM_invariant (FromJson.entry classes)
            (fun s => s.2.1.length = classes.length)
            (fun s x s' hs hq => (FromJson.entry_length classes s s' x hs).trans hq)
            d _ _ hent (by simp)
          exact this
        have := ih _ st' h (by
          intro x hx
          rcases List.mem_append.mp hx with hx | hx
          · exact hq x hx
          · simp only [List.mem_singleton] at hx
            subst hx
            exact hdf)
        refine ⟨?_, this.2⟩
        have h1 := this.1
        simp only [List.length_append, List.length_singleton] at h1
        rw [h1, List.length_cons]
        omega

/-- The slice of names has one entry per key of the map. -/
theorem FromJson.names_length (m : GoMap) (names : List String)
    (h : FromJson.names m = some names) : names.length = m.length := by
  unfold FromJson.names at h
  have := foldlM_invariant FromJson.names.step (fun s => s.length = m.length)
    (fun s x s' hs hq => by
      unfold FromJson.names.step at hs
      split at hs
      · simp only [Option.some.injEq] at hs
        subst hs
        simpa using hq
      · simp at hs)
    m _ _ h (by simp)
  exact this

end cloglik

namespace cloglik
section objective
variable {α : Type} [LinearOrderedField α]

/-- The objective that `FromJson` returns: one worker, as many documents as were decoded,
the constructor's shape, the inverted index built from its documents, and the numerators
counted from the gold-class lists. -/
theorem FromJson_spec (err : Bool) (keys0 : List String)
    (tmpDocs : List (List (String × Json))) (p : CLogLik α)
    (h : FromJson err keys0 tmpDocs = .ok (some p)) :
    p.Threads = 1 ∧ p.Docs.length = tmpDocs.length
      ∧ p.ClassMap.length = (FromJson.classes keys0).length
      ∧ p.Valid (FromJson.classes keys0).length p.FeatureMap.length
      ∧ FromJson.invert p.Docs p.FeatureMap.length = some p.features_to_docs
      ∧ ∀ i, i < p.FeatureMap.length →
          p.numerators[i]? = some ((goldFeatures p.Docs).count i : α) := by
  unfold FromJson at h
  split at h
  · simp at h
  · rename_i hne
    simp only [Bool.or_eq_true, beq_iff_eq, not_or, Bool.not_eq_true] at hne
    cases hfold : tmpDocs.foldlM (FromJson.document (FromJson.classes keys0)) ([], []) with
    | none => simp [hfold] at h
    | some st =>
      obtain ⟨features, Docs⟩ := st
      simp only [hfold] at h
      cases hinv : FromJson.invert Docs features.length with
      | none => simp [hinv] at h
      | some ftd =>
        cases hcm : FromJson.names (FromJson.classes keys0) with
        | none => simp [hinv, hcm] at h
        | some ClassMap =>
          cases hfm : FromJson.names features with
          | none => simp [hinv, hcm, hfm] at h
          | some FeatureMap =>
            simp only [hinv, hcm, hfm] at h
            cases hnum : CLogLik.computeNumerators
                (⟨Docs, FeatureMap, ClassMap, [], ftd, 0⟩ : CLogLik α) with
            | none => simp [hnum] at h
            | some q =>
              simp only [hnum, Except.ok.injEq, Option.some.injEq] at h
              subst h
              obtain ⟨hD, hF, hCM, hI, -, hnl, hcls, hcount⟩ :=
                CLogLik.computeNumerators_spec _ q hnum
              simp only at hD hF hCM hI hnl hcls hcount
              obtain ⟨hlen, hshape⟩ := FromJson.document_fold _ tmpDocs _ _ hfold
                (by simp)
              simp only [List.length_nil, Nat.zero_add] at hlen hshape
              have hfl : FeatureMap.length = features.length :=
                FromJson.names_length _ _ hfm
              obtain ⟨hil, hrange, hget⟩ := FromJson.invert_spec Docs features.length ftd hinv
              refine ⟨rfl, by simp only [hD]; exact hlen,
                by simp only [hCM]; exact FromJson.names_length _ _ hcm, ?_, ?_, ?_⟩
              · refine ⟨?_, ?_, ?_, ?_, ?_, ?_, ?_⟩
                · simp only [hD, hlen]
                  exact Nat.pos_of_ne_zero hne.2
                · simp only [hD]
                  exact hshape
                · simp only [hD]
                  intro d hd
                  rw [← hshape d hd]
                  exact hcls d hd
                · simp only [hD, hF, hfl]
                  intro d hd fs hfs fi hfi
                  obtain ⟨di, hdi, rfl⟩ := List.getElem_of_mem hd
                  obtain ⟨ci, hci, rfl⟩ := List.getElem_of_mem hfs
                  exact hrange (fi, ci * Docs.length + di)
                    ((FromJson.mem_firings Docs fi _).mpr
                      ⟨di, ci, hdi, rfl, _, List.getElem?_eq_getElem hdi, _,
                        List.getElem?_eq_getElem hci, hfi⟩)
                · simp only [hF]
                  exact hnl
                · simp only [hI, hF, hfl]
                  exact hil
                · simp only [hI, hD]
                  intro docs hdocs k hk
                  obtain ⟨i, hi, rfl⟩ := List.getElem_of_mem hdocs
                  have := hget i (by omega)
                  rw [List.getElem?_eq_getElem hi] at this
                  simp only [Option.some.injEq] at this
                  rw [this] at hk
                  obtain ⟨pr, hpr, hk2⟩ := List.mem_map.mp hk
                  have hmem : (pr.1, k) ∈ FromJson.firings Docs := by
                    rw [← hk2]
                    exact (List.mem_filter.mp hpr).1
                  obtain ⟨d, c, hd, hkd, doc, hdoc, fs, hfs, -⟩ :=
                    (FromJson.mem_firings Docs pr.1 k).mp hmem
                  rw [hkd]
                  have hdocmem : doc ∈ Docs := by
                    rw [List.getElem?_eq_getElem hd] at hdoc
                    simp only [Option.some.injEq] at hdoc
                    rw [← hdoc]
                    exact List.getElem_mem _
                  have hc : c < (FromJson.classes keys0).length := by
                    rw [← hshape doc hdocmem]
                    by_contra hcon
                    rw [List.getElem?_eq_none (by omega)] at hfs
                    simp at hfs
                  calc c * Docs.length + d < c * Docs.length + Docs.length := by omega
                    _ = (c + 1) * Docs.length := by ring
                    _ ≤ (FromJson.classes keys0).length * Docs.length :=
                        Nat.mul_le_mul_right _ hc
              · simp only [hD, hF, hI, hfl]
                exact hinv
              · simp only [hD, hF]
                exact hcount

/-- The objective that `FromJson` returns has the constructor's shape for `C` the length
of `ClassMap` and `D` the value of `DimCnt`. -/
theorem FromJson_valid (err : Bool) (keys0 : List String)
    (tmpDocs : List (List (String × Json))) (p : CLogLik α)
    (h : FromJson err keys0 tmpDocs = .ok (some p)) :
    p.Valid p.ClassMap.length p.DimCnt ∧ p.FeatureMap.length = p.DimCnt := by
  obtain ⟨-, -, hC, hv, -, -⟩ := FromJson_spec err keys0 tmpDocs p h
  have hD : p.FeatureMap.length = p.DimCnt := hv.numerators.symm
  rw [hC, ← hD]
  exact ⟨hv, rfl⟩

omit [LinearOrderedField α] in
/-- Changing the number of workers keeps the shape. -/
theorem CLogLik.Valid.threads {p : CLogLik α} {C D : Nat} (hv : p.Valid C D) (T : Nat) :
    CLogLik.Valid { p with Threads := T } C D :=
  ⟨hv.docs, hv.classes, hv.gold, hv.features, hv.numerators, hv.inverted, hv.entries⟩

end objective
end cloglik

namespace cloglik

/-- Occurrences in the concatenation over a numbered list, when only the element numbered
`j` can contribute. -/
theorem count_flatMap_enumFrom {β γ : Type} [BEq γ] [LawfulBEq γ] (g : Nat × β → List γ) (x : γ)
    (j : Nat) :
    ∀ (xs : List β) (k : Nat),
      (∀ e ∈ List.enumFrom k xs, e.1 ≠ j → x ∉ g e) →
      List.count x ((List.enumFrom k xs).flatMap g)
        = if k ≤ j then (xs[j - k]?).elim 0 (fun b => List.count x (g (j, b))) else 0 := by
  intro xs
  induction xs with
  | nil => intro k _; simp
  | cons a rest ih =>
    intro k h
    rw [List.enumFrom_cons, List.flatMap_cons, List.count_append,
      ih (k + 1) (fun e he => h e (by rw [List.enumFrom_cons]; exact List.mem_cons_of_mem _ he))]
    by_cases hkj : k = j
    · subst hkj
      simp
    · have h0 : List.count x (g (k, a)) = 0 :=
        List.count_eq_zero_of_not_mem
          (h (k, a) (by rw [List.enumFrom_cons]; exact List.mem_cons_self _ _) hkj)
      rw [h0, Nat.zero_add]
      by_cases hle : k + 1 ≤ j
      · have hle' : k ≤ j := by omega
        have hidx : j - k = (j - (k + 1)) + 1 := by omega
        rw [if_pos hle, if_pos hle', hidx, List.getElem?_cons_succ]
      · have hle' : ¬ k ≤ j := by omega
        rw [if_neg hle, if_neg hle']

/-- Occurrences of a combined index in the list of a feature, counted in the firings. -/
theorem count_filter_snd (l : List (Nat × Nat)) (i k : Nat) :
    List.count k ((l.filter fun pr => pr.1 = i).map Prod.snd) = List.count (i, k) l := by
  induction l with
  | nil => rfl
  | cons pr rest ih =>
    obtain ⟨a, b⟩ := pr
    by_cases ha : a = i
    · subst ha
      by_cases hb : b = k
      · subst hb
        simp [List.filter_cons, ih]
      · have hne : ((a, b) == (a, k)) = false := by simp [hb]
        simp [List.filter_cons, ih, List.count_cons, hb, hne]
    · have hne : ((a, b) == (i, k)) = false := by simp [ha]
      simp [List.filter_cons, ih, List.count_cons, ha, hne]

theorem count_map_pair (fs : List Nat) (i k : Nat) :
    List.count (i, k) (fs.map fun fi => (fi, k)) = List.count i fs := by
  induction fs with
  | nil => rfl
  | cons f rest ih =>
    by_cases hf : f = i
    · subst hf
      simp [ih]
    · have hne : ((f, k) == (i, k)) = false := by simp [hf]
      simp [List.count_cons, ih, hf, hne]

/-- The firings of feature `i` at the combined index of document `d` and class `c` are as
many as the occurrences of `i` in the feature list of `d` and `c`. -/
theorem FromJson.count_firings (Docs : List Document) (i d c : Nat) (hd : d < Docs.length) :
    List.count (i, c * Docs.length + d) (FromJson.firings Docs)
      = List.count i (featuresOf Docs d c) := by
  unfold FromJson.firings
  rw [List.enum, count_flatMap_enumFrom _ _ d]
  · simp only [Nat.zero_le, ↓reduceIte, Nat.sub_zero, List.getElem?_eq_getElem hd,
      Option.elim_some]
    rw [List.enum, count_flatMap_enumFrom _ _ c]
    · simp only [Nat.zero_le, ↓reduceIte, Nat.sub_zero, featuresOf,
        List.getElem?_eq_getElem hd]
      cases hfs : (Docs[d]).Features[c]? with
      | none => simp [List.getD_eq_getElem?_getD, hfs]
      | some fs =>
        simp only [Option.elim_some, List.getD_eq_getElem?_getD, hfs, Option.getD_some]
        exact count_map_pair fs i _
    · intro e _ hne hmem
      simp only [List.mem_map, Prod.mk.injEq] at hmem
      obtain ⟨fi, -, -, hk⟩ := hmem
      apply hne
      have : e.1 * Docs.length = c * Docs.length := by omega
      exact Nat.eq_of_mul_eq_mul_right (by omega) this
  · intro e he hne hmem
    simp only [List.mem_flatMap, List.mem_map, Prod.mk.injEq] at hmem
    obtain ⟨cf, -, fi, -, -, hk⟩ := hmem
    have he1 : e.1 < Docs.length := by
      have := List.mem_enumFrom he
      omega
    apply hne
    have h1 : (cf.1 * Docs.length + e.1) % Docs.length = e.1 := by
      rw [Nat.mul_comm, Nat.mul_add_mod, Nat.mod_eq_of_lt he1]
    have h2 : (c * Docs.length + d) % Docs.length = d := by
      rw [Nat.mul_comm, Nat.mul_add_mod, Nat.mod_eq_of_lt hd]
    rw [← h1, hk, h2]

end cloglik

namespace cloglik

/-- The constructor on the corpus of `TestMaxent`, read in the order of the text. -/
theorem TestMaxent.FromJson_eq {α : Type} [LinearOrderedField α] :
    (FromJson false TestMaxent.keys0 TestMaxent.tmpDocs : Except Fault (Option (CLogLik α)))
      = .ok (some ⟨[⟨[[0], [1]], 0⟩, ⟨[[1], [0]], 1⟩], ["a", "b"], ["A", "B"],
          [0 + 1 + 1, 0], [[0, 3], [2, 1]], 1⟩) := by
  rfl

end cloglik

namespace cloglik
section objective
variable {α : Type} [LinearOrderedField α]

/-- A sum over the combined indices below `C * N` is the double sum over classes and
documents. -/
theorem sum_range_combined (g : Nat → α) (N : Nat) :
    ∀ C : Nat, (∑ k ∈ Finset.range (C * N), g k)
      = ∑ c ∈ Finset.range C, ∑ d ∈ Finset.range N, g (c * N + d) := by
  intro C
  induction C with
  | zero => simp
  | succ C ih =>
    rw [Finset.sum_range_succ, ← ih, Nat.succ_mul, Finset.sum_range_add]

/-- The sum that a worker of the second pool adds to `r[i]`, as a sum over documents and
classes weighted by the occurrences of `i`. -/
theorem sum_inverted (f : Nat → α) (p : CLogLik α) (C D : Nat) (hv : p.Valid C D)
    (hinv : FromJson.invert p.Docs D = some p.features_to_docs) (i : Nat) (hi : i < D) :
    ((p.features_to_docs.getD i []).map f).sum
      = ∑ d ∈ Finset.range p.Docs.length, ∑ c ∈ Finset.range C,
          ((featuresOf p.Docs d c).count i : α) * f (c * p.Docs.length + d) := by
  obtain ⟨-, -, hget⟩ := FromJson.invert_spec _ _ _ hinv
  have hi' : i < p.features_to_docs.length := by rw [hv.inverted]; exact hi
  have hL : p.features_to_docs.getD i [] = p.features_to_docs[i] :=
    List.getD_eq_getElem _ _ hi'
  have hcount : ∀ d c, d < p.Docs.length →
      (p.features_to_docs.getD i []).count (c * p.Docs.length + d)
        = (featuresOf p.Docs d c).count i := by
    intro d c hd
    have := hget i hi
    rw [List.getD_eq_getElem?_getD, this, Option.getD_some, count_filter_snd,
      FromJson.count_firings p.Docs i d c hd]
  rw [Finset.sum_list_map_count]
  have hsub : (p.features_to_docs.getD i []).toFinset ⊆ Finset.range (C * p.Docs.length) := by
    intro k hk
    rw [List.mem_toFinset, hL] at hk
    exact Finset.mem_range.mpr (hv.entries _ (List.getElem_mem _) k hk)
  rw [Finset.sum_subset hsub (by
    intro k _ hk
    rw [List.mem_toFinset] at hk
    rw [List.count_eq_zero_of_not_mem hk, zero_smul])]
  rw [sum_range_combined, Finset.sum_comm]
  apply Finset.sum_congr rfl
  intro d hd
  apply Finset.sum_congr rfl
  intro c _
  rw [hcount d c (Finset.mem_range.mp hd), nsmul_eq_mul]

end objective
end cloglik

namespace cloglik
section objective
variable {α : Type} [LinearOrderedField α]

/-- The entries of the vector that `Fprime` assembles for an objective of the constructor:
minus the gold occurrences of the feature, plus the probabilities of all documents and
classes weighted by the occurrences of the feature. -/
theorem FromJson_gradOf (exp : α → α) (err : Bool) (keys0 : List String)
    (tmpDocs : List (List (String × Json))) (p : CLogLik α)
    (h : FromJson err keys0 tmpDocs = .ok (some p)) (T : Nat) (x : gd.NDimensionalValue α)
    (i : Nat) (hi : i < p.DimCnt) :
    (CLogLik.gradOf exp { p with Threads := T } x)[i]?
      = some (-((goldFeatures p.Docs).count i : α)
          + ∑ d ∈ Finset.range p.Docs.length, ∑ c ∈ Finset.range p.ClassMap.length,
              ((featuresOf p.Docs d c).count i : α) * p.prob exp x d c) := by
  obtain ⟨-, -, -, -, hinv, hnum⟩ := FromJson_spec err keys0 tmpDocs p h
  obtain ⟨hv, hD⟩ := FromJson_valid err keys0 tmpDocs p h
  rw [hD] at hinv hnum
  have hi' : i < p.numerators.length := hi
  unfold CLogLik.gradOf
  simp only [List.getElem?_map, List.getElem?_range hi', Option.map_some']
  have hn := hnum i hi
  rw [List.getD_eq_getElem?_getD, hn, Option.getD_some, sum_inverted _ p _ _ hv hinv i hi]
  congr 2
  apply Finset.sum_congr rfl
  intro d hd
  apply Finset.sum_congr rfl
  intro c _
  have hdN : d < p.Docs.length := Finset.mem_range.mp hd
  congr 1
  show CLogLik.cell exp _ x _ = _
  unfold CLogLik.cell CLogLik.prob
  simp only []
  rw [Nat.mul_comm, Nat.mul_add_mod, Nat.mod_eq_of_lt hdN, Nat.mul_add_div hv.docs,
    Nat.div_eq_of_lt hdN, Nat.add_zero]

end objective
end cloglik

namespace cloglik
section objective
variable {α : Type} [LinearOrderedField α]

theorem CLogLik.Val_fold (exp log : α → α) (l : gd.NDimensionalValue α) :
    ∀ (Docs : List Document) (acc : α),
      (∀ d ∈ Docs, ∀ fs ∈ d.Features, ∀ fi ∈ fs, fi < l.length) →
      Docs.foldlM (CLogLik.Val.add exp log l) acc
        = some (acc + (Docs.map fun doc => log (probOf exp doc l doc.Class)).sum) := by
  intro Docs
  induction Docs with
  | nil => intro acc _; simp
  | cons d rest ih =>
    intro acc h
    rw [List.foldlM_cons]
    simp only [CLogLik.Val.add,
      Document.P_eq exp d l d.Class (h d (List.mem_cons_self _ _)), Option.bind_eq_bind,
      Option.some_bind]
    rw [ih _ (fun x hx => h x (List.mem_cons_of_mem _ hx))]
    simp [probOf, add_assoc]

/-- The closed form of `Val` on an objective of the constructor's shape. -/
theorem CLogLik.Val_eq (exp log : α → α) (p : CLogLik α) (C D : Nat) (hv : p.Valid C D)
    (l : gd.NDimensionalValue α) (hl : l.length = D) :
    p.Val exp log l = some (p.Docs.map fun doc => log (probOf exp doc l doc.Class)).sum := by
  unfold CLogLik.Val
  rw [CLogLik.Val_fold exp log l p.Docs 0
    (fun d hd fs hfs fi hfi => by rw [hl]; exact hv.features d hd fs hfs fi hfi), zero_add]

/-- Changing one weight moves the score of a list by the change times the number of
occurrences of the index. -/
theorem scoreOf_set (x : gd.NDimensionalValue α) (i : Nat) (hi : i < x.length) (t : α)
    (fs : List Nat) :
    scoreOf (x.set i t) fs = scoreOf x fs + (fs.count i : α) * (t - x.getD i 0) := by
  induction fs with
  | nil => simp [scoreOf]
  | cons f rest ih =>
    unfold scoreOf at ih ⊢
    rw [List.map_cons, List.sum_cons, ih, List.map_cons, List.sum_cons]
    by_cases hf : f = i
    · subst hf
      simp only [List.getD_eq_getElem?_getD, List.getElem?_set, hi, ↓reduceIte,
        Option.getD_some, List.count_cons_self, Nat.cast_add, Nat.cast_one]
      ring
    · have hne : (f == i) = false := by simp [hf]
      simp only [List.getD_eq_getElem?_getD, List.getElem?_set, Ne.symm hf, ↓reduceIte,
        List.count_cons, hne, Bool.false_eq_true, Nat.add_zero]
      ring

end objective
end cloglik

/-! ## Lemmas on runs of the optimizer and on the test objectives -/

namespace gd
variable {α : Type} [LinearOrderedField α]

/-- A run whose first gradient passes the test makes one pass and returns. -/
theorem Optimize.run_one (gd : GradientDescent α) (f : Function α) (hT : 1 ≤ gd.Threads)
    (hM : gd.MaxIter ≠ 0) (x0 g : NDimensionalValue α)
    (hg : f.Fprime x0 (List.replicate x0.length 0) = some g)
    (hbelow : below gd.Threshold g = true) (fuel : Nat) :
    Optimize.run (fuel + 1) gd f x0 = .ok ⟨descend gd.LearningRate x0 g, g, true, 1⟩ := by
  have hb := Optimize.body_eq gd f hT (Optimize.start x0) (by simp [Optimize.start])
  have hx : (Optimize.start x0).x = x0 := rfl
  have hfp : (Optimize.start x0).fp = List.replicate x0.length 0 := rfl
  rw [hx, hfp, hg] at hb
  simp only [Option.map_some'] at hb
  unfold Optimize.run Optimize.loop
  rw [Optimize.start_continues]
  have : (gd.MaxIter != 0) = true := by simpa using hM
  simp only [this, ↓reduceIte, hb]
  unfold Optimize.loop
  simp [Optimize.continues, hbelow, Optimize.start, wrapInt]

/-- A step along the zero vector does not move. -/
theorem descend_zero (eta : α) (x : NDimensionalValue α) :
    descend eta x (List.replicate x.length 0) = x := by
  unfold descend
  apply List.ext_getElem
  · simp
  · intro i h1 h2
    simp

/-- The zero vector passes the test of every positive threshold. -/
theorem below_zero (tau : α) (htau : 0 < tau) (n : Nat) :
    below tau (List.replicate n 0) = true := by
  simp [below, htau]

end gd

namespace cloglik
section objective
variable {α : Type} [LinearOrderedField α]

/-- A document with one class gives that class the probability `1`. -/
theorem probOf_single (exp : α → α) (doc : Document) (l : gd.NDimensionalValue α)
    (h : doc.Features.length = 1) : probOf exp doc l 0 = 1 := by
  obtain ⟨fs, hfs⟩ := List.length_eq_one.mp h
  unfold probOf numerOf denomOf
  simp only [hfs, List.length_singleton, Nat.lt_one_iff, ↓reduceIte, List.getD_cons_zero,
    List.map_cons, List.map_nil, List.sum_cons, List.sum_nil, add_zero, and_self]
  by_cases he : exp (scoreOf l fs) = 0
  · simp [he]
  · simp [he]

end objective
end cloglik

namespace gd
variable {α : Type} [LinearOrderedField α]

/-- A run that returns with the flag set has made a last pass: the flag is the test of
the gradient asked for at the point held before that pass, and the returned point is one
step along that gradient from there. -/
theorem Optimize.run_converged (gd : GradientDescent α) (f : Function α) (hT : 1 ≤ gd.Threads)
    (x0 : NDimensionalValue α) (fuel : Nat) (s : State α)
    (hrun : Optimize.run fuel gd f x0 = .ok s) (hopt : s.optimized = true) :
    ∃ (n : Nat) (sprev : State α),
      Optimize.passes gd f x0.length (ceilDiv x0.length gd.Threads) n (Optimize.start x0)
        = some sprev
      ∧ sprev.x.length = x0.length ∧ sprev.fp.length = x0.length
      ∧ f.Fprime sprev.x sprev.fp = some s.fp
      ∧ below gd.Threshold s.fp = true
      ∧ s.x = descend gd.LearningRate sprev.x s.fp := by
  obtain ⟨n, -, hp, -, -⟩ := Optimize.loop_ok gd f _ _ fuel _ s hrun
  cases n with
  | zero =>
    simp only [Optimize.passes, Option.some.injEq] at hp
    subst hp
    simp [Optimize.start] at hopt
  | succ m =>
    rw [passes_succ_last] at hp
    cases hprev : Optimize.passes gd f x0.length (ceilDiv x0.length gd.Threads) m
        (Optimize.start x0) with
    | none => simp [hprev] at hp
    | some sprev =>
      rw [hprev, Option.some_bind] at hp
      obtain ⟨hxl, hfl⟩ := Optimize.passes_length gd f hT x0.length m _ sprev rfl
        (by simp [Optimize.start]) hprev
      have hb := Optimize.body_eq gd f hT sprev (hfl.trans hxl.symm)
      rw [hxl, hp] at hb
      cases hg : f.Fprime sprev.x sprev.fp with
      | none => simp [hg] at hb
      | some g =>
        simp only [hg, Option.map_some', Option.some.injEq] at hb
        subst hb
        exact ⟨m, sprev, hprev, hxl, hfl, hg, hopt, rfl⟩

end gd

namespace gd
variable {α : Type} [LinearOrderedField α]

/-- For an objective whose `Fprime` fills the buffer with `grad x`, the state after `n + 1`
passes: the point is the iterate of the descent map, the buffer and the flag are those of
the gradient at the previous iterate. -/
theorem Optimize.passes_of_grad (gd : GradientDescent α) (f : Function α) (hT : 1 ≤ gd.Threads)
    (grad : NDimensionalValue α → NDimensionalValue α) (x0 : NDimensionalValue α)
    (hgrad : ∀ x r : NDimensionalValue α, x.length = x0.length → r.length = x0.length →
      f.Fprime x r = some (grad x)) :
    ∀ n : Nat, ((n : Int) + 1 < 2 ^ 63) →
      Optimize.passes gd f x0.length (ceilDiv x0.length gd.Threads) (n + 1) (Optimize.start x0)
        = some ⟨(descentMap gd.LearningRate grad)^[n + 1] x0,
            grad ((descentMap gd.LearningRate grad)^[n] x0),
            below gd.Threshold (grad ((descentMap gd.LearningRate grad)^[n] x0)),
            (n : Int) + 1⟩ := by
  have hgl : ∀ x : NDimensionalValue α, x.length = x0.length → (grad x).length = x0.length := by
    intro x hx
    have := f.Fprime_length _ _ _ (hgrad x (List.replicate x0.length 0) hx (by simp))
    simpa using this
  have hxl : ∀ n : Nat, ((descentMap gd.LearningRate grad)^[n] x0).length = x0.length := by
    intro n
    induction n with
    | zero => rfl
    | succ n ih =>
      rw [Function.iterate_succ_apply']
      exact (descend_length _ _ _ ((hgl _ ih).trans ih.symm)).trans ih
  intro n
  induction n with
  | zero =>
    intro _
    have hb := Optimize.body_eq gd f hT (Optimize.start x0) (by simp [Optimize.start])
    have hx : (Optimize.start x0).x = x0 := rfl
    rw [hx, hgrad x0 _ rfl (by simp [Optimize.start])] at hb
    simp only [Optimize.passes, hb, Option.map_some', Option.some_bind]
    simp [Optimize.start, wrapInt, descentMap]
  | succ n ih =>
    intro hn
    rw [passes_succ_last, ih (by omega), Option.some_bind]
    have hb := Optimize.body_eq gd f hT
      ⟨(descentMap gd.LearningRate grad)^[n + 1] x0,
        grad ((descentMap gd.LearningRate grad)^[n] x0),
        below gd.Threshold (grad ((descentMap gd.LearningRate grad)^[n] x0)),
        (n : Int) + 1⟩ (by simp only; rw [hgl _ (hxl n), hxl (n + 1)])
    simp only [hxl (n + 1)] at hb
    rw [hb, hgrad _ _ (hxl (n + 1)) (hgl _ (hxl n))]
    simp only [Option.map_some', Option.some.injEq]
    have hw : wrapInt ((n : Int) + 1 + 1) = ((n + 1 : Nat) : Int) + 1 := by
      rw [wrapInt_of_lt _ (by omega) (by push_cast at hn; omega)]
      push_cast
      ring
    rw [hw, Function.iterate_succ_apply' (f := descentMap gd.LearningRate grad) (n := n + 1)]
    rfl

/-- With no cap in reach, a run returns after the first pass whose gradient passes the
test: if the gradients at the first `n` iterates fail it and the gradient at the `n`-th
iterate passes, every fuel above `n` gives the `(n+1)`-st iterate. -/
theorem Optimize.run_of_first_below (gd : GradientDescent α) (f : Function α)
    (hT : 1 ≤ gd.Threads) (grad : NDimensionalValue α → NDimensionalValue α)
    (x0 : NDimensionalValue α)
    (hgrad : ∀ x r : NDimensionalValue α, x.length = x0.length → r.length = x0.length →
      f.Fprime x r = some (grad x))
    (n : Nat) (hn : (n : Int) + 1 < 2 ^ 63)
    (hM : gd.MaxIter < 0 ∨ (n : Int) + 1 < gd.MaxIter)
    (hfail : ∀ j, j < n →
      below gd.Threshold (grad ((descentMap gd.LearningRate grad)^[j] x0)) = false)
    (hpass : below gd.Threshold (grad ((descentMap gd.LearningRate grad)^[n] x0)) = true)
    (fuel : Nat) (hfuel : n + 1 ≤ fuel) :
    Optimize.run fuel gd f x0
      = .ok ⟨(descentMap gd.LearningRate grad)^[n + 1] x0,
          grad ((descentMap gd.LearningRate grad)^[n] x0), true, (n : Int) + 1⟩ := by
  have hlast := Optimize.passes_of_grad gd f hT grad x0 hgrad n hn
  rw [hpass] at hlast
  refine Optimize.loop_of_passes gd f _ _ (n + 1) _ _ hlast ?_ ?_ fuel hfuel
  · simp [Optimize.continues]
  · intro j hj sj hsj
    cases j with
    | zero =>
      simp only [Optimize.passes, Option.some.injEq] at hsj
      subst hsj
      rw [Optimize.start_continues]
      simp only [bne_iff_ne, ne_eq]
      omega
    | succ j =>
      rw [Optimize.passes_of_grad gd f hT grad x0 hgrad j (by omega)] at hsj
      simp only [Option.some.injEq] at hsj
      subst hsj
      simp only [Optimize.continues, hfail j (by omega), Bool.not_false, Bool.true_and,
        bne_iff_ne, ne_eq]
      omega

end gd

namespace gd
variable {α : Type} [LinearOrderedField α]

omit [LinearOrderedField α] in
/-- The sub-slice of one element. -/
theorem slice1_eq (v : NDimensionalValue α) (i : Nat) (hi : i < v.length) :
    slice1 v i = some [v[i]] := by
  unfold slice1
  rw [if_pos (by omega), List.take_one_drop_eq_of_lt_length hi]
  rfl

/-- `Parabola.Fprime` on slices of one element. -/
theorem Parabola.Fprime_single (p : Parabola α) (x0 r0 : α) :
    p.Fprime [x0] [r0] = some [2 * p.a * x0 + p.b] := by
  simp [Parabola.Fprime]

/-- `Parabola.Fprime` on vectors of length one is the gradient of the one parabola. -/
theorem Parabola.Fprime_unit_grad (p : Parabola α) (x r : NDimensionalValue α)
    (hx : x.length = 1) (hr : r.length = 1) :
    p.Fprime x r = some (parabolasGrad [p] x) := by
  obtain ⟨x0, rfl⟩ := List.length_eq_one.mp hx
  obtain ⟨r0, rfl⟩ := List.length_eq_one.mp hr
  rw [Parabola.Fprime_single]
  simp [parabolasGrad]

/-- The loop of `NDimensionalParabola.Fprime` over the parabolas numbered from `k`. -/
theorem NDimensionalParabola.Fprime_fold (x : NDimensionalValue α) :
    ∀ (ps : List (Parabola α)) (k : Nat) (r : NDimensionalValue α),
      k + ps.length ≤ x.length → r.length = x.length →
      ∃ r', (List.enumFrom k ps).foldlM (NDimensionalParabola.Fprime.step x) r = some r'
        ∧ r'.length = x.length
        ∧ ∀ j, r'[j]? = if k ≤ j ∧ j < k + ps.length
            then (ps[j - k]?).bind fun p => (x[j]?).map fun xj => 2 * p.a * xj + p.b
            else r[j]? := by
  intro ps
  induction ps with
  | nil =>
    intro k r _ hr
    refine ⟨r, rfl, hr, fun j => ?_⟩
    have : ¬ (k ≤ j ∧ j < k + ([] : List (Parabola α)).length) := by
      simp only [List.length_nil]; omega
    rw [if_neg this]
  | cons p rest ih =>
    intro k r hk hr
    simp only [List.length_cons] at hk
    have hkx : k < x.length := by omega
    have hkr : k < r.length := by omega
    have hset : r.take k ++ [2 * p.a * x[k] + p.b] ++ r.drop (k + 1)
        = r.set k (2 * p.a * x[k] + p.b) := by
      rw [List.set_eq_take_append_cons_drop, if_pos hkr]
      simp
    obtain ⟨r', hr', hlen, hget⟩ := ih (k + 1) (r.set k (2 * p.a * x[k] + p.b))
      (by omega) (by simpa using hr)
    refine ⟨r', ?_, hlen, ?_⟩
    · rw [List.enumFrom_cons, List.foldlM_cons]
      simp only [NDimensionalParabola.Fprime.step, slice1_eq x k hkx, slice1_eq r k hkr,
        Parabola.Fprime_single, hset, Option.bind_eq_bind, Option.some_bind]
      exact hr'
    · intro j
      rw [hget j, List.getElem?_set]
      by_cases hjk : k = j
      · subst hjk
        have h1 : ¬ (k + 1 ≤ k ∧ k < k + 1 + rest.length) := by omega
        have h2 : k ≤ k ∧ k < k + (p :: rest).length := by simp
        rw [if_neg h1, if_pos h2]
        simp [hkr, List.getElem?_eq_getElem hkx]
      · by_cases h1 : k + 1 ≤ j ∧ j < k + 1 + rest.length
        · have h2 : k ≤ j ∧ j < k + (p :: rest).length := by
            simp only [List.length_cons]; omega
          have h3 : j - k = (j - (k + 1)) + 1 := by omega
          rw [if_pos h1, if_pos h2, h3, List.getElem?_cons_succ]
        · have h2 : ¬ (k ≤ j ∧ j < k + (p :: rest).length) := by
            simp only [List.length_cons]; omega
          rw [if_neg h1, if_neg h2, if_neg hjk]

/-- `NDimensionalParabola.Fprime` on vectors as long as the list of parabolas is the
gradient of their sum. -/
theorem NDimensionalParabola.Fprime_sum_grad (ps : List (Parabola α)) (x r : NDimensionalValue α)
    (hx : x.length = ps.length) (hr : r.length = ps.length) :
    (NDimensionalParabola.mk ps).Fprime x r = some (parabolasGrad ps x) := by
  obtain ⟨r', hr', hlen, hget⟩ := NDimensionalParabola.Fprime_fold x ps 0 r (by omega)
    (by omega)
  unfold NDimensionalParabola.Fprime
  rw [List.enum]
  simp only []
  rw [hr']
  congr 1
  apply List.ext_getElem?
  intro j
  rw [hget j]
  unfold parabolasGrad
  rw [List.getElem?_zipWith']
  by_cases hj : j < ps.length
  · have hjx : j < x.length := by omega
    simp [hj, List.getElem?_eq_getElem hj, List.getElem?_eq_getElem hjx]
  · have hjx : ¬ j < x.length := by omega
    have hjr : ¬ j < r.length := by omega
    simp [hj, List.getElem?_eq_none (not_lt.mp hj), List.getElem?_eq_none (not_lt.mp hjr)]

end gd

namespace gd
variable {α : Type} [LinearOrderedField α]

/-- A step of descent multiplies every coordinate of the gradient of a sum of parabolas
by `1 - 2*a*eta`. -/
theorem parabolasGrad_descentMap (ps : List (Parabola α)) (eta : α)
    (x : NDimensionalValue α) (hx : x.length = ps.length) :
    parabolasGrad ps (descentMap eta (parabolasGrad ps) x)
      = List.zipWith (fun p g => (1 - 2 * p.a * eta) * g) ps (parabolasGrad ps x) := by
  apply List.ext_getElem
  · simp [parabolasGrad, descentMap, descend, hx]
  · intro i h1 h2
    simp only [parabolasGrad, descentMap, descend, List.getElem_zipWith]
    ring

theorem descentMap_length (ps : List (Parabola α)) (eta : α) (x : NDimensionalValue α)
    (hx : x.length = ps.length) :
    (descentMap eta (parabolasGrad ps) x).length = ps.length := by
  simp [descentMap, descend, parabolasGrad, hx]

theorem iterate_length (ps : List (Parabola α)) (eta : α) (x0 : NDimensionalValue α)
    (hx0 : x0.length = ps.length) (n : Nat) :
    ((descentMap eta (parabolasGrad ps))^[n] x0).length = ps.length := by
  induction n with
  | zero => exact hx0
  | succ n ih =>
    rw [Function.iterate_succ_apply']
    exact descentMap_length ps eta _ ih

/-- The gradient of a sum of parabolas along the iterates of descent: coordinate `i` of the
first gradient times `(1 - 2*a_i*eta)^n`. -/
theorem parabolasGrad_iterate (ps : List (Parabola α)) (eta : α) (x0 : NDimensionalValue α)
    (hx0 : x0.length = ps.length) (n : Nat) :
    parabolasGrad ps ((descentMap eta (parabolasGrad ps))^[n] x0)
      = List.zipWith (fun p x0i => (1 - 2 * p.a * eta) ^ n * (2 * p.a * x0i + p.b)) ps x0 := by
  induction n with
  | zero => simp [parabolasGrad]
  | succ n ih =>
    rw [Function.iterate_succ_apply', parabolasGrad_descentMap ps eta _
      (iterate_length ps eta x0 hx0 n), ih]
    apply List.ext_getElem
    · simp
    · intro i h1 h2
      simp only [List.getElem_zipWith]
      ring

/-- The bound of the claim for any objective whose `Fprime` is the gradient of a sum of
parabolas. -/
theorem parabolas_bound (gd : GradientDescent α) (f : Function α) (hT : 1 ≤ gd.Threads)
    (ps : List (Parabola α)) (x0 : NDimensionalValue α) (hx0 : x0.length = ps.length)
    (hgrad : ∀ x r : NDimensionalValue α, x.length = x0.length → r.length = x0.length →
      f.Fprime x r = some (parabolasGrad ps x))
    (ha : ∀ p ∈ ps, 0 < p.a) (heta : 0 < gd.LearningRate)
    (heta' : ∀ p ∈ ps, gd.LearningRate < 1 / p.a)
    (fuel : Nat) (s : State α) (hrun : Optimize.run fuel gd f x0 = .ok s)
    (hopt : s.optimized = true) :
    s.x.length = ps.length
      ∧ ∀ (i : Nat) (p : Parabola α) (xi : α), ps[i]? = some p → s.x[i]? = some xi →
          |xi - -p.b / (2 * p.a)| < gd.Threshold / (2 * p.a) := by
  obtain ⟨n, sprev, -, hxl, hfl, hg, hbelow, hx⟩ :=
    Optimize.run_converged gd f hT x0 fuel s hrun hopt
  rw [hgrad sprev.x sprev.fp hxl hfl] at hg
  have hfp : s.fp = parabolasGrad ps sprev.x := (Option.some.inj hg).symm
  rw [hfp] at hx hbelow
  have hpl : sprev.x.length = ps.length := hxl.trans hx0
  refine ⟨by rw [hx]; simp [descend, parabolasGrad, hpl], ?_⟩
  intro i p xi hp hxi
  obtain ⟨hi, rfl⟩ := List.getElem?_eq_some_iff.mp hp
  have hiy : i < sprev.x.length := by omega
  have hig : i < (parabolasGrad ps sprev.x).length := by simp [parabolasGrad, hpl, hi]
  have hxi' : xi = sprev.x[i] - gd.LearningRate * (2 * ps[i].a * sprev.x[i] + ps[i].b) := by
    rw [hx] at hxi
    obtain ⟨hi2, rfl⟩ := List.getElem?_eq_some_iff.mp hxi
    simp [descend, parabolasGrad]
  have hgi : |2 * ps[i].a * sprev.x[i] + ps[i].b| < gd.Threshold := by
    simp only [below, List.all_eq_true, decide_eq_true_eq] at hbelow
    have := hbelow _ (List.getElem_mem hig)
    simpa [parabolasGrad] using this
  have hpa : 0 < ps[i].a := ha _ (List.getElem_mem _)
  have hlt : gd.LearningRate < 1 / ps[i].a := heta' _ (List.getElem_mem _)
  have h2a : 0 < 2 * ps[i].a := by linarith
  have hfac : xi - -ps[i].b / (2 * ps[i].a)
      = (2 * ps[i].a * sprev.x[i] + ps[i].b) * (1 / (2 * ps[i].a) - gd.LearningRate) := by
    rw [hxi']
    field_simp
    ring
  have hc : |1 / (2 * ps[i].a) - gd.LearningRate| < 1 / (2 * ps[i].a) := by
    rw [abs_lt]
    have h1 : 1 / ps[i].a = 2 * (1 / (2 * ps[i].a)) := by
      field_simp
    constructor <;> linarith
  have hdiv : gd.Threshold / (2 * ps[i].a) = gd.Threshold * (1 / (2 * ps[i].a)) := by ring
  rw [hfac, abs_mul, hdiv]
  have hg0 : 0 ≤ |2 * ps[i].a * sprev.x[i] + ps[i].b| := abs_nonneg _
  have hc0 : 0 ≤ |1 / (2 * ps[i].a) - gd.LearningRate| := abs_nonneg _
  have hpos : 0 < 1 / (2 * ps[i].a) := by positivity
  calc |2 * ps[i].a * sprev.x[i] + ps[i].b| * |1 / (2 * ps[i].a) - gd.LearningRate|
      ≤ |2 * ps[i].a * sprev.x[i] + ps[i].b| * (1 / (2 * ps[i].a)) :=
        mul_le_mul_of_nonneg_left hc.le hg0
    _ < gd.Threshold * (1 / (2 * ps[i].a)) := mul_lt_mul_of_pos_right hgi hpos

end gd

namespace cloglik

/-- The two orders of two distinct things. -/
theorem perm_two {β : Type} [DecidableEq β] {a b : β} (hab : a ≠ b) {l : List β}
    (h : l.Perm [a, b]) : l = [a, b] ∨ l = [b, a] := by
  have hl := h.length_eq
  obtain ⟨x, y, rfl⟩ := List.length_eq_two.mp hl
  rw [List.cons_perm_iff_perm_erase] at h
  obtain ⟨hx, h⟩ := h
  simp only [List.mem_cons, List.mem_singleton, List.not_mem_nil, or_false] at hx
  rcases hx with rfl | rfl
  · rw [List.erase_cons_head] at h
    have := List.perm_singleton.mp h
    simp only [List.cons.injEq, and_true] at this
    subst this
    exact Or.inl rfl
  · rw [List.erase_cons_tail (by simpa using hab), List.erase_cons_head] at h
    have := List.perm_singleton.mp h
    simp only [List.cons.injEq, and_true] at this
    subst this
    exact Or.inr rfl

/-- The six orders of three distinct things. -/
theorem perm_three {β : Type} [DecidableEq β] {a b c : β} (hab : a ≠ b) (hac : a ≠ c)
    (hbc : b ≠ c) {l : List β} (h : l.Perm [a, b, c]) :
    l = [a, b, c] ∨ l = [a, c, b] ∨ l = [b, a, c] ∨ l = [b, c, a] ∨ l = [c, a, b]
      ∨ l = [c, b, a] := by
  have hl := h.length_eq
  obtain ⟨x, y, z, rfl⟩ := List.length_eq_three.mp hl
  rw [List.cons_perm_iff_perm_erase] at h
  obtain ⟨hx, h⟩ := h
  simp only [List.mem_cons, List.mem_singleton, List.not_mem_nil, or_false] at hx
  rcases hx with rfl | rfl | rfl
  · rw [List.erase_cons_head] at h
    rcases perm_two hbc h with h2 | h2
    · simp only [List.cons.injEq, and_true] at h2
      obtain ⟨rfl, rfl⟩ := h2
      exact Or.inl rfl
    · simp only [List.cons.injEq, and_true] at h2
      obtain ⟨rfl, rfl⟩ := h2
      exact Or.inr (Or.inl rfl)
  · rw [List.erase_cons_tail (by simpa using hab), List.erase_cons_head] at h
    rcases perm_two hac h with h2 | h2
    · simp only [List.cons.injEq, and_true] at h2
      obtain ⟨rfl, rfl⟩ := h2
      exact Or.inr (Or.inr (Or.inl rfl))
    · simp only [List.cons.injEq, and_true] at h2
      obtain ⟨rfl, rfl⟩ := h2
      exact Or.inr (Or.inr (Or.inr (Or.inl rfl)))
  · rw [List.erase_cons_tail (by simpa using hac),
      List.erase_cons_tail (by simpa using hbc), List.erase_cons_head] at h
    rcases perm_two hab h with h2 | h2
    · simp only [List.cons.injEq, and_true] at h2
      obtain ⟨rfl, rfl⟩ := h2
      exact Or.inr (Or.inr (Or.inr (Or.inr (Or.inl rfl))))
    · simp only [List.cons.injEq, and_true] at h2
      obtain ⟨rfl, rfl⟩ := h2
      exact Or.inr (Or.inr (Or.inr (Or.inr (Or.inr rfl))))

end cloglik

/-! ## Lemmas over the reals -/

namespace cloglik

/-- A sum over a list as a sum over its indices. -/
theorem sum_map_eq_sum_range {β : Type} (g : β → ℝ) (l : List β) :
    (l.map g).sum = ∑ j ∈ Finset.range l.length, (l[j]?.map g).getD 0 := by
  induction l using List.reverseRecOn with
  | nil => simp
  | append_singleton l a ih =>
    rw [List.map_append, List.sum_append, ih, List.length_append, List.length_singleton,
      Finset.sum_range_succ]
    congr 1
    · apply Finset.sum_congr rfl
      intro j hj
      rw [List.getElem?_append_left (Finset.mem_range.mp hj)]
    · simp

/-- The derivative of a sum over a list. -/
theorem hasDerivAt_list_sum {β : Type} (F : β → ℝ → ℝ) (F' : β → ℝ) (t : ℝ) :
    ∀ l : List β, (∀ b ∈ l, HasDerivAt (F b) (F' b) t) →
      HasDerivAt (fun s => (l.map fun b => F b s).sum) (l.map F').sum t := by
  intro l
  induction l with
  | nil =>
    intro _
    simpa using hasDerivAt_const t (0 : ℝ)
  | cons b rest ih =>
    intro h
    have h1 := h b (List.mem_cons_self _ _)
    have h2 := ih (fun c hc => h c (List.mem_cons_of_mem _ hc))
    simpa using h1.add h2

theorem denomOf_pos (doc : Document) (l : gd.NDimensionalValue ℝ)
    (h : 0 < doc.Features.length) : 0 < denomOf Real.exp doc l := by
  unfold denomOf
  obtain ⟨fs, rest, hfs⟩ := List.exists_cons_of_length_pos h
  rw [hfs, List.map_cons, List.sum_cons]
  have : 0 ≤ (rest.map fun fs => Real.exp (scoreOf l fs)).sum :=
    List.sum_nonneg (by
      intro v hv
      obtain ⟨gs, -, rfl⟩ := List.mem_map.mp hv
      exact (Real.exp_pos _).le)
  have := Real.exp_pos (scoreOf l fs)
  linarith

/-- With the real exponential the probability is the plain quotient. -/
theorem probOf_real (doc : Document) (l : gd.NDimensionalValue ℝ) (c : Nat)
    (hc : c < doc.Features.length) :
    probOf Real.exp doc l c
      = Real.exp (scoreOf l (doc.Features.getD c [])) / denomOf Real.exp doc l := by
  unfold probOf numerOf
  rw [if_pos hc, if_neg]
  intro h
  exact (Real.exp_pos _).ne' h.1

theorem hasDerivAt_scoreOf (x : gd.NDimensionalValue ℝ) (i : Nat) (hi : i < x.length)
    (fs : List Nat) (t : ℝ) :
    HasDerivAt (fun s => scoreOf (x.set i s) fs) (fs.count i : ℝ) t := by
  have hfun : (fun s => scoreOf (x.set i s) fs)
      = fun s => scoreOf x fs + (fs.count i : ℝ) * (s - x.getD i 0) := by
    funext s
    exact scoreOf_set x i hi s fs
  rw [hfun]
  have h1 : HasDerivAt (fun s : ℝ => s - x.getD i 0) 1 t := (hasDerivAt_id t).sub_const _
  have h2 := (h1.const_mul (fs.count i : ℝ)).const_add (scoreOf x fs)
  simpa using h2

theorem hasDerivAt_denomOf (doc : Document) (x : gd.NDimensionalValue ℝ) (i : Nat)
    (hi : i < x.length) (t : ℝ) :
    HasDerivAt (fun s => denomOf Real.exp doc (x.set i s))
      (doc.Features.map fun fs => Real.exp (scoreOf (x.set i t) fs) * (fs.count i : ℝ)).sum
      t := by
  unfold denomOf
  exact hasDerivAt_list_sum (fun fs s => Real.exp (scoreOf (x.set i s) fs)) _ t doc.Features
    (fun fs _ => (hasDerivAt_scoreOf x i hi fs t).exp)

/-- The derivative of the log-probability of the gold class of one document with respect
to one weight. -/
theorem hasDerivAt_logProb (doc : Document) (hcls : doc.Class < doc.Features.length)
    (x : gd.NDimensionalValue ℝ) (i : Nat) (hi : i < x.length) (t : ℝ) :
    HasDerivAt (fun s => Real.log (probOf Real.exp doc (x.set i s) doc.Class))
      (((doc.Features.getD doc.Class []).count i : ℝ)
        - (doc.Features.map fun fs =>
            Real.exp (scoreOf (x.set i t) fs) * (fs.count i : ℝ)).sum
          / denomOf Real.exp doc (x.set i t)) t := by
  have hpos : ∀ s, 0 < denomOf Real.exp doc (x.set i s) :=
    fun s => denomOf_pos doc _ (by omega)
  have hfun : (fun s => Real.log (probOf Real.exp doc (x.set i s) doc.Class))
      = fun s => scoreOf (x.set i s) (doc.Features.getD doc.Class [])
          - Real.log (denomOf Real.exp doc (x.set i s)) := by
    funext s
    rw [probOf_real doc _ _ hcls, Real.log_div (Real.exp_pos _).ne' (hpos s).ne',
      Real.log_exp]
  rw [hfun]
  exact (hasDerivAt_scoreOf x i hi _ t).sub
    ((hasDerivAt_denomOf doc x i hi t).log (hpos t).ne')

end cloglik

namespace cloglik

/-- The gold occurrences of a feature, summed over the documents. -/
theorem sum_gold (Docs : List Document) (i : Nat) :
    (Docs.map fun doc => ((doc.Features.getD doc.Class []).count i : ℝ)).sum
      = ((goldFeatures Docs).count i : ℝ) := by
  unfold goldFeatures
  rw [List.count_flatMap, Nat.cast_list_sum, List.map_map]
  congr 1
  apply List.map_congr_left
  intro doc _
  simp [List.getD_eq_getElem?_getD]

/-- The weighted probabilities of one document, as a sum over its classes. -/
theorem sum_classes (doc : Document) (x : gd.NDimensionalValue ℝ) (i C : Nat)
    (hC : doc.Features.length = C) :
    (doc.Features.map fun fs => Real.exp (scoreOf x fs) * (fs.count i : ℝ)).sum
        / denomOf Real.exp doc x
      = ∑ c ∈ Finset.range C,
          ((doc.Features.getD c []).count i : ℝ) * probOf Real.exp doc x c := by
  rw [sum_map_eq_sum_range, hC, Finset.sum_div]
  apply Finset.sum_congr rfl
  intro c hc
  have hc' : c < doc.Features.length := by rw [hC]; exact Finset.mem_range.mp hc
  rw [probOf_real doc x c hc', List.getD_eq_getElem?_getD, List.getElem?_eq_getElem hc']
  simp only [Option.map_some', Option.getD_some]
  ring

/-- The derivative of the negated log-likelihood, regrouped as the entry of the vector
that `Fprime` assembles. -/
theorem sum_docs (p : CLogLik ℝ) (C D : Nat) (hv : p.Valid C D)
    (x : gd.NDimensionalValue ℝ) (i : Nat) :
    -(p.Docs.map fun doc =>
        ((doc.Features.getD doc.Class []).count i : ℝ)
          - (doc.Features.map fun fs => Real.exp (scoreOf x fs) * (fs.count i : ℝ)).sum
            / denomOf Real.exp doc x).sum
      = -((goldFeatures p.Docs).count i : ℝ)
        + ∑ d ∈ Finset.range p.Docs.length, ∑ c ∈ Finset.range C,
            ((featuresOf p.Docs d c).count i : ℝ) * p.prob Real.exp x d c := by
  have hsplit : (p.Docs.map fun doc =>
        ((doc.Features.getD doc.Class []).count i : ℝ)
          - (doc.Features.map fun fs => Real.exp (scoreOf x fs) * (fs.count i : ℝ)).sum
            / denomOf Real.exp doc x).sum
      = (p.Docs.map fun doc => ((doc.Features.getD doc.Class []).count i : ℝ)).sum
        - (p.Docs.map fun doc =>
            (doc.Features.map fun fs => Real.exp (scoreOf x fs) * (fs.count i : ℝ)).sum
              / denomOf Real.exp doc x).sum := by
    generalize p.Docs = l
    induction l with
    | nil => simp
    | cons a rest ih =>
      simp only [List.map_cons, List.sum_cons, ih]
      ring
  rw [hsplit, sum_gold, sum_map_eq_sum_range]
  have hcong : ∑ j ∈ Finset.range p.Docs.length,
      ((p.Docs[j]?.map fun doc =>
        (doc.Features.map fun fs => Real.exp (scoreOf x fs) * (fs.count i : ℝ)).sum
          / denomOf Real.exp doc x).getD 0)
      = ∑ d ∈ Finset.range p.Docs.length, ∑ c ∈ Finset.range C,
          ((featuresOf p.Docs d c).count i : ℝ) * p.prob Real.exp x d c := by
    apply Finset.sum_congr rfl
    intro d hd
    have hd' : d < p.Docs.length := Finset.mem_range.mp hd
    have hmem : p.Docs[d] ∈ p.Docs := List.getElem_mem _
    simp only [List.getElem?_eq_getElem hd', Option.map_some', Option.getD_some]
    rw [sum_classes _ x i C (hv.classes _ hmem)]
    apply Finset.sum_congr rfl
    intro c _
    simp only [featuresOf, CLogLik.prob, List.getElem?_eq_getElem hd']
  rw [hcong]
  ring

end cloglik

namespace cloglik

/-- Twice the probability of the losing class when the gap of the scores is `d`. -/
theorem twoWay_pos (d : ℝ) : 0 < 2 / (Real.exp d + 1) := by
  have := Real.exp_pos d
  positivity

/-- Descent with step `1` and threshold `0.01` on the two-way objective: the gradient is
`[-e*H, e*H]` with `H = 2/(exp(e*(u-v)) + 1)` and `e` one of `1` and `-1`. The run
reaches a gradient below the threshold after finitely many passes, and the two weights it
returns are opposite. -/
theorem twoWay_terminates (f : gd.Function ℝ) (e : ℝ) (he : e = 1 ∨ e = -1)
    (hgrad : ∀ (u v : ℝ) (r : gd.NDimensionalValue ℝ), r.length = 2 →
      f.Fprime [u, v] r
        = some [-(e * (2 / (Real.exp (e * (u - v)) + 1))),
            e * (2 / (Real.exp (e * (u - v)) + 1))]) :
    ∃ (n : Nat) (w0 w1 : ℝ), w0 + w1 = 0 ∧ ∀ fuel, n ≤ fuel →
      gd.Optimize fuel (⟨1, 1 / 100, -1, 1⟩ : gd.GradientDescent ℝ) f [0, 0]
        = .ok [w0, w1] := by
  have hee : e * e = 1 := by rcases he with rfl | rfl <;> norm_num
  have habs : |e| = 1 := by rcases he with rfl | rfl <;> norm_num
  -- the gradient as a function of the point, and the gap of the two weights
  let G : gd.NDimensionalValue ℝ → gd.NDimensionalValue ℝ := fun x =>
    [-(e * (2 / (Real.exp (e * (x.getD 0 0 - x.getD 1 0)) + 1))),
      e * (2 / (Real.exp (e * (x.getD 0 0 - x.getD 1 0)) + 1))]
  let D : Nat → ℝ := fun n => (fun d => d + 2 * (2 / (Real.exp d + 1)))^[n] 0
  have hG : ∀ x r : gd.NDimensionalValue ℝ, x.length = ([0, 0] : List ℝ).length →
      r.length = ([0, 0] : List ℝ).length → f.Fprime x r = some (G x) := by
    intro x r hx hr
    obtain ⟨u, v, rfl⟩ := List.length_eq_two.mp hx
    exact hgrad u v r hr
  have hD : ∀ n, D (n + 1) = D n + 2 * (2 / (Real.exp (D n) + 1)) := by
    intro n
    show (fun d => d + 2 * (2 / (Real.exp d + 1)))^[n + 1] 0 = _
    rw [Function.iterate_succ_apply']
  have hiter : ∀ n, (gd.descentMap 1 G)^[n] [0, 0] = [e * D n / 2, -(e * D n / 2)] := by
    intro n
    induction n with
    | zero => simp [D]
    | succ n ih =>
      rw [Function.iterate_succ_apply', ih, hD n]
      have harg : e * (e * D n / 2 - -(e * D n / 2)) = D n := by
        have : e * (e * D n / 2 - -(e * D n / 2)) = e * e * D n := by ring
        rw [this, hee, one_mul]
      simp only [gd.descentMap, gd.descend, G, List.getD_cons_zero, List.getD_cons_succ,
        List.zipWith_cons_cons, List.zipWith_nil_right, harg]
      congr 1
      · ring
      · congr 1
        ring
  have hgradAt : ∀ n, G ((gd.descentMap 1 G)^[n] [0, 0])
      = [-(e * (2 / (Real.exp (D n) + 1))), e * (2 / (Real.exp (D n) + 1))] := by
    intro n
    rw [hiter n]
    have harg : e * (e * D n / 2 - -(e * D n / 2)) = D n := by
      have : e * (e * D n / 2 - -(e * D n / 2)) = e * e * D n := by ring
      rw [this, hee, one_mul]
    simp only [G, List.getD_cons_zero, List.getD_cons_succ, harg]
  have hbelow : ∀ n, gd.below (1 / 100 : ℝ) (G ((gd.descentMap 1 G)^[n] [0, 0])) = true
      ↔ 2 / (Real.exp (D n) + 1) < 1 / 100 := by
    intro n
    rw [hgradAt n]
    have hpos := twoWay_pos (D n)
    simp only [gd.below, List.all_cons, List.all_nil, Bool.and_true, Bool.and_eq_true,
      decide_eq_true_eq, abs_neg, abs_mul, habs, one_mul, abs_of_pos hpos, and_self]
  -- some gradient among the first passes the test
  have hex' : ∃ n, n ≤ 10000 ∧ 2 / (Real.exp (D n) + 1) < 1 / 100 := by
    by_contra hcon
    push_neg at hcon
    have hgrow : ∀ n : Nat, n ≤ 10000 → (n : ℝ) / 50 ≤ D n := by
      intro n
      induction n with
      | zero => intro _; simp [D]
      | succ n ih =>
        intro hn
        rw [hD n]
        have h1 := hcon n (by omega)
        have h2 := ih (by omega)
        push_cast
        linarith
    have h5 : (200 : ℝ) ≤ D 10000 := by
      have := hgrow 10000 (le_refl _)
      norm_num at this
      linarith
    have hexp : D 10000 + 1 ≤ Real.exp (D 10000) := Real.add_one_le_exp _
    have hlt : 2 / (Real.exp (D 10000) + 1) < 1 / 100 := by
      rw [div_lt_div_iff₀ (by linarith) (by norm_num)]
      linarith
    exact absurd (hcon 10000 (le_refl _)) (not_le.mpr hlt)
  obtain ⟨m, hm, hPm⟩ := hex'
  have hex : ∃ n, 2 / (Real.exp (D n) + 1) < 1 / 100 := ⟨m, hPm⟩
  classical
  let n0 := Nat.find hex
  have hn0 : 2 / (Real.exp (D n0) + 1) < 1 / 100 := Nat.find_spec hex
  have hn0le : n0 ≤ 10000 := (Nat.find_min' hex hPm).trans hm
  have hrun := gd.Optimize.run_of_first_below (⟨1, 1 / 100, -1, 1⟩ : gd.GradientDescent ℝ) f
    (le_refl 1) G [0, 0] hG n0
    (by
      have : (n0 : Int) ≤ 10000 := by exact_mod_cast hn0le
      have h63 : (10001 : Int) < 2 ^ 63 := by norm_num
      omega)
    (Or.inl (by norm_num))
    (by
      intro j hj
      rw [Bool.eq_false_iff]
      intro hb
      have h1 := (hbelow j).mp hb
      exact Nat.find_min hex hj h1)
    ((hbelow n0).mpr hn0)
  refine ⟨n0 + 1, e * D (n0 + 1) / 2, -(e * D (n0 + 1) / 2), by ring, ?_⟩
  intro fuel hfuel
  unfold gd.Optimize
  rw [hrun fuel hfuel]
  simp only [Except.map]
  show Except.ok ((gd.descentMap 1 G)^[n0 + 1] [0, 0]) = _
  rw [hiter (n0 + 1)]

end cloglik

namespace cloglik

/-- The gradient of an objective with two features, two documents and two classes in
which one feature fires for the gold class of both documents and the other for the other
class: `[-H, H]` with `H = 2/(exp(u - v) + 1)` when the first feature is the gold one, and
`[H, -H]` with `H = 2/(exp(v - u) + 1)` when it is the second. -/
theorem twoWay_grad (p : CLogLik ℝ) (hv : p.Valid 2 2) (hT : 1 ≤ p.Threads) (e : ℝ)
    (hcase : TestMaxent.shape p e)
    (u v : ℝ) (r : gd.NDimensionalValue ℝ) (hr : r.length = 2) :
    p.Fprime Real.exp [u, v] r
      = some [-(e * (2 / (Real.exp (e * (u - v)) + 1))),
          e * (2 / (Real.exp (e * (u - v)) + 1))] := by
  rw [CLogLik.Fprime_eq Real.exp p 2 2 hv hT [u, v] r rfl hr]
  have hu := Real.exp_pos u
  have hvp := Real.exp_pos v
  have hne1 : ¬ (Real.exp u = 0 ∧ Real.exp u + Real.exp v = 0) := fun h => hu.ne' h.1
  have hne2 : ¬ (Real.exp u = 0 ∧ Real.exp v + Real.exp u = 0) := fun h => hu.ne' h.1
  have hne3 : ¬ (Real.exp v = 0 ∧ Real.exp u + Real.exp v = 0) := fun h => hvp.ne' h.1
  have hne4 : ¬ (Real.exp v = 0 ∧ Real.exp v + Real.exp u = 0) := fun h => hvp.ne' h.1
  have hsum : Real.exp u + Real.exp v ≠ 0 := by positivity
  have hsum' : Real.exp v + Real.exp u ≠ 0 := by positivity
  have e1 : Real.exp (u - v) = Real.exp u / Real.exp v := Real.exp_sub u v
  have e2 : Real.exp (-(u - v)) = Real.exp v / Real.exp u := by
    rw [neg_sub]
    exact Real.exp_sub v u
  have hq1 : Real.exp u / Real.exp v + 1 ≠ 0 := by positivity
  have hq2 : Real.exp v / Real.exp u + 1 ≠ 0 := by positivity
  congr 1
  rcases hcase with ⟨rfl, hnum, ⟨hD, hI⟩ | ⟨hD, hI⟩⟩ | ⟨rfl, hnum, ⟨hD, hI⟩ | ⟨hD, hI⟩⟩
  all_goals
    simp only [CLogLik.gradOf, CLogLik.cell, hnum, hD, hI, probOf, numerOf, denomOf, scoreOf,
      List.range, List.range.loop, List.map_cons, List.map_nil, List.length_cons,
      List.length_nil, List.getD_cons_zero, List.getD_cons_succ, List.sum_cons, List.sum_nil,
      List.getElem?_cons_zero, List.getElem?_cons_succ, add_zero, zero_add, Nat.reduceAdd,
      Nat.reduceMod, Nat.reduceDiv, Nat.reduceLT, ↓reduceIte, hne1, hne2, hne3, hne4,
      one_mul, neg_mul, e1, e2]
    congr 1
    · field_simp
      ring
    · congr 1
      field_simp
      ring

/-- The run of the test on any objective of the two-way shape that the constructor
returns. -/
theorem twoWay_result (p : CLogLik ℝ) (e : ℝ) (hcase : TestMaxent.shape p e)
    (hp : ∃ (err : Bool) (keys0 : List String) (tmpDocs : List (List (String × Json))),
      FromJson err keys0 tmpDocs = .ok (some p)) :
    p.DimCnt = 2 ∧ ∃ (n : Nat) (w0 w1 : ℝ), w0 + w1 = 0 ∧ |w0 + w1| ≤ 1 / 100
      ∧ ∀ fuel, n ≤ fuel →
        gd.Optimize fuel (⟨1, 1 / 100, -1, 1⟩ : gd.GradientDescent ℝ)
          (p.toFunction Real.exp Real.log) (List.replicate p.DimCnt 0) = .ok [w0, w1] := by
  obtain ⟨err, keys0, tmpDocs, hfrom⟩ := hp
  obtain ⟨hT, -, -, -, -, -⟩ := FromJson_spec err keys0 tmpDocs p hfrom
  obtain ⟨hv, -⟩ := FromJson_valid err keys0 tmpDocs p hfrom
  have hD : p.DimCnt = 2 := by
    unfold CLogLik.DimCnt
    rcases hcase with ⟨-, hnum, -⟩ | ⟨-, hnum, -⟩ <;> rw [hnum] <;> rfl
  have hC : p.ClassMap.length = 2 := by
    have hmem : ∃ d ∈ p.Docs, d.Features.length = 2 := by
      rcases hcase with ⟨-, -, ⟨hd, -⟩ | ⟨hd, -⟩⟩ | ⟨-, -, ⟨hd, -⟩ | ⟨hd, -⟩⟩ <;>
        (rw [hd]; exact ⟨_, List.mem_cons_self _ _, rfl⟩)
    obtain ⟨d, hd, hlen⟩ := hmem
    rw [← hv.classes d hd, hlen]
  rw [hC, hD] at hv
  have he : e = 1 ∨ e = -1 := by
    rcases hcase with ⟨h, -⟩ | ⟨h, -⟩
    · exact Or.inl h
    · exact Or.inr h
  obtain ⟨n, w0, w1, hsum, hrun⟩ := twoWay_terminates (p.toFunction Real.exp Real.log) e he
    (fun u v r hr => twoWay_grad p hv (by rw [hT]) e hcase u v r hr)
  refine ⟨hD, n, w0, w1, hsum, by rw [hsum]; norm_num, ?_⟩
  intro fuel hfuel
  rw [hD]
  exact hrun fuel hfuel

/-- A run of the constructor that ends in an objective of the two-way shape. -/
theorem twoWay_case (keys0 : List String) (tmpDocs : List (List (String × Json)))
    (p : CLogLik ℝ) (e : ℝ) (hp : FromJson false keys0 tmpDocs = .ok (some p))
    (hshape : TestMaxent.shape p e) :
    ∃ q : CLogLik ℝ, FromJson false keys0 tmpDocs = .ok (some q)
      ∧ q.DimCnt = 2
      ∧ ∃ (n : Nat) (w0 w1 : ℝ), w0 + w1 = 0 ∧ |w0 + w1| ≤ 1 / 100
        ∧ ∀ fuel, n ≤ fuel →
          gd.Optimize fuel (⟨1, 1 / 100, -1, 1⟩ : gd.GradientDescent ℝ)
            (q.toFunction Real.exp Real.log) (List.replicate q.DimCnt 0) = .ok [w0, w1] :=
  ⟨p, hp, twoWay_result p e hshape ⟨_, _, _, hp⟩⟩

end cloglik

/-! ## Lemmas on the constructor -/

namespace cloglik

theorem lookup_enumFrom (k : String) : ∀ (ns : List String) (n : Nat),
    List.lookup k ((List.enumFrom n ns).map fun e => (e.2, e.1))
      = if k ∈ ns then some (n + ns.indexOf k) else none := by
  intro ns
  induction ns with
  | nil => intro n; simp
  | cons a ns ih =>
    intro n
    rw [List.enumFrom_cons, List.map_cons, List.lookup_cons]
    by_cases hka : k = a
    · subst hka
      simp
    · have : (k == a) = false := by simpa using hka
      rw [this]
      simp only [ih (n + 1), List.mem_cons, hka, false_or]
      split
      · rw [List.indexOf_cons_ne _ (Ne.symm hka)]
        congr 1
        omega
      · rfl

theorem GoMap.lookup_ofNames (ns : List String) (k : String) :
    List.lookup k (GoMap.ofNames ns) = if k ∈ ns then some (ns.indexOf k) else none := by
  unfold GoMap.ofNames List.enum
  rw [lookup_enumFrom]
  simp

theorem GoMap.length_ofNames (ns : List String) : (GoMap.ofNames ns).length = ns.length := by
  simp [GoMap.ofNames]

theorem GoMap.has_ofNames (ns : List String) (k : String) :
    (GoMap.ofNames ns).has k = decide (k ∈ ns) := by
  unfold GoMap.has
  rw [GoMap.lookup_ofNames]
  by_cases h : k ∈ ns <;> simp [h]

theorem GoMap.get_ofNames (ns : List String) (k : String) (h : k ∈ ns) :
    (GoMap.ofNames ns).get k = ns.indexOf k := by
  unfold GoMap.get
  rw [GoMap.lookup_ofNames, if_pos h]
  rfl

theorem GoMap.get_ofNames_lt (ns : List String) (k : String) (h : 0 < ns.length) :
    (GoMap.ofNames ns).get k < ns.length := by
  unfold GoMap.get
  rw [GoMap.lookup_ofNames]
  split
  · rename_i hk
    exact List.indexOf_lt_length.mpr hk
  · exact h

theorem GoMap.ofNames_append (ns : List String) (name : String) :
    GoMap.ofNames (ns ++ [name]) = GoMap.ofNames ns ++ [(name, ns.length)] := by
  unfold GoMap.ofNames List.enum
  rw [List.enumFrom_append]
  simp

theorem GoMap.put_ofNames (ns : List String) (name : String) (h : name ∉ ns) :
    (GoMap.ofNames ns).put name (GoMap.ofNames ns).length = GoMap.ofNames (ns ++ [name]) := by
  unfold GoMap.put
  rw [GoMap.has_ofNames, GoMap.ofNames_append, GoMap.length_ofNames]
  simp [h]

theorem FromJson.addName_nodup (ns : List String) (name : String) (h : ns.Nodup) :
    (FromJson.addName ns name).Nodup := by
  unfold FromJson.addName
  split
  · exact h
  · rename_i hn
    rw [List.nodup_append]
    refine ⟨h, List.nodup_singleton _, ?_⟩
    intro a ha hb
    rw [List.mem_singleton] at hb
    exact hn (hb ▸ ha)

theorem FromJson.mem_addName (ns : List String) (name x : String) :
    x ∈ FromJson.addName ns name ↔ x ∈ ns ∨ x = name := by
  unfold FromJson.addName
  split
  · rename_i hn
    constructor
    · exact Or.inl
    · rintro (h | h)
      · exact h
      · exact h ▸ hn
  · simp

theorem FromJson.addName_prefix (ns : List String) (name : String) :
    ns <+: FromJson.addName ns name := by
  unfold FromJson.addName
  split
  · exact List.prefix_refl _
  · exact List.prefix_append _ _

theorem FromJson.addNames_nodup : ∀ (names ns : List String), ns.Nodup →
    (names.foldl FromJson.addName ns).Nodup := by
  intro names
  induction names with
  | nil => intro ns h; exact h
  | cons a names ih => intro ns h; exact ih _ (FromJson.addName_nodup ns a h)

theorem FromJson.mem_addNames : ∀ (names ns : List String) (x : String),
    x ∈ names.foldl FromJson.addName ns ↔ x ∈ ns ∨ x ∈ names := by
  intro names
  induction names with
  | nil => intro ns x; simp
  | cons a names ih =>
    intro ns x
    rw [List.foldl_cons, ih, FromJson.mem_addName, List.mem_cons]
    tauto

theorem FromJson.addNames_prefix : ∀ (names ns : List String),
    ns <+: names.foldl FromJson.addName ns := by
  intro names
  induction names with
  | nil => intro ns; exact List.prefix_refl _
  | cons a names ih =>
    intro ns
    exact (FromJson.addName_prefix ns a).trans (ih _)

theorem indexOf_extend {ns ns' : List String} (h : ns <+: ns') (k : String) (hk : k ∈ ns) :
    ns'.indexOf k = ns.indexOf k := by
  obtain ⟨t, rfl⟩ := h
  exact List.indexOf_append_of_mem hk


theorem FromJson.encode_step_eq (ns : List String) (fs : List Nat) (k : Nat) (name : String)
    (hk : k < fs.length) :
    FromJson.encode.step (GoMap.ofNames ns, fs) (k, Item.str name)
      = some (GoMap.ofNames (FromJson.addName ns name),
          fs.set k ((FromJson.addName ns name).indexOf name)) := by
  unfold FromJson.encode.step
  simp only [hk, if_true]
  have hmem : name ∈ FromJson.addName ns name := (FromJson.mem_addName ns name name).2 (Or.inr rfl)
  have hf : (if !(GoMap.ofNames ns).has name
      then (GoMap.ofNames ns).put name (GoMap.ofNames ns).length else GoMap.ofNames ns)
      = GoMap.ofNames (FromJson.addName ns name) := by
    rw [GoMap.has_ofNames]
    unfold FromJson.addName
    by_cases h : name ∈ ns
    · simp [h]
    · simp only [h, decide_False, Bool.not_false, if_true, if_false]
      exact GoMap.put_ofNames ns name h
  rw [hf, GoMap.get_ofNames _ _ hmem]

theorem FromJson.encode_fold : ∀ (names : List String) (k : Nat) (ns : List String)
    (fs : List Nat), k + names.length ≤ fs.length →
    ∃ fs', (List.enumFrom k (names.map Item.str)).foldlM FromJson.encode.step
          (GoMap.ofNames ns, fs)
        = some (GoMap.ofNames (names.foldl FromJson.addName ns), fs')
      ∧ fs'.length = fs.length
      ∧ ∀ i, fs'[i]? = if k ≤ i ∧ i < k + names.length
          then (names[i - k]?).map fun nm => (names.foldl FromJson.addName ns).indexOf nm
          else fs[i]? := by
  intro names
  induction names with
  | nil =>
    intro k ns fs _
    refine ⟨fs, rfl, rfl, ?_⟩
    intro i
    rw [if_neg]
    simp
  | cons name names ih =>
    intro k ns fs hk
    simp only [List.length_cons] at hk
    rw [List.map_cons, List.enumFrom_cons, List.foldlM_cons,
      FromJson.encode_step_eq ns fs k name (by omega)]
    obtain ⟨fs', h1, h2, h3⟩ := ih (k + 1) (FromJson.addName ns name)
      (fs.set k ((FromJson.addName ns name).indexOf name)) (by simp; omega)
    refine ⟨fs', ?_, ?_, ?_⟩
    · simpa using h1
    · simpa using h2
    · intro i
      rw [h3 i]
      simp only [List.foldl_cons, List.length_cons]
      by_cases hik : i = k
      · subst hik
        have h1 : ¬ (i + 1 ≤ i ∧ i < i + 1 + names.length) := by omega
        have h2 : i ≤ i ∧ i < i + (names.length + 1) := by omega
        rw [if_neg h1, if_pos h2, List.getElem?_set_self (by omega)]
        simp only [Nat.sub_self, List.getElem?_cons_zero, Option.map_some']
        congr 1
        exact (indexOf_extend (FromJson.addNames_prefix names _) name
          ((FromJson.mem_addName ns name name).2 (Or.inr rfl))).symm
      · rw [List.getElem?_set_ne (Ne.symm hik)]
        by_cases hin : k + 1 ≤ i ∧ i < k + 1 + names.length
        · have h2 : k ≤ i ∧ i < k + (names.length + 1) := by omega
          rw [if_pos hin, if_pos h2]
          have : i - k = (i - (k + 1)) + 1 := by omega
          rw [this, List.getElem?_cons_succ]
        · have h2 : ¬ (k ≤ i ∧ i < k + (names.length + 1)) := by omega
          rw [if_neg hin, if_neg h2]

theorem FromJson.encode_eq (names ns : List String) :
    FromJson.encode (names.map Item.str) (GoMap.ofNames ns)
      = some (GoMap.ofNames (names.foldl FromJson.addName ns),
          names.map fun nm => (names.foldl FromJson.addName ns).indexOf nm) := by
  unfold FromJson.encode List.enum
  obtain ⟨fs', h1, h2, h3⟩ := FromJson.encode_fold names 0 ns
    (List.replicate (names.map Item.str).length 0) (by simp)
  rw [h1]
  congr 2
  apply List.ext_getElem?
  intro i
  rw [h3 i]
  by_cases hi : i < names.length
  · rw [if_pos ⟨Nat.zero_le _, by omega⟩]
    simp [List.getElem?_map]
  · rw [if_neg (by omega)]
    simp only [List.length_map] 
    rw [List.getElem?_eq_none (by simp; omega), List.getElem?_eq_none (by simp; omega)]

theorem FromJson.items_typed (items : List Item)
    (h : (items.all fun it => match it with
      | .str _ => true
      | .other => false) = true) :
    items = (FromJson.itemNames items).map Item.str := by
  induction items with
  | nil => rfl
  | cons it items ih =>
    rw [List.all_cons, Bool.and_eq_true] at h
    cases it with
    | str s =>
      have := ih h.2
      unfold FromJson.itemNames at this ⊢
      rw [List.filterMap_cons]
      simp only [List.map_cons]
      congr 1
    | other => simp at h

end cloglik

namespace cloglik

theorem FromJson.entryOf_length (classes : GoMap) (ns : List String)
    (st : List (List Nat) × Nat) (kv : String × Json) :
    (FromJson.entryOf classes ns st kv).1.length = st.1.length := by
  unfold FromJson.entryOf
  split
  · split <;> rfl
  · simp

theorem FromJson.entryOf_stable (classes : GoMap) {ns ns' : List String} (h : ns <+: ns')
    (st : List (List Nat) × Nat) (kv : String × Json)
    (hkv : ∀ nm ∈ FromJson.entryNames kv, nm ∈ ns) :
    FromJson.entryOf classes ns' st kv = FromJson.entryOf classes ns st kv := by
  unfold FromJson.entryOf
  split
  · rfl
  · congr 2
    apply List.map_congr_left
    intro nm hnm
    exact indexOf_extend h nm (hkv nm hnm)

theorem FromJson.entry_eq (classes : GoMap) (hcls : ∀ k, classes.get k < classes.length)
    (ns : List String) (st : List (List Nat) × Nat) (hst : st.1.length = classes.length)
    (kv : String × Json) (ht : FromJson.typedEntry kv = true) :
    FromJson.entry classes (GoMap.ofNames ns, st) kv
      = some (GoMap.ofNames ((FromJson.entryNames kv).foldl FromJson.addName ns),
          FromJson.entryOf classes ((FromJson.entryNames kv).foldl FromJson.addName ns) st kv) := by
  obtain ⟨k, v⟩ := kv
  obtain ⟨df, cls⟩ := st
  unfold FromJson.entry FromJson.entryOf FromJson.entryNames
  unfold FromJson.typedEntry at ht
  by_cases hk : (k == "__label__") = true
  · simp only [hk, if_true] at ht ⊢
    cases v with
    | str s => rfl
    | arr items => simp at ht
    | other => simp at ht
  · have hk' : (k == "__label__") = false := by simpa using hk
    simp only [hk', Bool.false_eq_true, if_false] at ht ⊢
    cases v with
    | str s => simp at ht
    | other => simp at ht
    | arr items =>
      simp only at ht ⊢
      have hlt : classes.get k < df.length := by
        simp only at hst
        rw [hst]
        exact hcls k
      rw [if_pos hlt]
      have hitems := FromJson.items_typed items ht
      have henc := FromJson.encode_eq (FromJson.itemNames items) ns
      rw [← hitems] at henc
      rw [henc]

theorem FromJson.entries_fold (classes : GoMap) (hcls : ∀ k, classes.get k < classes.length) :
    ∀ (es : List (String × Json)) (ns : List String) (st : List (List Nat) × Nat),
      st.1.length = classes.length → (∀ kv ∈ es, FromJson.typedEntry kv = true) →
      es.foldlM (FromJson.entry classes) (GoMap.ofNames ns, st)
        = some (GoMap.ofNames ((es.flatMap FromJson.entryNames).foldl FromJson.addName ns),
            es.foldl (FromJson.entryOf classes
              ((es.flatMap FromJson.entryNames).foldl FromJson.addName ns)) st) := by
  intro es
  induction es with
  | nil => intro ns st _ _; rfl
  | cons e es ih =>
    intro ns st hst ht
    rw [List.foldlM_cons, FromJson.entry_eq classes hcls ns st hst e (ht e (List.mem_cons_self _ _))]
    simp only [Option.bind_eq_bind, Option.some_bind]
    rw [ih _ _ ((FromJson.entryOf_length _ _ _ _).trans hst)
      (fun kv hkv => ht kv (List.mem_cons_of_mem _ hkv))]
    rw [List.flatMap_cons, List.foldl_append, List.foldl_cons]
    congr 3
    refine (FromJson.entryOf_stable classes (FromJson.addNames_prefix _ _) st e ?_).symm
    intro nm hnm
    exact (FromJson.mem_addNames _ _ _).2 (Or.inr hnm)

theorem FromJson.documentOf_stable (classes : GoMap) {ns ns' : List String} (h : ns <+: ns')
    (d : List (String × Json)) (hd : ∀ nm ∈ FromJson.documentNames d, nm ∈ ns) :
    FromJson.documentOf classes ns' d = FromJson.documentOf classes ns d := by
  have : ∀ st, d.foldl (FromJson.entryOf classes ns') st
      = d.foldl (FromJson.entryOf classes ns) st := by
    intro st
    apply List.foldl_ext
    intro a kv hkv
    refine FromJson.entryOf_stable classes h a kv ?_
    intro nm hnm
    exact hd nm (List.mem_flatMap.mpr ⟨kv, hkv, hnm⟩)
  unfold FromJson.documentOf
  rw [this]

theorem FromJson.document_eq (classes : GoMap) (hcls : ∀ k, classes.get k < classes.length)
    (ns : List String) (Docs : List Document) (d : List (String × Json))
    (ht : ∀ kv ∈ d, FromJson.typedEntry kv = true) :
    FromJson.document classes (GoMap.ofNames ns, Docs) d
      = some (GoMap.ofNames ((FromJson.documentNames d).foldl FromJson.addName ns),
          Docs ++ [FromJson.documentOf classes
            ((FromJson.documentNames d).foldl FromJson.addName ns) d]) := by
  unfold FromJson.document
  simp only
  rw [FromJson.entries_fold classes hcls d ns (List.replicate classes.length [], 0)
    (by simp) ht]
  rfl

theorem FromJson.documents_fold (classes : GoMap)
    (hcls : ∀ k, classes.get k < classes.length) :
    ∀ (tmpDocs : List (List (String × Json))) (ns : List String) (Docs : List Document),
      (∀ d ∈ tmpDocs, ∀ kv ∈ d, FromJson.typedEntry kv = true) →
      tmpDocs.foldlM (FromJson.document classes) (GoMap.ofNames ns, Docs)
        = some (GoMap.ofNames ((FromJson.featureNames tmpDocs).foldl FromJson.addName ns),
            Docs ++ tmpDocs.map (FromJson.documentOf classes
              ((FromJson.featureNames tmpDocs).foldl FromJson.addName ns))) := by
  intro tmpDocs
  induction tmpDocs with
  | nil => intro ns Docs _; simp [FromJson.featureNames]
  | cons d tmpDocs ih =>
    intro ns Docs ht
    rw [List.foldlM_cons, FromJson.document_eq classes hcls ns Docs d
      (ht d (List.mem_cons_self _ _))]
    simp only [Option.bind_eq_bind, Option.some_bind]
    rw [ih _ _ (fun d' hd' => ht d' (List.mem_cons_of_mem _ hd'))]
    unfold FromJson.featureNames
    rw [List.flatMap_cons, List.foldl_append, List.map_cons, List.append_assoc,
      List.singleton_append]
    congr 4
    refine (FromJson.documentOf_stable classes (FromJson.addNames_prefix _ _) d ?_).symm
    intro nm hnm
    exact (FromJson.mem_addNames _ _ _).2 (Or.inr hnm)

end cloglik

namespace cloglik

theorem FromJson.classes_fold : ∀ (keys ns : List String), (∀ k ∈ keys, k ∉ ns) → keys.Nodup →
    keys.foldl FromJson.classes.add (GoMap.ofNames ns)
      = GoMap.ofNames (ns ++ keys.filter fun k => k != "__label__") := by
  intro keys
  induction keys with
  | nil => intro ns _ _; simp
  | cons k keys ih =>
    intro ns hns hnd
    rw [List.nodup_cons] at hnd
    rw [List.foldl_cons]
    by_cases hk : (k != "__label__") = true
    · have hstep : FromJson.classes.add (GoMap.ofNames ns) k = GoMap.ofNames (ns ++ [k]) := by
        unfold FromJson.classes.add
        rw [if_pos hk, GoMap.put_ofNames ns k (hns k (List.mem_cons_self _ _))]
      rw [hstep, ih (ns ++ [k]) ?_ hnd.2, List.filter_cons, if_pos hk, List.append_assoc,
        List.singleton_append]
      intro k' hk' hmem
      rw [List.mem_append, List.mem_singleton] at hmem
      rcases hmem with h | h
      · exact hns k' (List.mem_cons_of_mem _ hk') h
      · exact hnd.1 (h ▸ hk')
    · have hstep : FromJson.classes.add (GoMap.ofNames ns) k = GoMap.ofNames ns := by
        unfold FromJson.classes.add
        rw [if_neg hk]
      rw [hstep, ih ns (fun k' hk' => hns k' (List.mem_cons_of_mem _ hk')) hnd.2,
        List.filter_cons, if_neg hk]

theorem FromJson.classes_eq (keys0 : List String) (h : keys0.Nodup) :
    FromJson.classes keys0 = GoMap.ofNames (keys0.filter fun k => k != "__label__") := by
  have := FromJson.classes_fold keys0 [] (fun k _ hk => by simp at hk) h
  simpa [FromJson.classes] using this

theorem FromJson.names_fold : ∀ (ns : List String) (k : Nat) (acc : List String),
    k + ns.length ≤ acc.length →
    ∃ acc', ((List.enumFrom k ns).map fun e => (e.2, e.1)).foldlM FromJson.names.step acc
        = some acc'
      ∧ acc'.length = acc.length
      ∧ ∀ i, acc'[i]? = if k ≤ i ∧ i < k + ns.length then ns[i - k]? else acc[i]? := by
  intro ns
  induction ns with
  | nil =>
    intro k acc _
    refine ⟨acc, rfl, rfl, ?_⟩
    intro i
    rw [if_neg]
    simp
  | cons name ns ih =>
    intro k acc hk
    simp only [List.length_cons] at hk
    rw [List.enumFrom_cons, List.map_cons, List.foldlM_cons]
    have hstep : FromJson.names.step acc (name, k) = some (acc.set k name) := by
      unfold FromJson.names.step
      rw [if_pos (by show k < acc.length; omega)]
    rw [hstep]
    obtain ⟨acc', h1, h2, h3⟩ := ih (k + 1) (acc.set k name) (by simp; omega)
    refine ⟨acc', by simpa using h1, by simpa using h2, ?_⟩
    intro i
    rw [h3 i]
    simp only [List.length_cons]
    by_cases hik : i = k
    · subst hik
      have h1 : ¬ (i + 1 ≤ i ∧ i < i + 1 + ns.length) := by omega
      have h2 : i ≤ i ∧ i < i + (ns.length + 1) := by omega
      rw [if_neg h1, if_pos h2, List.getElem?_set_self (by omega)]
      simp
    · rw [List.getElem?_set_ne (Ne.symm hik)]
      by_cases hin : k + 1 ≤ i ∧ i < k + 1 + ns.length
      · have h2 : k ≤ i ∧ i < k + (ns.length + 1) := by omega
        rw [if_pos hin, if_pos h2]
        have : i - k = (i - (k + 1)) + 1 := by omega
        rw [this, List.getElem?_cons_succ]
      · have h2 : ¬ (k ≤ i ∧ i < k + (ns.length + 1)) := by omega
        rw [if_neg hin, if_neg h2]

theorem FromJson.names_ofNames (ns : List String) :
    FromJson.names (GoMap.ofNames ns) = some ns := by
  unfold FromJson.names
  obtain ⟨acc', h1, h2, h3⟩ := FromJson.names_fold ns 0
    (List.replicate (GoMap.ofNames ns).length "") (by simp [GoMap.length_ofNames])
  have h1' : (GoMap.ofNames ns).foldlM FromJson.names.step
      (List.replicate (GoMap.ofNames ns).length "") = some acc' := h1
  rw [h1']
  congr 1
  apply List.ext_getElem?
  intro i
  rw [h3 i]
  by_cases hi : i < ns.length
  · rw [if_pos ⟨Nat.zero_le _, by omega⟩]
    simp
  · rw [if_neg (by omega), List.getElem?_eq_none (by simp [GoMap.length_ofNames]; omega),
      List.getElem?_eq_none (by omega)]

theorem foldl_invariant {σ β : Type} (f : σ → β → σ) (Q : σ → Prop) :
    ∀ (xs : List β) (s : σ), (∀ s x, x ∈ xs → Q s → Q (f s x)) → Q s → Q (xs.foldl f s) := by
  intro xs
  induction xs with
  | nil => intro s _ h; exact h
  | cons x xs ih =>
    intro s hf h
    exact ih _ (fun s y hy => hf s y (List.mem_cons_of_mem _ hy))
      (hf s x (List.mem_cons_self _ _) h)

theorem FromJson.documentOf_length (classes : GoMap) (ns : List String)
    (d : List (String × Json)) :
    (FromJson.documentOf classes ns d).Features.length = classes.length := by
  unfold FromJson.documentOf
  refine foldl_invariant (FromJson.entryOf classes ns) (fun st => st.1.length = classes.length)
    d _ ?_ (by simp)
  intro s x _ hs
  rw [FromJson.entryOf_length]
  exact hs

theorem FromJson.documentOf_features (classes : GoMap) (ns : List String)
    (d : List (String × Json)) (hd : ∀ nm ∈ FromJson.documentNames d, nm ∈ ns) :
    ∀ fs ∈ (FromJson.documentOf classes ns d).Features, ∀ fi ∈ fs, fi < ns.length := by
  unfold FromJson.documentOf
  refine foldl_invariant (FromJson.entryOf classes ns)
    (fun st => ∀ fs ∈ st.1, ∀ fi ∈ fs, fi < ns.length) d _ ?_ ?_
  · intro s kv hkv hs
    unfold FromJson.entryOf
    split
    · split
      · exact hs
      · exact hs
    · intro fs hfs fi hfi
      rcases List.mem_or_eq_of_mem_set hfs with h | h
      · exact hs fs h fi hfi
      · subst h
        obtain ⟨nm, hnm, rfl⟩ := List.mem_map.mp hfi
        exact List.indexOf_lt_length.mpr (hd nm (List.mem_flatMap.mpr ⟨kv, hkv, hnm⟩))
  · intro fs hfs fi hfi
    rw [List.eq_of_mem_replicate hfs] at hfi
    simp at hfi

theorem FromJson.documentOf_class (classes : GoMap)
    (hcls : ∀ k, classes.get k < classes.length) (ns : List String)
    (d : List (String × Json)) :
    (FromJson.documentOf classes ns d).Class < classes.length := by
  unfold FromJson.documentOf
  refine foldl_invariant (FromJson.entryOf classes ns) (fun st => st.2 < classes.length)
    d _ ?_ ?_
  · intro s kv _ hs
    unfold FromJson.entryOf
    split
    · split
      · exact hcls _
      · exact hs
    · exact hs
  · exact lt_of_le_of_lt (Nat.zero_le _) (hcls "")

theorem FromJson.invert_fold_some :
    ∀ (pairs : List (Nat × Nat)) (ftd0 : List (List Nat)),
      (∀ pr ∈ pairs, pr.1 < ftd0.length) →
      ∃ ftd, pairs.foldlM (fun ftd pr => FromJson.invert.step pr.2 ftd pr.1) ftd0
        = some ftd := by
  intro pairs
  induction pairs with
  | nil => intro ftd0 _; exact ⟨ftd0, rfl⟩
  | cons pr pairs ih =>
    intro ftd0 h
    rw [List.foldlM_cons]
    have hlt := h pr (List.mem_cons_self _ _)
    unfold FromJson.invert.step
    rw [List.getElem?_eq_getElem hlt]
    simp only [Option.bind_eq_bind, Option.some_bind]
    refine ih _ ?_
    intro pr' hpr'
    rw [List.length_set]
    exact h pr' (List.mem_cons_of_mem _ hpr')

theorem mem_of_getElem_some {β : Type} {l : List β} {i : Nat} {x : β} (h : l[i]? = some x) :
    x ∈ l := by
  obtain ⟨hlt, heq⟩ := List.getElem?_eq_some_iff.mp h
  exact heq ▸ List.getElem_mem _

theorem FromJson.invert_some (Docs : List Document) (n : Nat)
    (h : ∀ d ∈ Docs, ∀ fs ∈ d.Features, ∀ fi ∈ fs, fi < n) :
    ∃ ftd, FromJson.invert Docs n = some ftd := by
  rw [FromJson.invert_eq_firings]
  refine FromJson.invert_fold_some _ _ ?_
  intro pr hpr
  obtain ⟨fi, k⟩ := pr
  obtain ⟨d, c, hd, -, doc, hdoc, fs, hfs, hfi⟩ := (FromJson.mem_firings Docs fi k).mp hpr
  rw [List.length_replicate]
  exact h doc (mem_of_getElem_some hdoc) fs (mem_of_getElem_some hfs) fi hfi

section
variable {α : Type} [LinearOrderedField α]

theorem CLogLik.computeNumerators.incr_some :
    ∀ (features : List Nat) (nums : gd.NDimensionalValue α),
      (∀ fi ∈ features, fi < nums.length) →
      ∃ nums', features.foldlM CLogLik.computeNumerators.incr nums = some nums'
        ∧ nums'.length = nums.length := by
  intro features
  induction features with
  | nil => intro nums _; exact ⟨nums, rfl, rfl⟩
  | cons fi features ih =>
    intro nums h
    rw [List.foldlM_cons]
    have hlt := h fi (List.mem_cons_self _ _)
    unfold CLogLik.computeNumerators.incr
    rw [List.getElem?_eq_getElem hlt]
    simp only [Option.bind_eq_bind, Option.some_bind]
    obtain ⟨nums', h1, h2⟩ := ih (nums.set fi (nums[fi] + 1)) (by
      intro fi' hfi'
      rw [List.length_set]
      exact h fi' (List.mem_cons_of_mem _ hfi'))
    exact ⟨nums', h1, by rw [h2, List.length_set]⟩

theorem CLogLik.computeNumerators.doc_some :
    ∀ (Docs : List Document) (nums : gd.NDimensionalValue α),
      (∀ d ∈ Docs, d.Class < d.Features.length) →
      (∀ d ∈ Docs, ∀ fs ∈ d.Features, ∀ fi ∈ fs, fi < nums.length) →
      ∃ nums', Docs.foldlM CLogLik.computeNumerators.doc nums = some nums' := by
  intro Docs
  induction Docs with
  | nil => intro nums _ _; exact ⟨nums, rfl⟩
  | cons d Docs ih =>
    intro nums hc hf
    rw [List.foldlM_cons]
    have hlt := hc d (List.mem_cons_self _ _)
    unfold CLogLik.computeNumerators.doc
    rw [List.getElem?_eq_getElem hlt]
    simp only
    obtain ⟨nums1, h1, h2⟩ := CLogLik.computeNumerators.incr_some (α := α)
      d.Features[d.Class] nums
      (hf d (List.mem_cons_self _ _) _ (List.getElem_mem _))
    rw [h1]
    simp only [Option.bind_eq_bind, Option.some_bind]
    refine ih nums1 (fun d' hd' => hc d' (List.mem_cons_of_mem _ hd')) ?_
    intro d' hd' fs hfs fi hfi
    rw [h2]
    exact hf d' (List.mem_cons_of_mem _ hd') fs hfs fi hfi

/-- On a decoded corpus that is not empty, whose entries have the types that `FromJson`
asserts and whose first document has a class, `FromJson` returns an objective; its maps
and documents are the following. -/
theorem FromJson_returns (keys0 : List String) (tmpDocs : List (List (String × Json)))
    (hne : tmpDocs ≠ []) (hk : keys0.Nodup) (hc : ∃ k ∈ keys0, k ≠ "__label__")
    (ht : ∀ d ∈ tmpDocs, ∀ kv ∈ d, FromJson.typedEntry kv = true) :
    ∃ p : CLogLik α, FromJson false keys0 tmpDocs = .ok (some p)
      ∧ p.FeatureMap = (FromJson.featureNames tmpDocs).foldl FromJson.addName []
      ∧ p.ClassMap = keys0.filter (fun k => k != "__label__")
      ∧ p.Docs = tmpDocs.map
          (FromJson.documentOf (GoMap.ofNames p.ClassMap) p.FeatureMap) := by
  have hpos : 0 < (keys0.filter fun k => k != "__label__").length := by
    obtain ⟨k, hk0, hkl⟩ := hc
    apply List.length_pos_of_mem (a := k)
    rw [List.mem_filter]
    exact ⟨hk0, by simpa using hkl⟩
  have hcls : ∀ k, (GoMap.ofNames (keys0.filter fun k => k != "__label__")).get k
      < (GoMap.ofNames (keys0.filter fun k => k != "__label__")).length := by
    intro k
    rw [GoMap.length_ofNames]
    exact GoMap.get_ofNames_lt _ k hpos
  have hlen : ¬ (false || tmpDocs.length == 0) = true := by
    cases tmpDocs with
    | nil => exact absurd rfl hne
    | cons d ds => simp
  have hfold := FromJson.documents_fold _ hcls tmpDocs [] [] ht
  rw [List.nil_append] at hfold
  have hfeat : ∀ d ∈ tmpDocs.map (FromJson.documentOf
        (GoMap.ofNames (keys0.filter fun k => k != "__label__"))
        ((FromJson.featureNames tmpDocs).foldl FromJson.addName [])),
      ∀ fs ∈ d.Features, ∀ fi ∈ fs,
        fi < ((FromJson.featureNames tmpDocs).foldl FromJson.addName []).length := by
    intro d hd
    obtain ⟨d0, hd0, rfl⟩ := List.mem_map.mp hd
    refine FromJson.documentOf_features _ _ d0 ?_
    intro nm hnm
    exact (FromJson.mem_addNames _ _ _).2 (Or.inr (List.mem_flatMap.mpr ⟨d0, hd0, hnm⟩))
  have hgold : ∀ d ∈ tmpDocs.map (FromJson.documentOf
        (GoMap.ofNames (keys0.filter fun k => k != "__label__"))
        ((FromJson.featureNames tmpDocs).foldl FromJson.addName [])),
      d.Class < d.Features.length := by
    intro d hd
    obtain ⟨d0, -, rfl⟩ := List.mem_map.mp hd
    rw [FromJson.documentOf_length]
    exact FromJson.documentOf_class _ hcls _ d0
  obtain ⟨ftd, hftd⟩ := FromJson.invert_some _ _ hfeat
  obtain ⟨nums, hnums⟩ := CLogLik.computeNumerators.doc_some (α := α) _
    (List.replicate ((FromJson.featureNames tmpDocs).foldl FromJson.addName []).length 0)
    hgold (by simpa using hfeat)
  refine ⟨⟨tmpDocs.map (FromJson.documentOf
      (GoMap.ofNames (keys0.filter fun k => k != "__label__"))
      ((FromJson.featureNames tmpDocs).foldl FromJson.addName [])), _, _, nums, ftd, 1⟩,
    ?_, rfl, rfl, rfl⟩
  unfold FromJson
  rw [if_neg hlen, FromJson.classes_eq keys0 hk]
  have hfold' : tmpDocs.foldlM
      (FromJson.document (GoMap.ofNames (keys0.filter fun k => k != "__label__"))) ([], [])
      = some (GoMap.ofNames ((FromJson.featureNames tmpDocs).foldl FromJson.addName []),
          tmpDocs.map (FromJson.documentOf
            (GoMap.ofNames (keys0.filter fun k => k != "__label__"))
            ((FromJson.featureNames tmpDocs).foldl FromJson.addName []))) := hfold
  rw [hfold']
  simp only [GoMap.length_ofNames, FromJson.names_ofNames, hftd]
  unfold CLogLik.computeNumerators
  simp only [hnums]

end
end cloglik

namespace cloglik

theorem foldlM_some_step {σ β : Type} (f : σ → β → Option σ) :
    ∀ (xs : List β) (s s' : σ), xs.foldlM f s = some s' →
      ∀ x ∈ xs, ∃ t t', f t x = some t' := by
  intro xs
  induction xs with
  | nil => intro s s' _ x hx; simp at hx
  | cons y ys ih =>
    intro s s' h x hx
    rw [List.foldlM_cons] at h
    cases hy : f s y with
    | none => simp [hy] at h
    | some s1 =>
      simp only [hy, Option.bind_eq_bind, Option.some_bind] at h
      rcases List.mem_cons.mp hx with rfl | hx'
      · exact ⟨s, s1, hy⟩
      · exact ih s1 s' h x hx'

theorem FromJson.encode_some_typed (items : List Item) (features : GoMap)
    (st : GoMap × List Nat) (h : FromJson.encode items features = some st) :
    (items.all fun it => match it with
      | .str _ => true
      | .other => false) = true := by
  rw [List.all_eq_true]
  intro it hit
  obtain ⟨i, hi, rfl⟩ := List.getElem_of_mem hit
  have hmem : (i, items[i]) ∈ items.enum := by
    rw [List.mem_enum_iff_getElem?]
    exact List.getElem?_eq_getElem hi
  obtain ⟨t, t', ht⟩ := foldlM_some_step _ _ _ _ h _ hmem
  unfold FromJson.encode.step at ht
  cases hv : items[i] with
  | str s => rfl
  | other => simp [hv] at ht

theorem FromJson.entry_some_typed (classes : GoMap) (st st' : GoMap × List (List Nat) × Nat)
    (kv : String × Json) (h : FromJson.entry classes st kv = some st') :
    FromJson.typedEntry kv = true := by
  obtain ⟨k, v⟩ := kv
  unfold FromJson.entry at h
  unfold FromJson.typedEntry
  by_cases hk : (k == "__label__") = true
  · simp only [hk, if_true] at h ⊢
    cases v with
    | str s => rfl
    | arr items => simp at h
    | other => simp at h
  · have hk' : (k == "__label__") = false := by simpa using hk
    simp only [hk', Bool.false_eq_true, if_false] at h ⊢
    cases v with
    | str s => simp at h
    | other => simp at h
    | arr items =>
      simp only at h ⊢
      split at h
      · cases henc : FromJson.encode items st.1 with
        | none => simp [henc] at h
        | some r => exact FromJson.encode_some_typed items st.1 r henc
      · simp at h

theorem FromJson.document_some_typed (classes : GoMap) (st st' : GoMap × List Document)
    (d : List (String × Json)) (h : FromJson.document classes st d = some st') :
    ∀ kv ∈ d, FromJson.typedEntry kv = true := by
  unfold FromJson.document at h
  cases hf : d.foldlM (FromJson.entry classes) (st.1, List.replicate classes.length [], 0) with
  | none => simp [hf] at h
  | some r =>
    intro kv hkv
    obtain ⟨t, t', ht⟩ := foldlM_some_step _ _ _ _ hf kv hkv
    exact FromJson.entry_some_typed classes t t' kv ht

section
variable {α : Type} [LinearOrderedField α]

/-- What an input on which `FromJson` returns an objective looks like. -/
theorem FromJson_typed (err : Bool) (keys0 : List String)
    (tmpDocs : List (List (String × Json))) (p : CLogLik α)
    (h : FromJson err keys0 tmpDocs = .ok (some p)) :
    err = false ∧ tmpDocs ≠ [] ∧ 0 < (FromJson.classes keys0).length
      ∧ ∀ d ∈ tmpDocs, ∀ kv ∈ d, FromJson.typedEntry kv = true := by
  obtain ⟨-, hlen, -, hv, -, -⟩ := FromJson_spec err keys0 tmpDocs p h
  have hne : tmpDocs ≠ [] := by
    intro h0
    have := hv.docs
    rw [hlen, h0] at this
    simp at this
  have herr : err = false := by
    cases err with
    | false => rfl
    | true => simp [FromJson] at h
  have hC : 0 < (FromJson.classes keys0).length := by
    obtain ⟨d, hd⟩ := List.exists_mem_of_length_pos hv.docs
    exact lt_of_le_of_lt (Nat.zero_le _) (hv.gold d hd)
  refine ⟨herr, hne, hC, ?_⟩
  subst herr
  unfold FromJson at h
  have hlen0 : ¬ (false || tmpDocs.length == 0) = true := by
    cases tmpDocs with
    | nil => exact absurd rfl hne
    | cons d ds => simp
  rw [if_neg hlen0] at h
  cases hf : tmpDocs.foldlM (FromJson.document (FromJson.classes keys0)) ([], []) with
  | none => simp [hf] at h
  | some r =>
    intro d hd
    obtain ⟨t, t', ht⟩ := foldlM_some_step _ _ _ _ hf d hd
    exact FromJson.document_some_typed _ t t' d ht

/-- The maps and the documents of every objective that `FromJson` returns. -/
theorem FromJson_shape (err : Bool) (keys0 : List String)
    (tmpDocs : List (List (String × Json))) (p : CLogLik α)
    (h : FromJson err keys0 tmpDocs = .ok (some p)) (hk : keys0.Nodup) :
    p.FeatureMap = (FromJson.featureNames tmpDocs).foldl FromJson.addName []
      ∧ p.ClassMap = keys0.filter (fun k => k != "__label__")
      ∧ p.Docs = tmpDocs.map
          (FromJson.documentOf (GoMap.ofNames p.ClassMap) p.FeatureMap) := by
  obtain ⟨herr, hne, hC, ht⟩ := FromJson_typed err keys0 tmpDocs p h
  subst herr
  have hc : ∃ k ∈ keys0, k ≠ "__label__" := by
    rw [FromJson.classes_eq keys0 hk, GoMap.length_ofNames] at hC
    obtain ⟨k, hk'⟩ := List.exists_mem_of_length_pos hC
    rw [List.mem_filter] at hk'
    exact ⟨k, hk'.1, by simpa using hk'.2⟩
  obtain ⟨p', hp', h1, h2, h3⟩ := FromJson_returns (α := α) keys0 tmpDocs hne hk hc ht
  rw [h] at hp'
  have : p = p' := by
    injection hp' with hp'
    injection hp'
  subst this
  exact ⟨h1, h2, h3⟩

end

theorem FromJson.entries_untouched (classes : GoMap) (ns : List String) (c : Nat) :
    ∀ (es : List (String × Json)) (st : List (List Nat) × Nat),
      (∀ kv ∈ es, (kv.1 == "__label__") = false → classes.get kv.1 ≠ c) →
      (es.foldl (FromJson.entryOf classes ns) st).1[c]? = st.1[c]? := by
  intro es
  induction es with
  | nil => intro st _; rfl
  | cons e es ih =>
    intro st h
    rw [List.foldl_cons, ih _ (fun kv hkv => h kv (List.mem_cons_of_mem _ hkv))]
    unfold FromJson.entryOf
    by_cases hk : (e.1 == "__label__") = true
    · rw [if_pos hk]
      split <;> rfl
    · have hk' : (e.1 == "__label__") = false := by simpa using hk
      rw [if_neg hk]
      exact List.getElem?_set_ne (h e (List.mem_cons_self _ _) hk')

theorem FromJson.entries_written (classes : GoMap) (ns : List String) :
    ∀ (es : List (String × Json)) (st : List (List Nat) × Nat),
      (es.map Prod.fst).Nodup →
      (∀ kv ∈ es, ∀ kv' ∈ es, (kv.1 == "__label__") = false → (kv'.1 == "__label__") = false →
        classes.get kv.1 = classes.get kv'.1 → kv.1 = kv'.1) →
      ∀ kv ∈ es, (kv.1 == "__label__") = false → classes.get kv.1 < st.1.length →
        (es.foldl (FromJson.entryOf classes ns) st).1[classes.get kv.1]?
          = some ((FromJson.entryNames kv).map fun nm => ns.indexOf nm) := by
  intro es
  induction es with
  | nil => intro st _ _ kv hkv; simp at hkv
  | cons e es ih =>
    intro st hnd hinj kv hkv hk hlt
    rw [List.map_cons, List.nodup_cons] at hnd
    rw [List.foldl_cons]
    rcases List.mem_cons.mp hkv with rfl | hkv'
    · rw [FromJson.entries_untouched classes ns (classes.get kv.1) es]
      · unfold FromJson.entryOf
        rw [if_neg (by simp [hk])]
        exact List.getElem?_set_self hlt
      · intro kv' hkv' hk' heq
        have := hinj kv' (List.mem_cons_of_mem _ hkv') kv (List.mem_cons_self _ _) hk' hk heq
        exact hnd.1 (this ▸ List.mem_map_of_mem Prod.fst hkv')
    · refine ih _ hnd.2 ?_ kv hkv' hk ?_
      · intro a ha b hb
        exact hinj a (List.mem_cons_of_mem _ ha) b (List.mem_cons_of_mem _ hb)
      · rw [FromJson.entryOf_length]
        exact hlt

theorem FromJson.entries_unlabelled (classes : GoMap) (ns : List String) :
    ∀ (es : List (String × Json)) (st : List (List Nat) × Nat),
      (∀ kv ∈ es, (kv.1 == "__label__") = false) →
      (es.foldl (FromJson.entryOf classes ns) st).2 = st.2 := by
  intro es
  induction es with
  | nil => intro st _; rfl
  | cons e es ih =>
    intro st h
    rw [List.foldl_cons, ih _ (fun kv hkv => h kv (List.mem_cons_of_mem _ hkv))]
    unfold FromJson.entryOf
    rw [if_neg (by simp [h e (List.mem_cons_self _ _)])]

theorem FromJson.entries_labelled (classes : GoMap) (ns : List String) (s : String) :
    ∀ (es : List (String × Json)) (st : List (List Nat) × Nat),
      (es.map Prod.fst).Nodup → ("__label__", Json.str s) ∈ es →
      (es.foldl (FromJson.entryOf classes ns) st).2 = classes.get s := by
  intro es
  induction es with
  | nil => intro st _ h; simp at h
  | cons e es ih =>
    intro st hnd hmem
    rw [List.map_cons, List.nodup_cons] at hnd
    rw [List.foldl_cons]
    rcases List.mem_cons.mp hmem with h | h
    · rw [FromJson.entries_unlabelled classes ns es]
      · rw [← h]
        rfl
      · intro kv hkv
        have : kv.1 ≠ e.1 := fun heq => hnd.1 (heq ▸ List.mem_map_of_mem Prod.fst hkv)
        rw [← h] at this
        simpa using this
    · exact ih _ hnd.2 h

end cloglik

namespace cloglik

theorem FromJson.Corpus.nodup {keys0 : List String} {tmpDocs : List (List (String × Json))}
    (hc : FromJson.Corpus keys0 tmpDocs) : keys0.Nodup := by
  cases htd : tmpDocs with
  | nil => exact absurd htd hc.nonempty
  | cons d0 ds =>
    have hperm := hc.first d0 (by rw [htd]; rfl)
    exact hperm.nodup_iff.mpr (hc.maps d0 (by rw [htd]; exact List.mem_cons_self _ _))

theorem FromJson.mem_itemNames (items : List Item) (name : String) :
    name ∈ FromJson.itemNames items ↔ Item.str name ∈ items := by
  unfold FromJson.itemNames
  rw [List.mem_filterMap]
  constructor
  · rintro ⟨it, hit, h⟩
    cases it with
    | str s =>
      simp only [Option.some.injEq] at h
      exact h ▸ hit
    | other => simp at h
  · intro h
    exact ⟨_, h, rfl⟩

theorem FromJson.mem_featureNames (tmpDocs : List (List (String × Json))) (name : String) :
    name ∈ FromJson.featureNames tmpDocs ↔
      ∃ d ∈ tmpDocs, ∃ k items, (k, Json.arr items) ∈ d ∧ k ≠ "__label__"
        ∧ Item.str name ∈ items := by
  unfold FromJson.featureNames FromJson.documentNames
  simp only [List.mem_flatMap]
  constructor
  · rintro ⟨d, hd, kv, hkv, h⟩
    obtain ⟨k, v⟩ := kv
    unfold FromJson.entryNames at h
    by_cases hk : (k == "__label__") = true
    · simp [hk] at h
    · have hk' : (k == "__label__") = false := by simpa using hk
      simp only [hk', Bool.false_eq_true, if_false] at h
      cases v with
      | str s => simp at h
      | other => simp at h
      | arr items =>
        exact ⟨d, hd, k, items, hkv, by simpa using hk, (FromJson.mem_itemNames _ _).mp h⟩
  · rintro ⟨d, hd, k, items, hkv, hk, h⟩
    refine ⟨d, hd, (k, Json.arr items), hkv, ?_⟩
    unfold FromJson.entryNames
    have hk' : (k == "__label__") = false := by simpa using hk
    simp only [hk', Bool.false_eq_true, if_false]
    exact (FromJson.mem_itemNames _ _).mpr h

section
variable {α : Type} [LinearOrderedField α]

/-- Running `computeNumerators` again on the objective that `FromJson` returns gives the
same objective. -/
theorem FromJson_numerators (err : Bool) (keys0 : List String)
    (tmpDocs : List (List (String × Json))) (p : CLogLik α)
    (h : FromJson err keys0 tmpDocs = .ok (some p)) : p.computeNumerators = some p := by
  obtain ⟨-, -, -, hv, -, hnum⟩ := FromJson_spec err keys0 tmpDocs p h
  obtain ⟨nums, hnums⟩ := CLogLik.computeNumerators.doc_some (α := α) p.Docs
    (List.replicate p.FeatureMap.length 0)
    (fun d hd => by rw [hv.classes d hd]; exact hv.gold d hd)
    (by simpa using hv.features)
  have hp' : p.computeNumerators = some { p with numerators := nums } := by
    unfold CLogLik.computeNumerators
    simp only [hnums]
  obtain ⟨-, -, -, -, -, hlen, -, hget⟩ := CLogLik.computeNumerators_spec p _ hp'
  have hnl : nums.length = p.FeatureMap.length := hlen
  have heq : nums = p.numerators := by
    apply List.ext_getElem?
    intro i
    by_cases hi : i < p.FeatureMap.length
    · have h1 : nums[i]? = some ((goldFeatures p.Docs).count i : α) := hget i hi
      rw [h1, hnum i hi]
    · rw [List.getElem?_eq_none (by omega),
        List.getElem?_eq_none (by rw [hv.numerators]; omega)]
  rw [hp', heq]

end
end cloglik

namespace cloglik

section
variable {α : Type} [LinearOrderedField α]

theorem CLogLik.Fprime.negate_fold (p : CLogLik α) :
    ∀ (m k : Nat) (r1 r2 : gd.NDimensionalValue α), r1.length = r2.length →
      (∀ i, i < k → r1[i]? = r2[i]?) → k + m = r1.length →
      (List.range' k m).foldlM (CLogLik.Fprime.negate.step p) r1
        = (List.range' k m).foldlM (CLogLik.Fprime.negate.step p) r2 := by
  intro m
  induction m with
  | zero =>
    intro k r1 r2 hlen hagree hk
    have : r1 = r2 := by
      apply List.ext_getElem? 
      intro i
      by_cases hi : i < k
      · exact hagree i hi
      · have h1 : r1.length ≤ i := by omega
        have h2 : r2.length ≤ i := by omega
        rw [List.getElem?_eq_none h1, List.getElem?_eq_none h2]
    rw [this]
  | succ m ih =>
    intro k r1 r2 hlen hagree hk
    rw [List.range'_succ, List.foldlM_cons, List.foldlM_cons]
    unfold CLogLik.Fprime.negate.step
    cases hn : p.numerators[k]? with
    | none => rfl
    | some v =>
      have h1 : k < r1.length := by omega
      have h2 : k < r2.length := by omega
      simp only [h1, h2, if_true, Option.bind_eq_bind, Option.some_bind]
      apply ih (k + 1)
      · simp [hlen]
      · intro i hi
        by_cases hik : i = k
        · subst hik
          simp [h1, h2]
        · have : i < k := by omega
          rw [List.getElem?_set_ne (Ne.symm hik), List.getElem?_set_ne (Ne.symm hik)]
          exact hagree i this
      · simp
        omega

theorem CLogLik.Fprime.negate_buffer (p : CLogLik α) (r1 r2 : gd.NDimensionalValue α)
    (h : r1.length = r2.length) :
    CLogLik.Fprime.negate p r1 = CLogLik.Fprime.negate p r2 := by
  unfold CLogLik.Fprime.negate
  rw [← h, List.range_eq_range']
  exact CLogLik.Fprime.negate_fold p r1.length 0 r1 r2 h (fun i hi => absurd hi (by omega))
    (by omega)

theorem CLogLik.Fprime_buffer (exp : α → α) (p : CLogLik α) (l r1 r2 : gd.NDimensionalValue α)
    (h : r1.length = r2.length) : p.Fprime exp l r1 = p.Fprime exp l r2 := by
  unfold CLogLik.Fprime
  rw [CLogLik.Fprime.negate_buffer p r1 r2 h]

end
end cloglik

namespace cloglik

theorem pairwise_enumFrom_fst {β : Type} : ∀ (xs : List β) (k : Nat),
    (List.enumFrom k xs).Pairwise fun a b => a.1 < b.1 := by
  intro xs
  induction xs with
  | nil => intro k; exact List.Pairwise.nil
  | cons x xs ih =>
    intro k
    rw [List.enumFrom_cons, List.pairwise_cons]
    refine ⟨?_, ih (k + 1)⟩
    intro b hb
    obtain ⟨i, hi⟩ := List.mem_iff_getElem?.mp hb
    rw [List.getElem?_enumFrom] at hi
    cases hx : xs[i]? with
    | none => simp [hx] at hi
    | some y =>
      simp only [hx, Option.map_some', Option.some.injEq] at hi
      rw [← hi]
      show k < k + 1 + i
      omega

theorem FromJson.firings_order (Docs : List Document) :
    (FromJson.firings Docs).Pairwise fun a b =>
      a.2 % Docs.length < b.2 % Docs.length
        ∨ (a.2 % Docs.length = b.2 % Docs.length ∧ a.2 / Docs.length ≤ b.2 / Docs.length) := by
  unfold FromJson.firings
  rw [List.pairwise_flatMap]
  have hmemd : ∀ doc ∈ Docs.enum, doc.1 < Docs.length := by
    intro doc hdoc
    obtain ⟨h1, -⟩ := List.mem_enum_iff_getElem?.mp hdoc |> fun h =>
      (⟨(List.getElem?_eq_some_iff.mp h).1, trivial⟩ : doc.1 < Docs.length ∧ True)
    exact h1
  have hcomb : ∀ (c d : Nat), d < Docs.length →
      (c * Docs.length + d) % Docs.length = d ∧ (c * Docs.length + d) / Docs.length = c := by
    intro c d hd
    constructor
    · rw [Nat.add_comm, Nat.add_mul_mod_self_right, Nat.mod_eq_of_lt hd]
    · rw [Nat.add_comm, Nat.add_mul_div_right _ _ (by omega), Nat.div_eq_of_lt hd]
      omega
  constructor
  · intro doc hdoc
    have hd := hmemd doc hdoc
    rw [List.pairwise_flatMap]
    constructor
    · intro cf _
      rw [List.pairwise_map]
      refine List.pairwise_of_forall ?_
      intro x y
      right
      exact ⟨rfl, le_refl _⟩
    · refine (pairwise_enumFrom_fst doc.2.Features 0).imp ?_
      intro a b hab x hx y hy
      obtain ⟨fx, -, rfl⟩ := List.mem_map.mp hx
      obtain ⟨fy, -, rfl⟩ := List.mem_map.mp hy
      right
      simp only [(hcomb a.1 doc.1 hd).1, (hcomb b.1 doc.1 hd).1, (hcomb a.1 doc.1 hd).2,
        (hcomb b.1 doc.1 hd).2, true_and]
      omega
  · have hp := pairwise_enumFrom_fst Docs 0
    have hp2 : (Docs.enum).Pairwise fun a b => a ∈ Docs.enum ∧ b ∈ Docs.enum ∧ a.1 < b.1 := by
      refine (List.Pairwise.and_mem.mp hp).imp ?_
      intro a b h
      exact ⟨h.1, h.2.1, h.2.2⟩
    refine hp2.imp ?_
    intro a b hab x hx y hy
    obtain ⟨cx, -, hx⟩ := List.mem_flatMap.mp hx
    obtain ⟨cy, -, hy⟩ := List.mem_flatMap.mp hy
    obtain ⟨fx, -, rfl⟩ := List.mem_map.mp hx
    obtain ⟨fy, -, rfl⟩ := List.mem_map.mp hy
    left
    simp only [(hcomb cx.1 a.1 (hmemd a hab.1)).1, (hcomb cy.1 b.1 (hmemd b hab.2.1)).1]
    exact hab.2.2

end cloglik

namespace cloglik

theorem TestMaxent.corpus : FromJson.Corpus TestMaxent.keys0 TestMaxent.tmpDocs where
  nonempty := by decide
  first := by
    intro d0 h
    simp only [TestMaxent.tmpDocs, List.head?_cons, Option.some.injEq] at h
    subst h
    exact List.Perm.refl _
  maps := by decide
  keys := by
    intro d hd k
    simp only [TestMaxent.tmpDocs, List.mem_cons, List.mem_singleton, List.not_mem_nil,
      or_false] at hd
    rcases hd with rfl | rfl <;> simp [TestMaxent.keys0]
  labelled := by decide
  classes := ⟨"A", by decide, by decide⟩
  typed := by decide
  label := by
    intro d hd s hs
    simp only [TestMaxent.tmpDocs, List.mem_cons, List.mem_singleton, List.not_mem_nil,
      or_false] at hd
    rcases hd with rfl | rfl <;> simp at hs <;> subst hs <;> decide

end cloglik


/-! ## Lemmas on the blocks of the workers and on termination -/

theorem mem_block (n per i j : Nat) :
    j ∈ block n per i ↔ i * per ≤ j ∧ j < (i + 1) * per ∧ j < n := by
  unfold block
  rw [List.mem_range'_1]
  constructor
  · rintro ⟨h1, h2⟩
    omega
  · rintro ⟨h1, h2, h3⟩
    omega

theorem blocks_flatMap (n per : Nat) :
    ∀ t : Nat, (List.range t).flatMap (block n per) = List.range' 0 (min (t * per) n) := by
  intro t
  induction t with
  | zero => simp
  | succ t ih =>
    rw [List.range_succ, List.flatMap_append, ih]
    have hmono : t * per ≤ (t + 1) * per := Nat.mul_le_mul_right _ (Nat.le_succ t)
    simp only [List.flatMap_cons, List.flatMap_nil, List.append_nil]
    unfold block
    rcases Nat.lt_or_ge n (t * per) with h | h
    · have h1 : min (t * per) n = n := by omega
      have h2 : min ((t + 1) * per) n = n := by omega
      have h3 : n - t * per = 0 := by omega
      simp [h1, h2, h3]
    · have h1 : min (t * per) n = t * per := by omega
      have h4 : t * per ≤ min ((t + 1) * per) n := by omega
      rw [h1]
      have := List.range'_append 0 (t * per) (min ((t + 1) * per) n - t * per) 1
      simp only [Nat.zero_add, Nat.one_mul] at this
      rw [this]
      congr 1
      omega

/-- With at least one worker the blocks of `ceilDiv n T` indices, one after the other, are
the indices `0, ..., n-1`. -/
theorem blocks_partition (n T : Nat) (hT : 1 ≤ T) :
    (List.range T).flatMap (block n (ceilDiv n T)) = List.range n := by
  rw [blocks_flatMap, List.range_eq_range']
  have := gd.ceilDiv_mul_ge n T hT
  have hmin : min (T * ceilDiv n T) n = n := by omega
  rw [hmin]

theorem block_iff_div (n T : Nat) (hT : 1 ≤ T) (i j : Nat) (hj : j < n) :
    j ∈ block n (ceilDiv n T) i ↔ i = j / ceilDiv n T := by
  have hge := gd.ceilDiv_mul_ge n T hT
  have hper : 0 < ceilDiv n T := by
    rcases Nat.eq_zero_or_pos (ceilDiv n T) with h | h
    · rw [h] at hge
      omega
    · exact h
  rw [mem_block]
  constructor
  · rintro ⟨h1, h2, -⟩
    exact (Nat.div_eq_of_lt_le h1 h2).symm
  · intro h
    subst h
    refine ⟨Nat.div_mul_le_self j _, ?_, hj⟩
    have := Nat.lt_mul_div_succ j hper
    rw [Nat.mul_comm] at this
    exact this

theorem block_worker_lt (n T : Nat) (hT : 1 ≤ T) (j : Nat) (hj : j < n) :
    j / ceilDiv n T < T := by
  have hge := gd.ceilDiv_mul_ge n T hT
  apply Nat.div_lt_of_lt_mul
  rw [Nat.mul_comm]
  omega

/-- Every index below `n` is in the block of exactly one of the `T` workers. -/
theorem block_unique (n T : Nat) (hT : 1 ≤ T) (j : Nat) (hj : j < n) :
    ∃! i, i < T ∧ j ∈ block n (ceilDiv n T) i := by
  refine ⟨j / ceilDiv n T, ⟨block_worker_lt n T hT j hj, (block_iff_div n T hT _ j hj).mpr rfl⟩,
    ?_⟩
  rintro i ⟨-, hi⟩
  exact (block_iff_div n T hT i j hj).mp hi

theorem block_countP (n T : Nat) (hT : 1 ≤ T) (order : List Nat)
    (horder : order.Perm (List.range T)) (j : Nat) :
    order.countP (fun i => decide (j ∈ block n (ceilDiv n T) i)) = if j < n then 1 else 0 := by
  rw [horder.countP_eq]
  by_cases hj : j < n
  · rw [if_pos hj]
    have hcongr : ∀ i ∈ List.range T,
        (decide (j ∈ block n (ceilDiv n T) i) = true ↔ (i == j / ceilDiv n T) = true) := by
      intro i _
      rw [decide_eq_true_eq, beq_iff_eq]
      exact block_iff_div n T hT i j hj
    rw [List.countP_congr hcongr]
    have : List.countP (fun i => i == j / ceilDiv n T) (List.range T)
        = List.count (j / ceilDiv n T) (List.range T) := rfl
    rw [this]
    exact List.count_eq_one_of_mem (List.nodup_range T)
      (List.mem_range.mpr (block_worker_lt n T hT j hj))
  · rw [if_neg hj, List.countP_eq_zero]
    intro i _
    rw [decide_eq_true_eq, mem_block]
    omega

namespace gd

variable {α : Type} [LinearOrderedField α]

theorem computeRoutine.block_step (gd : GradientDescent α) (fp x : NDimensionalValue α)
    (b : Bool) (ipt i : Nat) (hlen : fp.length = x.length) :
    ∃ r, computeRoutine gd (Optimize.dispatch x.length ipt i) fp (x, b)
        = some (r, b && (block x.length ipt i).all
            (fun j => decide (|fp.getD j 0| < gd.Threshold)))
      ∧ r.length = x.length
      ∧ ∀ j, r.getD j 0 = if j ∈ block x.length ipt i
          then x.getD j 0 - gd.LearningRate * fp.getD j 0 else x.getD j 0 := by
  have hu : computeRoutine gd (Optimize.dispatch x.length ipt i) fp (x, b)
      = (block x.length ipt i).foldlM (computeRoutine.update gd fp) (x, b) := rfl
  rw [hu]
  rcases Nat.lt_or_ge (i * ipt) (min ((i + 1) * ipt) x.length) with h | h
  · obtain ⟨r, hr, hrl, hget⟩ := computeRoutine.sweep gd fp
      (min ((i + 1) * ipt) x.length - i * ipt) (i * ipt) x b (by omega) (by omega)
    refine ⟨r, hr, hrl, ?_⟩
    intro j
    rw [hget j]
    have : (j ∈ block x.length ipt i)
        ↔ (i * ipt ≤ j ∧ j < i * ipt + (min ((i + 1) * ipt) x.length - i * ipt)) := by
      unfold block
      exact List.mem_range'_1
    simp only [this]
  · have h0 : block x.length ipt i = [] := by
      unfold block
      have : min ((i + 1) * ipt) x.length - i * ipt = 0 := by omega
      rw [this]
      rfl
    rw [h0]
    refine ⟨x, by simp, rfl, ?_⟩
    intro j
    simp

theorem Optimize.workers_fold (gd : GradientDescent α) (fp : NDimensionalValue α)
    (ipt : Nat) :
    ∀ (order : List Nat) (x : NDimensionalValue α) (b : Bool), fp.length = x.length →
      ∃ r, Optimize.workers gd x.length ipt order fp (x, b)
          = some (r, b && order.all (fun i => (block x.length ipt i).all
              (fun j => decide (|fp.getD j 0| < gd.Threshold))))
        ∧ r.length = x.length
        ∧ ∀ j, r.getD j 0 = x.getD j 0
            - (order.countP (fun i => decide (j ∈ block x.length ipt i)) : α)
              * (gd.LearningRate * fp.getD j 0) := by
  intro order
  induction order with
  | nil =>
    intro x b _
    refine ⟨x, by simp [Optimize.workers], rfl, ?_⟩
    intro j
    simp
  | cons i order ih =>
    intro x b hlen
    obtain ⟨r1, h1, hl1, hg1⟩ := computeRoutine.block_step gd fp x b ipt i hlen
    obtain ⟨r, h2, hl2, hg2⟩ := ih r1
      (b && (block x.length ipt i).all (fun j => decide (|fp.getD j 0| < gd.Threshold)))
      (by rw [hl1, hlen])
    rw [hl1] at h2 hl2 hg2
    refine ⟨r, ?_, hl2, ?_⟩
    · unfold Optimize.workers at h2 ⊢
      rw [List.foldlM_cons, h1]
      simp only [Option.bind_eq_bind, Option.some_bind]
      rw [h2, List.all_cons, Bool.and_assoc]
    · intro j
      rw [hg2 j, hg1 j, List.countP_cons]
      by_cases hj : j ∈ block x.length ipt i
      · simp only [hj, if_true, decide_True]
        push_cast
        ring
      · simp only [hj, if_false, decide_False]
        push_cast
        ring

/-- Whatever the order in which the workers get to their blocks, the update phase of one
pass is `x - eta*fp` on the whole vector, and the flag is the test of every coordinate. -/
theorem Optimize.workers_perm (gd : GradientDescent α) (x fp : NDimensionalValue α)
    (hT : 1 ≤ gd.Threads) (hlen : fp.length = x.length) (order : List Nat)
    (horder : order.Perm (List.range gd.Threads)) :
    Optimize.workers gd x.length (ceilDiv x.length gd.Threads) order fp (x, true)
      = some (descend gd.LearningRate x fp, below gd.Threshold fp) := by
  obtain ⟨r, hr, hrl, hget⟩ := Optimize.workers_fold gd fp (ceilDiv x.length gd.Threads)
    order x true hlen
  rw [hr]
  congr 1
  refine Prod.ext ?_ ?_
  · show r = descend gd.LearningRate x fp
    apply List.ext_getElem
    · simp [descend, hrl, hlen]
    · intro i h1 h2
      have hi : i < x.length := by omega
      have hf : i < fp.length := by omega
      have := hget i
      rw [block_countP x.length gd.Threads hT order horder i, if_pos hi,
        List.getD_eq_getElem _ _ h1, List.getD_eq_getElem _ _ hi,
        List.getD_eq_getElem _ _ hf] at this
      simp [descend, this]
  · show (true && _) = below gd.Threshold fp
    simp only [Bool.true_and]
    unfold below
    rw [Bool.eq_iff_iff]
    simp only [List.all_eq_true, decide_eq_true_eq]
    constructor
    · intro h g hg
      obtain ⟨j, hj, rfl⟩ := List.getElem_of_mem hg
      have hjx : j < x.length := by omega
      have hmem : j / ceilDiv x.length gd.Threads ∈ order :=
        horder.mem_iff.mpr (List.mem_range.mpr (block_worker_lt _ _ hT j hjx))
      have := h _ hmem j ((block_iff_div _ _ hT _ j hjx).mpr rfl)
      rwa [List.getD_eq_getElem _ _ hj] at this
    · intro h i _ j hj
      have hjx : j < x.length := ((mem_block _ _ _ _).mp hj).2.2
      have hjf : j < fp.length := by omega
      rw [List.getD_eq_getElem _ _ hjf]
      exact h _ (List.getElem_mem _)

theorem Optimize.sequential_eq (gd : GradientDescent α) (x fp : NDimensionalValue α)
    (hlen : fp.length = x.length) :
    Optimize.sequential gd fp (x, true)
      = some (descend gd.LearningRate x fp, below gd.Threshold fp) := by
  have h := Optimize.workers_eq { gd with Threads := 1 } x fp (le_refl 1) hlen
  rw [Optimize.blocks_sweep] at h
  have hmin : min (1 * ceilDiv x.length 1) x.length = x.length := by
    have := ceilDiv_mul_ge x.length 1 (le_refl 1)
    omega
  simp only [hmin] at h
  unfold Optimize.sequential
  rw [hlen, List.range_eq_range']
  exact h

/-- The loop of `Optimize` does the same with any two numbers of workers that are at least
one. -/
theorem Optimize.loop_threads (gd : GradientDescent α) (f : Function α) (T1 T2 : Nat)
    (h1 : 1 ≤ T1) (h2 : 1 ≤ T2) (dim : Nat) :
    ∀ (fuel : Nat) (s : State α), s.x.length = dim → s.fp.length = dim →
      Optimize.loop { gd with Threads := T1 } f dim (ceilDiv dim T1) fuel s
        = Optimize.loop { gd with Threads := T2 } f dim (ceilDiv dim T2) fuel s := by
  intro fuel
  induction fuel with
  | zero =>
    intro s _ _
    unfold Optimize.loop
    rfl
  | succ fuel ih =>
    intro s hx hfp
    unfold Optimize.loop
    have hc : Optimize.continues { gd with Threads := T1 } s
        = Optimize.continues { gd with Threads := T2 } s := rfl
    rw [hc]
    split
    · have hb1 := Optimize.body_eq { gd with Threads := T1 } f h1 s (by rw [hfp, hx])
      have hb2 := Optimize.body_eq { gd with Threads := T2 } f h2 s (by rw [hfp, hx])
      rw [hx] at hb1 hb2
      simp only [hb1, hb2]
      cases hg : f.Fprime s.x s.fp with
      | none => rfl
      | some g =>
        simp only [Option.map_some']
        have hgl : g.length = dim := by rw [f.Fprime_length _ _ _ hg, hfp]
        exact ih _ (by simp only; rw [descend_length _ _ _ (by rw [hgl, hx]), hx]) hgl
    · rfl

end gd

namespace cloglik

section
variable {α : Type} [LinearOrderedField α]

omit [LinearOrderedField α] in
theorem CLogLik.Fprime.writes_eq (p : CLogLik α) (C D : Nat) (hv : p.Valid C D) (T : Nat)
    (hT : 1 ≤ T) :
    CLogLik.Fprime.writes { p with Threads := T }
      = (List.range p.Docs.length).flatMap fun j =>
          (List.range C).map fun c => c * p.Docs.length + j := by
  unfold CLogLik.Fprime.writes
  simp only
  rw [← List.flatMap_assoc, blocks_partition _ _ hT]
  apply List.flatMap_congr
  intro j hj
  rw [List.mem_range] at hj
  rw [List.getElem?_eq_getElem hj]
  simp only
  rw [hv.classes _ (List.getElem_mem _)]

theorem combined_perm (C N : Nat) (hN : 0 < N) :
    ((List.range N).flatMap fun j => (List.range C).map fun c => c * N + j).Perm
      (List.range (C * N)) := by
  rw [List.perm_ext_iff_of_nodup ?_ (List.nodup_range _)]
  · intro k
    simp only [List.mem_flatMap, List.mem_map, List.mem_range]
    constructor
    · rintro ⟨j, hj, c, hc, rfl⟩
      calc c * N + j < c * N + N := by omega
        _ = (c + 1) * N := by ring
        _ ≤ C * N := Nat.mul_le_mul_right _ hc
    · intro hk
      refine ⟨k % N, Nat.mod_lt _ hN, k / N, ?_, ?_⟩
      · exact Nat.div_lt_of_lt_mul (by rw [Nat.mul_comm]; exact hk)
      · exact Nat.div_add_mod' k N
  · rw [List.nodup_flatMap]
    constructor
    · intro j _
      refine (List.nodup_range C).map ?_
      intro c c' hcc
      simp only at hcc
      have : c * N = c' * N := by omega
      exact Nat.eq_of_mul_eq_mul_right hN this
    · refine (List.nodup_range N).imp_of_mem ?_
      intro j j' hj hj' hne
      rw [List.mem_range] at hj hj'
      intro k hk hk'
      obtain ⟨c, -, rfl⟩ := List.mem_map.mp hk
      obtain ⟨c', -, hcc⟩ := List.mem_map.mp hk'
      apply hne
      have h1 : (c * N + j) % N = j := by
        rw [Nat.add_comm, Nat.add_mul_mod_self_right, Nat.mod_eq_of_lt hj]
      have h2 : (c' * N + j') % N = j' := by
        rw [Nat.add_comm, Nat.add_mul_mod_self_right, Nat.mod_eq_of_lt hj']
      rw [← h1, ← h2, hcc]

end
end cloglik

namespace gd

variable {α : Type} [LinearOrderedField α]

theorem coordinate_eventually_below [Archimedean α] (q g tau : α) (hq : |q| < 1)
    (htau : 0 < tau) : ∃ N : Nat, ∀ n, N ≤ n → |q ^ n * g| < tau := by
  by_cases hg : g = 0
  · refine ⟨0, fun n _ => ?_⟩
    rw [hg, mul_zero, abs_zero]
    exact htau
  · have hgpos : 0 < |g| := abs_pos.mpr hg
    obtain ⟨N, hN⟩ := exists_pow_lt_of_lt_one (div_pos htau hgpos) hq
    refine ⟨N, fun n hn => ?_⟩
    rw [abs_mul, abs_pow]
    have h1 : |q| ^ n ≤ |q| ^ N := pow_le_pow_of_le_one (abs_nonneg q) hq.le hn
    have h2 : |q| ^ n < tau / |g| := lt_of_le_of_lt h1 hN
    rwa [lt_div_iff₀ hgpos] at h2

theorem parabolas_eventually_below [Archimedean α] (eta tau : α) (htau : 0 < tau) :
    ∀ (ps : List (Parabola α)) (x0 : NDimensionalValue α),
      (∀ p ∈ ps, |1 - 2 * p.a * eta| < 1) →
      ∃ N : Nat, ∀ n, N ≤ n →
        below tau (List.zipWith
          (fun p x0i => (1 - 2 * p.a * eta) ^ n * (2 * p.a * x0i + p.b)) ps x0) = true := by
  intro ps
  induction ps with
  | nil =>
    intro x0 _
    exact ⟨0, fun n _ => by simp [below]⟩
  | cons p ps ih =>
    intro x0 hq
    cases x0 with
    | nil => exact ⟨0, fun n _ => by simp [below]⟩
    | cons x xs =>
      obtain ⟨N1, h1⟩ := coordinate_eventually_below (1 - 2 * p.a * eta) (2 * p.a * x + p.b)
        tau (hq p (List.mem_cons_self _ _)) htau
      obtain ⟨N2, h2⟩ := ih xs (fun p' hp' => hq p' (List.mem_cons_of_mem _ hp'))
      refine ⟨max N1 N2, fun n hn => ?_⟩
      have hb := h2 n (le_trans (le_max_right _ _) hn)
      have ha := h1 n (le_trans (le_max_left _ _) hn)
      unfold below at hb ⊢
      rw [List.zipWith_cons_cons, List.all_cons, hb, Bool.and_true, decide_eq_true_eq]
      exact ha

theorem Optimize.passes_of_grad_any (gd : GradientDescent α) (f : Function α)
    (hT : 1 ≤ gd.Threads) (grad : NDimensionalValue α → NDimensionalValue α)
    (x0 : NDimensionalValue α)
    (hgrad : ∀ x r : NDimensionalValue α, x.length = x0.length → r.length = x0.length →
      f.Fprime x r = some (grad x)) :
    ∀ n : Nat, ∃ it : Int,
      Optimize.passes gd f x0.length (ceilDiv x0.length gd.Threads) (n + 1) (Optimize.start x0)
        = some ⟨(descentMap gd.LearningRate grad)^[n + 1] x0,
            grad ((descentMap gd.LearningRate grad)^[n] x0),
            below gd.Threshold (grad ((descentMap gd.LearningRate grad)^[n] x0)), it⟩ := by
  have hgl : ∀ x : NDimensionalValue α, x.length = x0.length → (grad x).length = x0.length := by
    intro x hx
    have := f.Fprime_length _ _ _ (hgrad x (List.replicate x0.length 0) hx (by simp))
    simpa using this
  have hxl : ∀ n : Nat, ((descentMap gd.LearningRate grad)^[n] x0).length = x0.length := by
    intro n
    induction n with
    | zero => rfl
    | succ n ih =>
      rw [Function.iterate_succ_apply']
      exact (descend_length _ _ _ ((hgl _ ih).trans ih.symm)).trans ih
  intro n
  induction n with
  | zero =>
    have hb := Optimize.body_eq gd f hT (Optimize.start x0) (by simp [Optimize.start])
    have hx : (Optimize.start x0).x = x0 := rfl
    rw [hx, hgrad x0 _ rfl (by simp [Optimize.start])] at hb
    refine ⟨wrapInt ((Optimize.start x0).iter + 1), ?_⟩
    simp only [Optimize.passes, hb, Option.map_some', Option.some_bind]
    simp [descentMap]
  | succ n ih =>
    obtain ⟨it, ih⟩ := ih
    refine ⟨wrapInt (it + 1), ?_⟩
    rw [passes_succ_last, ih, Option.some_bind]
    have hb := Optimize.body_eq gd f hT
      ⟨(descentMap gd.LearningRate grad)^[n + 1] x0,
        grad ((descentMap gd.LearningRate grad)^[n] x0),
        below gd.Threshold (grad ((descentMap gd.LearningRate grad)^[n] x0)), it⟩
      (by simp only; rw [hgl _ (hxl n), hxl (n + 1)])
    simp only [hxl (n + 1)] at hb
    rw [hb, hgrad _ _ (hxl (n + 1)) (hgl _ (hxl n))]
    simp only [Option.map_some', Option.some.injEq]
    rw [Function.iterate_succ_apply' (f := descentMap gd.LearningRate grad) (n := n + 1)]
    rfl

/-- When the gradient passes the test at some iterate, the run returns: after at most that
many passes plus one the loop test fails. -/
theorem Optimize.run_terminates (gd : GradientDescent α) (f : Function α)
    (hT : 1 ≤ gd.Threads) (grad : NDimensionalValue α → NDimensionalValue α)
    (x0 : NDimensionalValue α)
    (hgrad : ∀ x r : NDimensionalValue α, x.length = x0.length → r.length = x0.length →
      f.Fprime x r = some (grad x))
    (n : Nat)
    (hpass : below gd.Threshold (grad ((descentMap gd.LearningRate grad)^[n] x0)) = true) :
    ∃ (m : Nat) (s : State α), m ≤ n + 1
      ∧ (∀ fuel, m ≤ fuel → Optimize.run fuel gd f x0 = .ok s)
      ∧ (s.optimized = true ∨ s.iter = gd.MaxIter) := by
  classical
  have hex : ∃ m, ∃ s, Optimize.passes gd f x0.length (ceilDiv x0.length gd.Threads) m
      (Optimize.start x0) = some s ∧ Optimize.continues gd s = false := by
    obtain ⟨it, hit⟩ := Optimize.passes_of_grad_any gd f hT grad x0 hgrad n
    refine ⟨n + 1, _, hit, ?_⟩
    simp [Optimize.continues, hpass]
  obtain ⟨s, hs, hc⟩ := Nat.find_spec hex
  refine ⟨Nat.find hex, s, ?_, ?_, ?_⟩
  · apply Nat.find_min' hex
    obtain ⟨it, hit⟩ := Optimize.passes_of_grad_any gd f hT grad x0 hgrad n
    refine ⟨_, hit, ?_⟩
    simp [Optimize.continues, hpass]
  · intro fuel hfuel
    refine Optimize.loop_of_passes gd f _ _ (Nat.find hex) _ s hs hc ?_ fuel hfuel
    intro j hj sj hsj
    by_contra hcont
    exact Nat.find_min hex hj ⟨sj, hsj, by simpa using hcont⟩
  · unfold Optimize.continues at hc
    rw [Bool.and_eq_false_iff] at hc
    rcases hc with h | h
    · left
      simpa using h
    · right
      have : gd.MaxIter = s.iter := by simpa using h
      exact this.symm

end gd

namespace cloglik

theorem sum_nonpos_list (l : List ℝ) (h : ∀ x ∈ l, x ≤ 0) : l.sum ≤ 0 := by
  induction l with
  | nil => simp
  | cons a l ih =>
    rw [List.sum_cons]
    have := h a (List.mem_cons_self _ _)
    have := ih (fun x hx => h x (List.mem_cons_of_mem _ hx))
    linarith

theorem map_range_getD {β γ : Type} (f : β → γ) (l : List β) (d : β) :
    (List.range l.length).map (fun c => f (l.getD c d)) = l.map f := by
  apply List.ext_getElem
  · simp
  · intro i h1 h2
    have hi : i < l.length := by simpa using h1
    simp [List.getElem?_eq_getElem hi]

theorem numerOf_le_denomOf (doc : Document) (l : gd.NDimensionalValue ℝ) (c : Nat)
    (hc : c < doc.Features.length) :
    Real.exp (scoreOf l (doc.Features.getD c [])) ≤ denomOf Real.exp doc l := by
  unfold denomOf
  apply List.single_le_sum
  · intro x hx
    obtain ⟨fs, -, rfl⟩ := List.mem_map.mp hx
    exact (Real.exp_pos _).le
  · rw [List.getD_eq_getElem _ _ hc]
    exact List.mem_map_of_mem _ (List.getElem_mem _)

theorem probOf_sum (doc : Document) (l : gd.NDimensionalValue ℝ)
    (h : 0 < doc.Features.length) :
    ((List.range doc.Features.length).map fun c => probOf Real.exp doc l c).sum = 1 := by
  have hden := denomOf_pos doc l h
  have h1 : (List.range doc.Features.length).map (fun c => probOf Real.exp doc l c)
      = (List.range doc.Features.length).map
          (fun c => Real.exp (scoreOf l (doc.Features.getD c [])) * (denomOf Real.exp doc l)⁻¹) := by
    apply List.map_congr_left
    intro c hc
    rw [List.mem_range] at hc
    rw [probOf_real doc l c hc, div_eq_mul_inv]
  rw [h1, List.sum_map_mul_right,
    map_range_getD (fun fs => Real.exp (scoreOf l fs)) doc.Features []]
  exact mul_inv_cancel₀ hden.ne'

theorem probOf_bounds (doc : Document) (l : gd.NDimensionalValue ℝ) (c : Nat)
    (hc : c < doc.Features.length) :
    0 < probOf Real.exp doc l c ∧ probOf Real.exp doc l c ≤ 1 := by
  have hden := denomOf_pos doc l (lt_of_le_of_lt (Nat.zero_le _) hc)
  rw [probOf_real doc l c hc]
  exact ⟨div_pos (Real.exp_pos _) hden, (div_le_one hden).mpr (numerOf_le_denomOf doc l c hc)⟩

end cloglik



/-! ## Lemmas on the optimizer in binary64 arithmetic -/

namespace binary64

/-- The rounding on known cases: `0.1`, the ties at `2^53 + 1` and `2^53 + 3`, the largest
finite number, the least magnitude that overflows, and the numbers around the least
positive one, `2^-1074`. -/
theorem nearest_cases :
    nearest (1 / 10) = some (3602879701896397 / 36028797018963968)
    ∧ nearest (2 ^ 53 + 1) = some (2 ^ 53)
    ∧ nearest (2 ^ 53 + 3) = some (2 ^ 53 + 4)
    ∧ nearest (-(2 ^ 53 + 3)) = some (-(2 ^ 53 + 4))
    ∧ nearest (2 ^ 1024 - 2 ^ 971) = some (2 ^ 1024 - 2 ^ 971)
    ∧ nearest (2 ^ 1024 - 2 ^ 970) = none
    ∧ nearest (1 / 2 ^ 1074) = some (1 / 2 ^ 1074)
    ∧ nearest (1 / 2 ^ 1075) = some 0
    ∧ nearest (3 / 2 ^ 1075) = some (1 / 2 ^ 1073) := by
  refine ⟨by decide!, by decide!, by decide!, by decide!, by decide!, by decide!, by decide!,
    by decide!, by decide!⟩

end binary64

namespace gd

/-- A state at which the loop test fails is returned. -/
theorem Optimize.loop64_stop (cfg : GradientDescent ℚ) (f : Function Float64)
    (dim ipt fuel : Nat) (s : State Float64) (h : Optimize.continues64 cfg s = false) :
    Optimize.loop64 cfg f dim ipt fuel s = .ok s := by
  cases fuel <;> simp [Optimize.loop64, h]

/-- A state at which the loop test holds is replaced by the state after the body. -/
theorem Optimize.loop64_step (cfg : GradientDescent ℚ) (f : Function Float64)
    (dim ipt fuel : Nat) (s s' : State Float64) (h : Optimize.continues64 cfg s = true)
    (hb : Optimize.body64 cfg f dim ipt s = some s') :
    Optimize.loop64 cfg f dim ipt (fuel + 1) s = Optimize.loop64 cfg f dim ipt fuel s' := by
  rw [Optimize.loop64]
  simp [h, hb]

/-- The body of the loop for one worker and one coordinate, in binary64 arithmetic. -/
theorem Optimize.body64_single (cfg : GradientDescent ℚ) (hT : cfg.Threads = 1)
    (f : Function Float64) (x r g : Float64) (opt : Bool) (it : Int)
    (hf : f.Fprime [x] [r] = some [g]) :
    Optimize.body64 cfg f 1 1 ⟨[x], [r], opt, it⟩
      = some ⟨[Float64.sub x (Float64.mul (.finite cfg.LearningRate) g)], [g],
          Float64.absLt g cfg.Threshold, wrapInt (it + 1)⟩ := by
  simp [Optimize.body64, hf, hT, List.range_succ, computeRoutine64, Optimize.dispatch,
    computeRoutine.update64]

/-- The pass of the loop that the rounding turns into a standstill: for `x^2` at `x = 1`
with `eta = 2^-60` the gradient is `2`, the step `2^-59` is below half the spacing of the
binary64 numbers under `1`, and `1 - 2^-59` is rounded back to `1`. -/
theorem Optimize.body64_standstill (r : Float64) (opt : Bool) (it : Int) :
    Optimize.body64 ⟨1 / 2 ^ 60, 1 / 1024, -1, 1⟩ (Parabola.toFunction64 ⟨1, 0, 0⟩) 1 1
        ⟨[.finite 1], [r], opt, it⟩
      = some ⟨[.finite 1], [.finite 2], false, wrapInt (it + 1)⟩ := by
  have h1 : Float64.mul (.finite 2) (.finite 1) = .finite 2 := by decide!
  have h2 : Float64.add (.finite 2) (.finite 0) = .finite 2 := by decide!
  have h3 : Float64.mul (.finite (1 / 2 ^ 60)) (.finite 2) = .finite (1 / 2 ^ 59) := by decide!
  have h4 : Float64.sub (.finite 1) (.finite (1 / 2 ^ 59)) = .finite 1 := by decide!
  have h5 : Float64.absLt (.finite 2) (1 / 1024) = false := by decide!
  have hf : (Parabola.toFunction64 ⟨1, 0, 0⟩).Fprime [.finite 1] [r] = some [.finite 2] := by
    simp only [Parabola.toFunction64, Parabola.Fprime64, List.getElem?_cons_zero, h1, h2]
  have hb := Optimize.body64_single ⟨1 / 2 ^ 60, 1 / 1024, -1, 1⟩ rfl _ _ r _ opt it hf
  simp only [h3, h4, h5] at hb
  exact hb

/-- When every pass from `x` leaves `x` where it is with the flag unset, the loop returns
only with the flag unset, at `x`, with the counter equal to `MaxIter`. -/
theorem Optimize.loop64_standstill (cfg : GradientDescent ℚ) (f : Function Float64)
    (x : NDimensionalValue Float64) (g : Float64)
    (hb : ∀ (r : Float64) (it : Int), Optimize.body64 cfg f 1 1 ⟨x, [r], false, it⟩
      = some ⟨x, [g], false, wrapInt (it + 1)⟩)
    (fuel : Nat) (r : Float64) (it : Int) (s : State Float64)
    (h : Optimize.loop64 cfg f 1 1 fuel ⟨x, [r], false, it⟩ = .ok s) :
    s.x = x ∧ s.optimized = false ∧ s.iter = cfg.MaxIter := by
  induction fuel generalizing r it with
  | zero =>
    cases hc : Optimize.continues64 cfg ⟨x, [r], false, it⟩ with
    | true =>
      rw [Optimize.loop64] at h
      simp only [hc, if_true] at h
      cases h
    | false =>
      rw [Optimize.loop64_stop _ _ _ _ _ _ hc] at h
      cases h
      refine ⟨rfl, rfl, ?_⟩
      simp only [Optimize.continues64, Bool.not_false, Bool.true_and,
        bne_eq_false_iff_eq] at hc
      exact hc.symm
  | succ fuel ih =>
    cases hc : Optimize.continues64 cfg ⟨x, [r], false, it⟩ with
    | true =>
      rw [Optimize.loop64_step _ _ _ _ _ _ _ hc (hb r it)] at h
      exact ih _ _ h
    | false =>
      rw [Optimize.loop64_stop _ _ _ _ _ _ hc] at h
      cases h
      refine ⟨rfl, rfl, ?_⟩
      simp only [Optimize.continues64, Bool.not_false, Bool.true_and,
        bne_eq_false_iff_eq] at hc
      exact hc.symm

/-- When every pass from `x` leaves `x` where it is with the flag unset and there is no cap,
the loop is still running after any number of passes that keeps the counter below `2^63`. -/
theorem Optimize.loop64_running (cfg : GradientDescent ℚ) (hM : cfg.MaxIter < 0)
    (f : Function Float64) (x : NDimensionalValue Float64) (g : Float64)
    (hb : ∀ (r : Float64) (it : Int), Optimize.body64 cfg f 1 1 ⟨x, [r], false, it⟩
      = some ⟨x, [g], false, wrapInt (it + 1)⟩)
    (fuel k : Nat) (hk : ((k + fuel : Nat) : Int) < 2 ^ 63) (r : Float64) :
    Optimize.loop64 cfg f 1 1 fuel ⟨x, [r], false, (k : Int)⟩ = .error .outOfFuel := by
  induction fuel generalizing r k with
  | zero =>
    have hc : Optimize.continues64 cfg ⟨x, [r], false, (k : Int)⟩ = true := by
      simp only [Optimize.continues64, Bool.not_false, Bool.true_and, bne_iff_ne, ne_eq]
      omega
    rw [Optimize.loop64]
    simp only [hc, if_true]
  | succ fuel ih =>
    have hc : Optimize.continues64 cfg ⟨x, [r], false, (k : Int)⟩ = true := by
      simp only [Optimize.continues64, Bool.not_false, Bool.true_and, bne_iff_ne, ne_eq]
      omega
    rw [Optimize.loop64_step _ _ _ _ _ _ _ hc (hb r k)]
    have hw : wrapInt ((k : Int) + 1) = ((k + 1 : Nat) : Int) := by
      rw [wrapInt_of_lt _ (by omega) (by push_cast at hk ⊢; omega)]
      push_cast
      rfl
    rw [hw]
    exact ih (k + 1) (by push_cast at hk ⊢; omega) _

end gd


/-! ## Lemmas on the workers under a schedule -/

namespace gd

variable {α : Type} [LinearOrderedField α]

omit [LinearOrderedField α] in
/-- Writing to a list the entry that it holds changes nothing. -/
theorem set_of_getElem_some {β : Type} (l : List β) (i : Nat) (a : β) (h : l[i]? = some a) :
    l.set i a = l := by
  apply List.ext_getElem?
  intro j
  by_cases hj : i = j
  · subst hj
    rw [List.getElem?_set_self (List.getElem?_eq_some_iff.mp h).1, h]
  · rw [List.getElem?_set_ne hj]

/-- A worker that takes all its steps in a row does what `computeRoutine` does with its
message. -/
theorem computeRoutine.act_row (gd : GradientDescent α) (fp : NDimensionalValue α) (w : Nat)
    (l : List Nat) (s : Pool α) (h : s.workers[w]? = some ⟨l, none⟩) :
    (List.replicate (2 * l.length) w).foldlM (computeRoutine.act gd fp) s
      = (l.foldlM (computeRoutine.update gd fp) (s.x, s.optimized)).map
          fun st => ⟨st.1, st.2, s.workers.set w ⟨[], none⟩⟩ := by
  induction l generalizing s with
  | nil =>
    obtain ⟨x, opt, ws⟩ := s
    simp only [List.length_nil, Nat.mul_zero, List.replicate_zero, List.foldlM_nil, pure,
      Option.map_some']
    rw [set_of_getElem_some _ _ _ h]
  | cons i l ih =>
    obtain ⟨x, opt, ws⟩ := s
    have hw : w < ws.length := (List.getElem?_eq_some_iff.mp h).1
    have hrep : List.replicate (2 * (i :: l).length) w
        = w :: w :: List.replicate (2 * l.length) w := by
      rw [List.length_cons, Nat.mul_succ]
      rfl
    rw [hrep, List.foldlM_cons, List.foldlM_cons]
    simp only [List.foldlM_cons] at h ⊢
    cases hx : x[i]? with
    | none => simp [computeRoutine.act, computeRoutine.update, h, hx]
    | some xi =>
      cases hf : fp[i]? with
      | none => simp [computeRoutine.act, computeRoutine.update, h, hx, hf]
      | some fpi =>
        have h1 : computeRoutine.act gd fp ⟨x, opt, ws⟩ w
            = some ⟨x.set i (xi - gd.LearningRate * fpi), opt,
                ws.set w ⟨i :: l, some opt⟩⟩ := by
          simp [computeRoutine.act, h, hx, hf]
        have h2 : computeRoutine.act gd fp
            ⟨x.set i (xi - gd.LearningRate * fpi), opt, ws.set w ⟨i :: l, some opt⟩⟩ w
            = some ⟨x.set i (xi - gd.LearningRate * fpi),
                opt && decide (|fpi| < gd.Threshold),
                (ws.set w ⟨i :: l, some opt⟩).set w ⟨l, none⟩⟩ := by
          simp [computeRoutine.act, List.getElem?_set_self hw, hf]
        have h3 : computeRoutine.update gd fp (x, opt) i
            = some (x.set i (xi - gd.LearningRate * fpi),
                opt && decide (|fpi| < gd.Threshold)) := by
          simp [computeRoutine.update, hx, hf]
        simp only [h1, h2, h3, Option.bind_eq_bind, Option.some_bind]
        rw [ih ⟨_, _, _⟩ (by
          show ((ws.set w ⟨i :: l, some opt⟩).set w ⟨l, none⟩)[w]? = _
          rw [List.getElem?_set_self (by simpa using hw)])]
        simp only [List.set_set]

/-- Workers that run one after another, each taking all its steps in a row, do what the
loop over the workers of `Optimize.body` does. -/
theorem Optimize.act_rows (gd : GradientDescent α) (fp : NDimensionalValue α)
    (blk : Nat → List Nat) (ws : List Nat) (hws : ws.Nodup) (s : Pool α)
    (h : ∀ w ∈ ws, s.workers[w]? = some ⟨blk w, none⟩) :
    ((ws.flatMap fun w => List.replicate (2 * (blk w).length) w).foldlM
        (computeRoutine.act gd fp) s).map (fun s => (s.x, s.optimized))
      = ws.foldlM (fun st w => (blk w).foldlM (computeRoutine.update gd fp) st)
          (s.x, s.optimized) := by
  induction ws generalizing s with
  | nil => simp
  | cons w ws ih =>
    rw [List.flatMap_cons, List.foldlM_append, List.foldlM_cons,
      computeRoutine.act_row gd fp w (blk w) s (h w (List.mem_cons_self _ _))]
    cases hb : (blk w).foldlM (computeRoutine.update gd fp) (s.x, s.optimized) with
    | none => simp
    | some st =>
      simp only [Option.map_some', Option.bind_eq_bind, Option.some_bind]
      refine ih (List.nodup_cons.mp hws).2 ⟨st.1, st.2, _⟩ ?_
      intro v hv
      have hne : w ≠ v := fun e => (List.nodup_cons.mp hws).1 (e ▸ hv)
      show (s.workers.set w _)[v]? = _
      rw [List.getElem?_set_ne hne]
      exact h v (List.mem_cons_of_mem _ hv)

/-- With the empty schedule the workers run one after another. -/
theorem Optimize.scheduled_nil (gd : GradientDescent α) (dim items_per_thread : Nat)
    (fp x : NDimensionalValue α) :
    Optimize.scheduled gd dim items_per_thread [] fp x
      = (List.range gd.Threads).foldlM
          (fun st i => computeRoutine gd (Optimize.dispatch dim items_per_thread i) fp st)
          (x, true) := by
  unfold Optimize.scheduled Optimize.finish
  rw [List.nil_append]
  have := Optimize.act_rows gd fp
    (fun i => List.range' (Optimize.dispatch dim items_per_thread i).start
      ((Optimize.dispatch dim items_per_thread i).end_
        - (Optimize.dispatch dim items_per_thread i).start))
    (List.range gd.Threads) (List.nodup_range _) (Optimize.pool gd dim items_per_thread x)
    (by
      intro w hw
      simp [Optimize.pool, List.getElem?_range (List.mem_range.mp hw)])
  simp only [List.length_range'] at this
  exact this

/-- With the empty schedule the pass is `Optimize.body`. -/
theorem Optimize.bodyUnder_nil (gd : GradientDescent α) (f : Function α)
    (dim items_per_thread : Nat) (s : State α) :
    Optimize.bodyUnder gd f dim items_per_thread [] s
      = Optimize.body gd f dim items_per_thread s := by
  unfold Optimize.bodyUnder Optimize.body
  cases f.Fprime s.x s.fp with
  | none => rfl
  | some fp =>
    simp only [Optimize.scheduled_nil]

/-- A state at which the loop test fails is returned, whatever the schedules. -/
theorem Optimize.loopUnder_stop (cfg : GradientDescent α) (f : Function α)
    (dim ipt : Nat) (scheds : List (List Nat)) (s : State α)
    (h : Optimize.continues cfg s = false) :
    Optimize.loopUnder cfg f dim ipt scheds s = .ok s := by
  cases scheds <;> simp [Optimize.loopUnder, h]

/-- A state at which the loop test holds is replaced by the state after the pass. -/
theorem Optimize.loopUnder_step (cfg : GradientDescent α) (f : Function α)
    (dim ipt : Nat) (sched : List Nat) (scheds : List (List Nat)) (s s' : State α)
    (h : Optimize.continues cfg s = true)
    (hb : Optimize.bodyUnder cfg f dim ipt sched s = some s') :
    Optimize.loopUnder cfg f dim ipt (sched :: scheds) s
      = Optimize.loopUnder cfg f dim ipt scheds s' := by
  rw [Optimize.loopUnder]
  simp [h, hb]

/-- A pass under a schedule, from the gradient and from what the workers do with it. -/
theorem Optimize.bodyUnder_of (cfg : GradientDescent α) (f : Function α) (dim ipt : Nat)
    (sched : List Nat) (s : State α) (fp : NDimensionalValue α)
    (st : NDimensionalValue α × Bool) (hf : f.Fprime s.x s.fp = some fp)
    (hw : Optimize.scheduled cfg dim ipt sched fp s.x = some st) :
    Optimize.bodyUnder cfg f dim ipt sched s = some ⟨st.1, fp, st.2, wrapInt (s.iter + 1)⟩ := by
  simp [Optimize.bodyUnder, hf, hw]

end gd


/-! ## Lemmas on the quotient form of the class probabilities -/

namespace cloglik

section quotient

variable {α : Type} [LinearOrderedField α]

end quotient

end cloglik


/-! ## Lemmas on the wrap-around of the counter -/

namespace gd

variable {α : Type} [LinearOrderedField α]

/-- With `MaxIter` the least Go `int` and gradients that fail the test in the first `2^63`
passes, the counter wraps round to `MaxIter` in the pass numbered `2^63` and the run
returns there with the flag unset. -/
theorem Optimize.run_to_wrap (gd : GradientDescent α) (f : Function α)
    (hT : 1 ≤ gd.Threads) (grad : NDimensionalValue α → NDimensionalValue α)
    (x0 : NDimensionalValue α)
    (hgrad : ∀ x r : NDimensionalValue α, x.length = x0.length → r.length = x0.length →
      f.Fprime x r = some (grad x))
    (n : Nat) (hn : (n : Int) + 2 = 2 ^ 63) (hM : gd.MaxIter = -2 ^ 63)
    (hfail : ∀ j, j ≤ n + 1 →
      below gd.Threshold (grad ((descentMap gd.LearningRate grad)^[j] x0)) = false)
    (fuel : Nat) (hfuel : n + 2 ≤ fuel) :
    Optimize.run fuel gd f x0
      = .ok ⟨(descentMap gd.LearningRate grad)^[n + 2] x0,
          grad ((descentMap gd.LearningRate grad)^[n + 1] x0), false, -2 ^ 63⟩ := by
  have hgl : ∀ x : NDimensionalValue α, x.length = x0.length → (grad x).length = x0.length := by
    intro x hx
    have := f.Fprime_length _ _ _ (hgrad x (List.replicate x0.length 0) hx (by simp))
    simpa using this
  have hxl : ∀ n : Nat, ((descentMap gd.LearningRate grad)^[n] x0).length = x0.length := by
    intro n
    induction n with
    | zero => rfl
    | succ n ih =>
      rw [Function.iterate_succ_apply']
      exact (descend_length _ _ _ ((hgl _ ih).trans ih.symm)).trans ih
  have h1 := Optimize.passes_of_grad gd f hT grad x0 hgrad n (by omega)
  have h2 : Optimize.passes gd f x0.length (ceilDiv x0.length gd.Threads) (n + 2)
      (Optimize.start x0)
      = some ⟨(descentMap gd.LearningRate grad)^[n + 2] x0,
          grad ((descentMap gd.LearningRate grad)^[n + 1] x0), false, -2 ^ 63⟩ := by
    rw [passes_succ_last, h1, Option.some_bind]
    have hb := Optimize.body_eq gd f hT
      ⟨(descentMap gd.LearningRate grad)^[n + 1] x0,
        grad ((descentMap gd.LearningRate grad)^[n] x0),
        below gd.Threshold (grad ((descentMap gd.LearningRate grad)^[n] x0)),
        (n : Int) + 1⟩ (by simp only; rw [hgl _ (hxl n), hxl (n + 1)])
    simp only [hxl (n + 1)] at hb
    rw [hb, hgrad _ _ (hxl (n + 1)) (hgl _ (hxl n))]
    simp only [Option.map_some', Option.some.injEq]
    have hw : wrapInt ((n : Int) + 1 + 1) = -2 ^ 63 := by
      unfold wrapInt
      omega
    rw [hw, hfail (n + 1) (le_refl _),
      Function.iterate_succ_apply' (f := descentMap gd.LearningRate grad) (n := n + 1)]
    rfl
  refine Optimize.loop_of_passes gd f _ _ (n + 2) _ _ h2 ?_ ?_ fuel hfuel
  · simp [Optimize.continues, hM]
  · intro j hj sj hsj
    cases j with
    | zero =>
      simp only [Optimize.passes, Option.some.injEq] at hsj
      subst hsj
      rw [Optimize.start_continues, hM]
      decide
    | succ j =>
      rw [Optimize.passes_of_grad gd f hT grad x0 hgrad j (by omega)] at hsj
      simp only [Option.some.injEq] at hsj
      subst hsj
      simp only [Optimize.continues, hfail j (by omega), Bool.not_false, Bool.true_and,
        bne_iff_ne, ne_eq, hM]
      omega

end gd


/-! ## The claims -/

/-! ### The optimizer: C1 to C3 -/

/-- C1. With at least one worker, every pass through the loop body of `Optimize` asks for
the gradient once and replaces the whole of `x` by `x - eta*g`, `g` being what `Fprime`
returned for the `x` held at the start of the pass; hence, for an objective whose `Fprime`
fills the buffer with `grad x` on vectors as long as `x0`, a run that returns has made some
number `n` of passes and returns the `n`-fold iterate of `x ↦ x - eta*grad x` at `x0`; and
with `MaxIter = 1` the result is `x0 - eta*g` with `g` the gradient at `x0`. -/
theorem C1_optimize_iterates_descent {α : Type} [LinearOrderedField α]
    (cfg : gd.GradientDescent α) (f : gd.Function α) (hT : 1 ≤ cfg.Threads) :
    (∀ s : gd.State α, s.fp.length = s.x.length →
      gd.Optimize.body cfg f s.x.length (ceilDiv s.x.length cfg.Threads) s
        = (f.Fprime s.x s.fp).map fun g =>
            ⟨gd.descend cfg.LearningRate s.x g, g, gd.below cfg.Threshold g,
              wrapInt (s.iter + 1)⟩)
    ∧ (∀ (grad : gd.NDimensionalValue α → gd.NDimensionalValue α)
        (x0 : gd.NDimensionalValue α),
        (∀ x r : gd.NDimensionalValue α, x.length = x0.length → r.length = x0.length →
          f.Fprime x r = some (grad x)) →
        ∀ (fuel : Nat) (xmin : gd.NDimensionalValue α),
          gd.Optimize fuel cfg f x0 = .ok xmin →
          ∃ n s, n ≤ fuel
            ∧ gd.Optimize.passes cfg f x0.length (ceilDiv x0.length cfg.Threads) n
                (gd.Optimize.start x0) = some s
            ∧ s.x = xmin
            ∧ xmin = (fun x => gd.descend cfg.LearningRate x (grad x))^[n] x0)
    ∧ (cfg.MaxIter = 1 →
        ∀ (fuel : Nat) (x0 g : gd.NDimensionalValue α),
          f.Fprime x0 (List.replicate x0.length 0) = some g →
          gd.Optimize (fuel + 1) cfg f x0 = .ok (gd.descend cfg.LearningRate x0 g)) := by
  refine ⟨fun s hs => gd.Optimize.body_eq cfg f hT s hs, ?_, ?_⟩
  · intro grad x0 hgrad fuel xmin h
    unfold gd.Optimize at h
    cases hrun : gd.Optimize.run fuel cfg f x0 with
    | error e => simp [hrun, Except.map] at h
    | ok s =>
      simp only [hrun, Except.map, Except.ok.injEq] at h
      obtain ⟨n, hn, hp, -, -⟩ := gd.Optimize.loop_ok cfg f _ _ fuel _ s hrun
      refine ⟨n, s, hn, hp, h, ?_⟩
      rw [← h]
      -- the passes follow the iterates of the descent map
      have key : ∀ (m : Nat) (s0 s1 : gd.State α), s0.fp.length = x0.length →
          s0.x.length = x0.length →
          gd.Optimize.passes cfg f x0.length (ceilDiv x0.length cfg.Threads) m s0 = some s1 →
          s1.x = (fun x => gd.descend cfg.LearningRate x (grad x))^[m] s0.x := by
        intro m
        induction m with
        | zero =>
          intro s0 s1 _ _ h0
          simp only [gd.Optimize.passes, Option.some.injEq] at h0
          subst h0
          rfl
        | succ m ih =>
          intro s0 s1 hf hx h0
          simp only [gd.Optimize.passes] at h0
          have hb := gd.Optimize.body_eq cfg f hT s0 (hf.trans hx.symm)
          rw [hx] at hb
          rw [hb, hgrad s0.x s0.fp hx hf] at h0
          simp only [Option.map_some', Option.some_bind] at h0
          have hgl : (grad s0.x).length = s0.x.length := by
            have := f.Fprime_length _ _ _ (hgrad s0.x s0.fp hx hf)
            rw [this, hf, hx]
          have := ih _ s1 (by simp [hgl, hx])
            (by simp [gd.descend_length _ _ _ hgl, hx]) h0
          rw [this, Function.iterate_succ_apply]
      exact key n _ s (by simp [gd.Optimize.start]) rfl hp
  · intro hM fuel x0 g hg
    have hb := gd.Optimize.body_eq cfg f hT (gd.Optimize.start x0)
      (by simp [gd.Optimize.start])
    have hx : (gd.Optimize.start x0).x = x0 := rfl
    have hfp : (gd.Optimize.start x0).fp = List.replicate x0.length 0 := rfl
    rw [hx, hfp, hg] at hb
    simp only [Option.map_some'] at hb
    unfold gd.Optimize gd.Optimize.run gd.Optimize.loop
    rw [gd.Optimize.start_continues, hM]
    simp only [bne_self_eq_false, Bool.not_false, Bool.true_and, ↓reduceIte]
    have h01 : ((1 : Int) != 0) = true := by decide
    simp only [h01, ↓reduceIte, hb]
    unfold gd.Optimize.loop
    have hw : wrapInt ((gd.Optimize.start x0).iter + 1) = 1 := by
      simp [gd.Optimize.start, wrapInt]
    simp [gd.Optimize.continues, hM, hw, Except.map]

/-- C1, witness. The parabola `5x^2+6x+3` with `eta = 0.01`, `MaxIter = 1`, one worker and
`x0 = [0]` returns `[-0.06]`. -/
theorem C1_optimize_iterates_descent_witness :
    gd.Optimize 1 (⟨1 / 100, 1 / 1000, 1, 1⟩ : gd.GradientDescent ℚ)
      (gd.Parabola.toFunction ⟨5, 6, 3⟩) [0] = .ok [-(6 / 100)] := by
  have h := (C1_optimize_iterates_descent (⟨1 / 100, 1 / 1000, 1, 1⟩ : gd.GradientDescent ℚ)
    (gd.Parabola.toFunction ⟨5, 6, 3⟩) (le_refl 1)).2.2 rfl 0 [0] [6]
    (by simp [gd.Parabola.toFunction, gd.Parabola.Fprime])
  rw [h]
  norm_num [gd.descend]

/-- C2. The code does not keep the claim when two workers share the flag. Input:
`GradientDescent{0.01, 0.001, 3, 2}`, the parabolas `(5,6,3)` and `(1,0,0)`, `x0 = [0, 0]`.
The first gradient is `[6, 0]`. When worker 1 reads the flag, then worker 0 reads and
writes it, then worker 1 writes it, the flag is set after the pass although
`|fp[0]| = 6 >= tau`, and the loop stops after that pass with the counter at `1`, not at
`MaxIter = 3`. With the workers one after another the same pass leaves the flag unset. -/
theorem C2_unsynchronised_flag_stops_loop :
    (gd.NDimensionalParabola.mk [(⟨5, 6, 3⟩ : gd.Parabola ℚ), ⟨1, 0, 0⟩]).toFunction.Fprime
        [0, 0] [0, 0] = some [6, 0]
    ∧ gd.Optimize.scheduled (⟨1 / 100, 1 / 1000, 3, 2⟩ : gd.GradientDescent ℚ) 2 1
        [1, 0, 0, 1] [6, 0] [0, 0] = some ([-(3 / 50), 0], true)
    ∧ gd.Optimize.scheduled (⟨1 / 100, 1 / 1000, 3, 2⟩ : gd.GradientDescent ℚ) 2 1
        [] [6, 0] [0, 0] = some ([-(3 / 50), 0], false)
    ∧ gd.Optimize.runUnder [[1, 0, 0, 1]] (⟨1 / 100, 1 / 1000, 3, 2⟩ : gd.GradientDescent ℚ)
        (gd.NDimensionalParabola.mk [⟨5, 6, 3⟩, ⟨1, 0, 0⟩]).toFunction [0, 0]
      = .ok ⟨[-(3 / 50), 0], [6, 0], true, 1⟩
    ∧ ¬ |(6 : ℚ)| < 1 / 1000 ∧ (3 : Int) ≠ 1 := by
  have hF : (gd.NDimensionalParabola.mk [(⟨5, 6, 3⟩ : gd.Parabola ℚ), ⟨1, 0, 0⟩]).toFunction.Fprime
      [0, 0] [0, 0] = some [6, 0] := by
    refine (gd.NDimensionalParabola.Fprime_sum_grad
      [(⟨5, 6, 3⟩ : gd.Parabola ℚ), ⟨1, 0, 0⟩] [0, 0] [0, 0] rfl rfl).trans ?_
    norm_num [gd.parabolasGrad]
  have hS : gd.Optimize.scheduled (⟨1 / 100, 1 / 1000, 3, 2⟩ : gd.GradientDescent ℚ) 2 1
      [1, 0, 0, 1] [6, 0] [0, 0] = some ([-(3 / 50), 0], true) := by
    simp [gd.Optimize.scheduled, gd.Optimize.finish, gd.Optimize.pool, gd.Optimize.dispatch,
      List.range_succ, gd.computeRoutine.act, List.replicate]
    norm_num
  refine ⟨hF, hS, ?_, ?_, by norm_num, by decide⟩
  · simp [gd.Optimize.scheduled, gd.Optimize.finish, gd.Optimize.pool, gd.Optimize.dispatch,
      List.range_succ, gd.computeRoutine.act, List.replicate]
    norm_num
  · have hb := gd.Optimize.bodyUnder_of _ _ 2 1 [1, 0, 0, 1] (gd.Optimize.start [0, 0]) _ _
      hF hS
    show gd.Optimize.loopUnder _ _ 2 1 _ _ = _
    rw [gd.Optimize.loopUnder_step _ _ _ _ _ _ _ _ (by decide) hb]
    exact gd.Optimize.loopUnder_stop _ _ _ _ _ _ (by decide)

/-- C3. The code does not keep the claim when two workers share the flag. Input:
`GradientDescent{0.01, 0.001, 3, 2}` (so `k = 3`), the parabolas `(5,6,3)` and `(1,0,0)`,
`x0 = [0, 0]`. With the workers one after another in every pass the loop makes `3` passes,
with the gradients `[6, 0]`, `[5.4, 0]` and `[4.86, 0]`, whose first coordinate is at least
`tau`, and returns with the flag unset. When in the first pass worker 1 reads the flag,
then worker 0 reads and writes it, then worker 1 writes it, the loop returns after `1`
pass, whatever the later schedules. -/
theorem C3_unsynchronised_flag_cuts_passes :
    gd.Optimize.runUnder [[], [], []] (⟨1 / 100, 1 / 1000, 3, 2⟩ : gd.GradientDescent ℚ)
        (gd.NDimensionalParabola.mk [⟨5, 6, 3⟩, ⟨1, 0, 0⟩]).toFunction [0, 0]
      = .ok ⟨[-(813 / 5000), 0], [243 / 50, 0], false, 3⟩
    ∧ (∀ j : Nat, j < 3 → ∃ s : gd.State ℚ,
        gd.Optimize.passes (⟨1 / 100, 1 / 1000, 3, 2⟩ : gd.GradientDescent ℚ)
          (gd.NDimensionalParabola.mk [⟨5, 6, 3⟩, ⟨1, 0, 0⟩]).toFunction 2 1 (j + 1)
          (gd.Optimize.start [0, 0]) = some s
        ∧ ∃ g ∈ s.fp, (1 : ℚ) / 1000 ≤ |g|)
    ∧ ∀ rest : List (List Nat),
      gd.Optimize.runUnder ([1, 0, 0, 1] :: rest)
          (⟨1 / 100, 1 / 1000, 3, 2⟩ : gd.GradientDescent ℚ)
          (gd.NDimensionalParabola.mk [⟨5, 6, 3⟩, ⟨1, 0, 0⟩]).toFunction [0, 0]
        = .ok ⟨[-(3 / 50), 0], [6, 0], true, 1⟩ := by
  have hF : ∀ (a : ℚ) (r : gd.NDimensionalValue ℚ), r.length = 2 →
      (gd.NDimensionalParabola.mk [(⟨5, 6, 3⟩ : gd.Parabola ℚ), ⟨1, 0, 0⟩]).toFunction.Fprime
        [a, 0] r = some [2 * 5 * a + 6, 0] := by
    intro a r hr
    refine (gd.NDimensionalParabola.Fprime_sum_grad
      [(⟨5, 6, 3⟩ : gd.Parabola ℚ), ⟨1, 0, 0⟩] [a, 0] r rfl hr).trans ?_
    norm_num [gd.parabolasGrad]
  have hS : ∀ a g : ℚ, (1 : ℚ) / 1000 ≤ |g| →
      gd.Optimize.scheduled (⟨1 / 100, 1 / 1000, 3, 2⟩ : gd.GradientDescent ℚ) 2 1
        [] [g, 0] [a, 0] = some ([a - 1 / 100 * g, 0], false) := by
    intro a g hg
    simp [gd.Optimize.scheduled, gd.Optimize.finish, gd.Optimize.pool, gd.Optimize.dispatch,
      List.range_succ, gd.computeRoutine.act, List.replicate]
    simpa using hg
  have hB : ∀ (a r0 r1 : ℚ) (opt : Bool) (it it' : Int) (g a' : ℚ), 2 * 5 * a + 6 = g →
      (1 : ℚ) / 1000 ≤ |g| → a - 1 / 100 * g = a' → wrapInt (it + 1) = it' →
      gd.Optimize.bodyUnder (⟨1 / 100, 1 / 1000, 3, 2⟩ : gd.GradientDescent ℚ)
          (gd.NDimensionalParabola.mk [⟨5, 6, 3⟩, ⟨1, 0, 0⟩]).toFunction 2 1 []
          ⟨[a, 0], [r0, r1], opt, it⟩
        = some ⟨[a', 0], [g, 0], false, it'⟩ := by
    intro a r0 r1 opt it it' g a' hg hge ha' hit
    subst hg ha' hit
    exact gd.Optimize.bodyUnder_of _ _ 2 1 [] ⟨[a, 0], [r0, r1], opt, it⟩ _ _
      (hF a [r0, r1] rfl) (hS a _ hge)
  have hb1 := hB 0 0 0 false 0 1 6 (-(3 / 50)) (by norm_num) (by norm_num [abs_of_pos])
    (by norm_num) (by decide)
  have hb2 := hB (-(3 / 50)) 6 0 false 1 2 (27 / 5) (-(57 / 500)) (by norm_num)
    (by norm_num [abs_of_pos]) (by norm_num) (by decide)
  have hb3 := hB (-(57 / 500)) (27 / 5) 0 false 2 3 (243 / 50) (-(813 / 5000)) (by norm_num)
    (by norm_num [abs_of_pos]) (by norm_num) (by decide)
  refine ⟨?_, ?_, ?_⟩
  · show gd.Optimize.loopUnder _ _ 2 1 _ ⟨[0, 0], [0, 0], false, 0⟩ = _
    rw [gd.Optimize.loopUnder_step _ _ _ _ _ _ _ _ (by decide) hb1,
      gd.Optimize.loopUnder_step _ _ _ _ _ _ _ _ (by decide) hb2,
      gd.Optimize.loopUnder_step _ _ _ _ _ _ _ _ (by decide) hb3]
    exact gd.Optimize.loopUnder_stop _ _ _ _ _ _ (by decide)
  · rw [gd.Optimize.bodyUnder_nil] at hb1 hb2 hb3
    have hp1 : gd.Optimize.passes (⟨1 / 100, 1 / 1000, 3, 2⟩ : gd.GradientDescent ℚ)
        (gd.NDimensionalParabola.mk [⟨5, 6, 3⟩, ⟨1, 0, 0⟩]).toFunction 2 1 1
        (gd.Optimize.start [0, 0]) = some ⟨[-(3 / 50), 0], [6, 0], false, 1⟩ := by
      show (gd.Optimize.body _ _ 2 1 ⟨[0, 0], [0, 0], false, 0⟩).bind _ = _
      rw [hb1]
      rfl
    have hp2 : gd.Optimize.passes (⟨1 / 100, 1 / 1000, 3, 2⟩ : gd.GradientDescent ℚ)
        (gd.NDimensionalParabola.mk [⟨5, 6, 3⟩, ⟨1, 0, 0⟩]).toFunction 2 1 2
        (gd.Optimize.start [0, 0]) = some ⟨[-(57 / 500), 0], [27 / 5, 0], false, 2⟩ := by
      rw [gd.passes_succ_last, hp1, Option.some_bind, hb2]
    have hp3 : gd.Optimize.passes (⟨1 / 100, 1 / 1000, 3, 2⟩ : gd.GradientDescent ℚ)
        (gd.NDimensionalParabola.mk [⟨5, 6, 3⟩, ⟨1, 0, 0⟩]).toFunction 2 1 3
        (gd.Optimize.start [0, 0]) = some ⟨[-(813 / 5000), 0], [243 / 50, 0], false, 3⟩ := by
      rw [gd.passes_succ_last, hp2, Option.some_bind, hb3]
    intro j hj
    interval_cases j
    · exact ⟨_, hp1, 6, by simp, by norm_num [abs_of_pos]⟩
    · exact ⟨_, hp2, 27 / 5, by simp, by norm_num [abs_of_pos]⟩
    · exact ⟨_, hp3, 243 / 50, by simp, by norm_num [abs_of_pos]⟩
  · intro rest
    have hS1 : gd.Optimize.scheduled (⟨1 / 100, 1 / 1000, 3, 2⟩ : gd.GradientDescent ℚ) 2 1
        [1, 0, 0, 1] [2 * 5 * 0 + 6, 0] [0, 0] = some ([-(3 / 50), 0], true) := by
      simp [gd.Optimize.scheduled, gd.Optimize.finish, gd.Optimize.pool, gd.Optimize.dispatch,
        List.range_succ, gd.computeRoutine.act, List.replicate]
      norm_num
    have hb := gd.Optimize.bodyUnder_of _ _ 2 1 [1, 0, 0, 1] (gd.Optimize.start [0, 0]) _ _
      (hF 0 [0, 0] rfl) hS1
    have h6 : (2 * 5 * 0 + 6 : ℚ) = 6 := by norm_num
    rw [h6] at hb
    show gd.Optimize.loopUnder _ _ 2 1 _ _ = _
    rw [gd.Optimize.loopUnder_step _ _ _ _ _ _ _ _ (by decide) hb]
    exact gd.Optimize.loopUnder_stop _ _ _ _ _ _ (by decide)

/-! ### The objective, its constructor and the tests: C4 to C10 -/

/-- C5. For the objective that the constructor returns, over the reals with the real
exponential and logarithm, any `T >= 1` workers and any weights `x` of length `DimCnt`:
`Fprime` returns a vector whose entry `i` is the derivative, with respect to the weight
`x[i]`, of the negated value of `Val`; occurrences of a feature repeated in one list count
with their multiplicity. -/
theorem C5_fprime_is_gradient (err : Bool) (keys0 : List String)
    (tmpDocs : List (List (String × cloglik.Json))) (p : cloglik.CLogLik ℝ)
    (h : cloglik.FromJson err keys0 tmpDocs = .ok (some p)) (T : Nat) (hT : 1 ≤ T)
    (x r : gd.NDimensionalValue ℝ) (hx : x.length = p.DimCnt) (hr : r.length = p.DimCnt) :
    ∃ r' : gd.NDimensionalValue ℝ,
      cloglik.CLogLik.Fprime Real.exp { p with Threads := T } x r = some r'
      ∧ r'.length = p.DimCnt
      ∧ ∀ i, i < p.DimCnt → ∃ V : ℝ → ℝ,
          (∀ t, cloglik.CLogLik.Val Real.exp Real.log p (x.set i t) = some (V t))
          ∧ HasDerivAt (fun t => -V t) (r'.getD i 0) (x.getD i 0) := by
  obtain ⟨hv, -⟩ := cloglik.FromJson_valid err keys0 tmpDocs p h
  refine ⟨cloglik.CLogLik.gradOf Real.exp { p with Threads := T } x,
    cloglik.CLogLik.Fprime_eq Real.exp _ _ _ (hv.threads T) hT x r hx hr,
    by simp [cloglik.CLogLik.gradOf, cloglik.CLogLik.DimCnt], ?_⟩
  intro i hi
  have hix : i < x.length := by rw [hx]; exact hi
  refine ⟨fun t => (p.Docs.map fun doc =>
      Real.log (cloglik.probOf Real.exp doc (x.set i t) doc.Class)).sum, ?_, ?_⟩
  · intro t
    exact cloglik.CLogLik.Val_eq Real.exp Real.log p _ _ hv (x.set i t) (by simp [hx])
  · have hself : x.set i (x.getD i 0) = x := by
      apply List.ext_getElem?
      intro j
      rw [List.getElem?_set]
      by_cases hij : i = j
      · subst hij
        simp [hix]
      · simp [hij]
    have hd := (cloglik.hasDerivAt_list_sum
      (fun doc t => Real.log (cloglik.probOf Real.exp doc (x.set i t) doc.Class))
      (fun doc => ((doc.Features.getD doc.Class []).count i : ℝ)
        - (doc.Features.map fun fs =>
            Real.exp (cloglik.scoreOf (x.set i (x.getD i 0)) fs) * (fs.count i : ℝ)).sum
          / cloglik.denomOf Real.exp doc (x.set i (x.getD i 0)))
      (x.getD i 0) p.Docs
      (fun doc hdoc => cloglik.hasDerivAt_logProb doc
        (by rw [hv.classes doc hdoc]; exact hv.gold doc hdoc) x i hix _)).neg
    have hentry := cloglik.FromJson_gradOf Real.exp err keys0 tmpDocs p h T x i hi
    rw [List.getD_eq_getElem?_getD, hentry, Option.getD_some,
      ← cloglik.sum_docs p _ _ hv x i]
    simp only [hself] at hd
    exact hd

/-- C5, witness. The corpus of `TestMaxent` at the zero weights. -/
theorem C5_fprime_is_gradient_witness :
    ∃ (p : cloglik.CLogLik ℝ) (r' : gd.NDimensionalValue ℝ),
      cloglik.FromJson false cloglik.TestMaxent.keys0 cloglik.TestMaxent.tmpDocs = .ok (some p)
      ∧ cloglik.CLogLik.Fprime Real.exp { p with Threads := 1 } [0, 0] [0, 0] = some r'
      ∧ r'.length = p.DimCnt
      ∧ ∀ i, i < p.DimCnt → ∃ V : ℝ → ℝ,
          (∀ t, cloglik.CLogLik.Val Real.exp Real.log p (([0, 0] : List ℝ).set i t)
            = some (V t))
          ∧ HasDerivAt (fun t => -V t) (r'.getD i 0) (([0, 0] : List ℝ).getD i 0) := by
  obtain ⟨r', h⟩ := C5_fprime_is_gradient false cloglik.TestMaxent.keys0
    cloglik.TestMaxent.tmpDocs _ cloglik.TestMaxent.FromJson_eq 1 (le_refl 1) [0, 0] [0, 0]
    rfl rfl
  exact ⟨_, r', cloglik.TestMaxent.FromJson_eq, h⟩

/-- C6, counterexample. Three documents with the classes `A: [a]`, `B: []` and the labels
`A`, `B`, `B`; `eta = 20`, `tau = 0.6`, no cap, start `[0]`. The first gradient is `[0.5]`,
so the run returns with the flag set after one pass, at `[-10]`; the gradient that
`Fprime` computes there has absolute value at least `0.6`. -/
theorem C6_counterexample :
    ∃ (p : cloglik.CLogLik ℝ) (s : gd.State ℝ) (g : gd.NDimensionalValue ℝ),
      cloglik.FromJson false ["A", "B", "__label__"]
          [[("A", .arr [.str "a"]), ("B", .arr []), ("__label__", .str "A")],
           [("A", .arr [.str "a"]), ("B", .arr []), ("__label__", .str "B")],
           [("A", .arr [.str "a"]), ("B", .arr []), ("__label__", .str "B")]]
        = .ok (some p)
      ∧ gd.Optimize.run 1 (⟨20, 3 / 5, -1, 1⟩ : gd.GradientDescent ℝ)
          (cloglik.CLogLik.toFunction Real.exp Real.log p) [0] = .ok s
      ∧ s.optimized = true
      ∧ s.x = [-10]
      ∧ cloglik.CLogLik.Fprime Real.exp p s.x [0] = some g
      ∧ ¬ ∀ i (hi : i < g.length), |g[i]| < 3 / 5 := by
  have hp : (cloglik.FromJson false ["A", "B", "__label__"]
      [[("A", .arr [.str "a"]), ("B", .arr []), ("__label__", .str "A")],
       [("A", .arr [.str "a"]), ("B", .arr []), ("__label__", .str "B")],
       [("A", .arr [.str "a"]), ("B", .arr []), ("__label__", .str "B")]]
        : Except Fault (Option (cloglik.CLogLik ℝ)))
      = .ok (some ⟨[⟨[[0], []], 0⟩, ⟨[[0], []], 1⟩, ⟨[[0], []], 1⟩], ["a"], ["A", "B"],
          [0 + 1], [[0, 1, 2]], 1⟩) := rfl
  obtain ⟨hv, -⟩ := cloglik.FromJson_valid _ _ _ _ hp
  have hgrad : ∀ w : ℝ, ∀ r : gd.NDimensionalValue ℝ, r.length = 1 →
      cloglik.CLogLik.Fprime Real.exp
        (⟨[⟨[[0], []], 0⟩, ⟨[[0], []], 1⟩, ⟨[[0], []], 1⟩], ["a"], ["A", "B"],
          [0 + 1], [[0, 1, 2]], 1⟩ : cloglik.CLogLik ℝ) [w] r
        = some [-1 + 3 * (Real.exp w / (Real.exp w + 1))] := by
    intro w r hr
    refine (cloglik.CLogLik.Fprime_eq Real.exp _ _ _ hv (le_refl 1) [w] r rfl hr).trans ?_
    have hne : ¬ (Real.exp w = 0 ∧ Real.exp w + 1 = 0) := fun hh => (Real.exp_pos w).ne' hh.1
    simp [cloglik.CLogLik.gradOf, cloglik.CLogLik.cell, cloglik.probOf, cloglik.numerOf,
      cloglik.denomOf, cloglik.scoreOf, List.range, List.range.loop, hne, Real.exp_ne_zero]
    ring
  have hg0 : (cloglik.CLogLik.toFunction Real.exp Real.log
      (⟨[⟨[[0], []], 0⟩, ⟨[[0], []], 1⟩, ⟨[[0], []], 1⟩], ["a"], ["A", "B"],
          [0 + 1], [[0, 1, 2]], 1⟩ : cloglik.CLogLik ℝ)).Fprime [0]
        (List.replicate ([0] : List ℝ).length 0) = some [1 / 2] := by
    refine (hgrad 0 (List.replicate ([0] : List ℝ).length 0) rfl).trans ?_
    norm_num [Real.exp_zero]
  have hrun := gd.Optimize.run_one (⟨20, 3 / 5, -1, 1⟩ : gd.GradientDescent ℝ) _ (le_refl 1)
    (by decide) [0] [1 / 2] hg0 (by norm_num [gd.below, abs_lt]) 0
  have hx : gd.descend (20 : ℝ) [0] [1 / 2] = [-10] := by norm_num [gd.descend]
  simp only [hx] at hrun
  refine ⟨_, _, _, hp, hrun, rfl, rfl, hgrad (-10) [0] rfl, ?_⟩
  intro hall
  have h1 := hall 0 (by simp)
  simp only [List.getElem_cons_zero] at h1
  have hexp : (11 : ℝ) ≤ Real.exp 10 := by
    have := Real.add_one_le_exp (10 : ℝ)
    linarith
  have hpos : 0 < Real.exp (-10) := Real.exp_pos _
  have hsmall : Real.exp (-10) / (Real.exp (-10) + 1) ≤ 1 / 12 := by
    rw [div_le_iff₀ (by linarith)]
    have : Real.exp (-10) * Real.exp 10 = 1 := by
      rw [← Real.exp_add]
      norm_num
    nlinarith
  rw [abs_lt] at h1
  linarith [h1.1]

/-- C6, as amended. For the objective that the constructor returns with any `T >= 1`
workers of its own, one worker of the optimizer and a start of length `DimCnt`: when
`Optimize` returns with the flag set, there is a point `xprev`, held before the last pass,
at which `Fprime` computes (into any buffer) a gradient `g` with `|g[i]| < tau` for every
`i`, and the returned point is `xprev - eta*g`. -/
theorem C6_converged_gradient_at_previous_point {α : Type} [LinearOrderedField α]
    (exp log : α → α) (err : Bool) (keys0 : List String)
    (tmpDocs : List (List (String × cloglik.Json))) (p : cloglik.CLogLik α)
    (h : cloglik.FromJson err keys0 tmpDocs = .ok (some p)) (T : Nat) (hT : 1 ≤ T)
    (cfg : gd.GradientDescent α) (hcT : cfg.Threads = 1) (x0 : gd.NDimensionalValue α)
    (hx0 : x0.length = p.DimCnt) (fuel : Nat) (s : gd.State α)
    (hrun : gd.Optimize.run fuel cfg
      (cloglik.CLogLik.toFunction exp log { p with Threads := T }) x0 = .ok s)
    (hopt : s.optimized = true) :
    ∃ xprev g : gd.NDimensionalValue α,
      xprev.length = p.DimCnt
      ∧ (∀ r : gd.NDimensionalValue α, r.length = p.DimCnt →
          cloglik.CLogLik.Fprime exp { p with Threads := T } xprev r = some g)
      ∧ (∀ i (hi : i < g.length), |g[i]| < cfg.Threshold)
      ∧ s.x = gd.descend cfg.LearningRate xprev g := by
  obtain ⟨hv, -⟩ := cloglik.FromJson_valid err keys0 tmpDocs p h
  obtain ⟨n, sprev, -, hxl, hfl, hg, hbelow, hx⟩ :=
    gd.Optimize.run_converged cfg _ (le_of_eq hcT.symm) x0 fuel s hrun hopt
  have hgrad : ∀ r : gd.NDimensionalValue α, r.length = p.DimCnt →
      cloglik.CLogLik.Fprime exp { p with Threads := T } sprev.x r
        = some (cloglik.CLogLik.gradOf exp { p with Threads := T } sprev.x) :=
    fun r hr => cloglik.CLogLik.Fprime_eq exp _ _ _ (hv.threads T) hT sprev.x r
      (by rw [hxl, hx0]) hr
  have hsfp : s.fp = cloglik.CLogLik.gradOf exp { p with Threads := T } sprev.x := by
    have := hgrad sprev.fp (by rw [hfl, hx0])
    have h2 : cloglik.CLogLik.Fprime exp { p with Threads := T } sprev.x sprev.fp
        = some s.fp := hg
    rw [this] at h2
    exact (Option.some.inj h2).symm
  refine ⟨sprev.x, s.fp, by rw [hxl, hx0], fun r hr => by rw [hsfp]; exact hgrad r hr, ?_, hx⟩
  intro i hi
  simp only [gd.below, List.all_eq_true, decide_eq_true_eq] at hbelow
  exact hbelow _ (List.getElem_mem _)

/-- C6, witness. The corpus of `TestMaxent` with `eta = 1` and `tau = 3`: the first
gradient passes the test and the run returns with the flag set. -/
theorem C6_converged_gradient_at_previous_point_witness :
    ∃ (p : cloglik.CLogLik ℚ) (s : gd.State ℚ) (xprev g : gd.NDimensionalValue ℚ),
      cloglik.FromJson false cloglik.TestMaxent.keys0 cloglik.TestMaxent.tmpDocs = .ok (some p)
      ∧ gd.Optimize.run 1 (⟨1, 3, -1, 1⟩ : gd.GradientDescent ℚ)
          (cloglik.CLogLik.toFunction (fun t => 1 + t) (fun t => t - 1)
            { p with Threads := 1 }) [0, 0] = .ok s
      ∧ s.optimized = true
      ∧ xprev.length = p.DimCnt
      ∧ (∀ r : gd.NDimensionalValue ℚ, r.length = p.DimCnt →
          cloglik.CLogLik.Fprime (fun t => 1 + t) { p with Threads := 1 } xprev r = some g)
      ∧ (∀ i (hi : i < g.length), |g[i]| < 3)
      ∧ s.x = gd.descend 1 xprev g := by
  have hp := cloglik.TestMaxent.FromJson_eq (α := ℚ)
  obtain ⟨hv, -⟩ := cloglik.FromJson_valid _ _ _ _ hp
  have hg : (cloglik.CLogLik.toFunction (fun t : ℚ => 1 + t) (fun t => t - 1)
      { (⟨[⟨[[0], [1]], 0⟩, ⟨[[1], [0]], 1⟩], ["a", "b"], ["A", "B"],
          [0 + 1 + 1, 0], [[0, 3], [2, 1]], 1⟩ : cloglik.CLogLik ℚ) with Threads := 1 }).Fprime
        [0, 0] (List.replicate ([0, 0] : List ℚ).length 0) = some [-1, 1] := by
    refine (cloglik.CLogLik.Fprime_eq (fun t : ℚ => 1 + t) _ _ _ (hv.threads 1) (le_refl 1)
      [0, 0] _ rfl rfl).trans ?_
    norm_num [cloglik.CLogLik.gradOf, cloglik.CLogLik.cell, cloglik.probOf, cloglik.numerOf,
      cloglik.denomOf, cloglik.scoreOf, List.range, List.range.loop]
  have hrun := gd.Optimize.run_one (⟨1, 3, -1, 1⟩ : gd.GradientDescent ℚ) _ (le_refl 1)
    (by decide) [0, 0] [-1, 1] hg (by norm_num [gd.below, abs_lt]) 0
  obtain ⟨xprev, g, h1, h2, h3, h4⟩ := C6_converged_gradient_at_previous_point
    (fun t : ℚ => 1 + t) (fun t => t - 1) false _ _ _ hp 1 (le_refl 1)
    (⟨1, 3, -1, 1⟩ : gd.GradientDescent ℚ) rfl [0, 0] rfl 1 _ hrun rfl
  exact ⟨_, _, xprev, g, hp, hrun, rfl, h1, h2, h3, h4⟩

/-- C7, counterexample. In binary64 arithmetic with one worker: the parabola
`3x^2 + 1e16*x` with `eta = 2^-7`, `tau = 2^-10`, `MaxIter = 100` and the start
`x0 = -1666666666666666.75`, all of them binary64 numbers, with `0 < eta < 1/a`. The
product `6*x0 = -10000000000000000.5` is rounded to `-1e16`, so the gradient is computed
as `0`: the run returns after one pass with the flag set, at `x0`, whose distance `1/12`
from `-b/(2a)` is not below `tau/(2a)`. -/
theorem C7_counterexample :
    ((0 : ℚ) < 3 ∧ (0 : ℚ) < 1 / 128 ∧ (1 : ℚ) / 128 < 1 / 3 ∧ (0 : ℚ) < 1 / 1024)
    ∧ (binary64.nearest (1 / 128) = some (1 / 128)
      ∧ binary64.nearest (1 / 1024) = some (1 / 1024)
      ∧ binary64.nearest 3 = some 3
      ∧ binary64.nearest 10000000000000000 = some 10000000000000000
      ∧ binary64.nearest (-6666666666666667 / 4) = some (-6666666666666667 / 4))
    ∧ (∀ fuel : Nat, gd.Optimize.run64 (fuel + 1) ⟨1 / 128, 1 / 1024, 100, 1⟩
          (gd.Parabola.toFunction64 ⟨3, 10000000000000000, 0⟩)
          [.finite (-6666666666666667 / 4)]
        = .ok ⟨[.finite (-6666666666666667 / 4)], [.finite 0], true, 1⟩)
    ∧ ¬ |(-6666666666666667 / 4 : ℚ) - -10000000000000000 / (2 * 3)| < 1 / 1024 / (2 * 3) := by
  have h1 : Float64.mul (.finite 2) (.finite 3) = .finite 6 := by decide!
  have h2 : Float64.mul (.finite 6) (.finite (-6666666666666667 / 4))
      = .finite (-10000000000000000) := by decide!
  have h3 : Float64.add (.finite (-10000000000000000)) (.finite 10000000000000000)
      = .finite 0 := by decide!
  have h4 : Float64.mul (.finite (1 / 128)) (.finite 0) = .finite 0 := by decide!
  have h5 : Float64.sub (.finite (-6666666666666667 / 4)) (.finite 0)
      = .finite (-6666666666666667 / 4) := by decide!
  have hf : (gd.Parabola.toFunction64 ⟨3, 10000000000000000, 0⟩).Fprime
      [.finite (-6666666666666667 / 4)] [.finite 0] = some [.finite 0] := by
    simp only [gd.Parabola.toFunction64, gd.Parabola.Fprime64, List.getElem?_cons_zero, h1, h2,
      h3]
  have hb := gd.Optimize.body64_single ⟨1 / 128, 1 / 1024, 100, 1⟩ rfl _ _ _ _ false 0 hf
  simp only [h4, h5] at hb
  have ha : Float64.absLt (.finite 0) (1 / 1024) = true := by decide!
  have hw : wrapInt (0 + 1) = 1 := by decide
  rw [ha, hw] at hb
  refine ⟨by norm_num, ⟨by decide!, by decide!, by decide!, by decide!, by decide!⟩, ?_, ?_⟩
  · intro fuel
    show gd.Optimize.loop64 _ _ 1 1 (fuel + 1) ⟨_, [.finite 0], false, 0⟩ = _
    rw [gd.Optimize.loop64_step _ _ _ _ _ _ _ (by decide) hb]
    exact gd.Optimize.loop64_stop _ _ _ _ _ _ (by decide)
  · rw [abs_lt]
    norm_num

/-- C7, as amended. In exact arithmetic (any ordered field) and with one worker: for an
objective that is a sum of parabolas `a_i*x_i^2 + b_i*x_i + c_i` on independent
coordinates (the test objective `NDimensionalParabola`, or `Parabola` in one dimension)
with every `a_i > 0`, a start of matching length and `0 < eta < 1/a_i` for all `i`: when
`Optimize` returns with the flag set (it stopped on the gradient test), every coordinate of
the result satisfies `|xmin[i] - (-b_i/(2*a_i))| < tau/(2*a_i)`. -/
theorem C7_parabolas_within_threshold {α : Type} [LinearOrderedField α]
    (cfg : gd.GradientDescent α) (f : gd.Function α) (ps : List (gd.Parabola α))
    (hf : f = gd.NDimensionalParabola.toFunction ⟨ps⟩
      ∨ ∃ p, ps = [p] ∧ f = gd.Parabola.toFunction p)
    (hT : cfg.Threads = 1) (ha : ∀ p ∈ ps, 0 < p.a) (heta : 0 < cfg.LearningRate)
    (heta' : ∀ p ∈ ps, cfg.LearningRate < 1 / p.a)
    (x0 : gd.NDimensionalValue α) (hx0 : x0.length = ps.length)
    (fuel : Nat) (s : gd.State α) (hrun : gd.Optimize.run fuel cfg f x0 = .ok s)
    (hopt : s.optimized = true) :
    s.x.length = ps.length
      ∧ ∀ (i : Nat) (p : gd.Parabola α) (xi : α), ps[i]? = some p → s.x[i]? = some xi →
          |xi - -p.b / (2 * p.a)| < cfg.Threshold / (2 * p.a) := by
  refine gd.parabolas_bound cfg f (le_of_eq hT.symm) ps x0 hx0 ?_ ha heta heta' fuel s hrun
    hopt
  intro x r hx hr
  rcases hf with rfl | ⟨p, rfl, rfl⟩
  · exact gd.NDimensionalParabola.Fprime_sum_grad ps x r (hx.trans hx0) (hr.trans hx0)
  · exact gd.Parabola.Fprime_unit_grad p x r (hx.trans hx0) (hr.trans hx0)

/-- C7, witness. The two tests in exact arithmetic, with one worker, `x0 = 0`,
`eta = 0.01` and `tau = 0.001`: for `5x^2+6x+3` with `MaxIter = 100` the loop stops on the
gradient test after 84 passes, within `0.001` of `-0.6`; for the parabolas `(5,6,3)`,
`(1,-6,4)`, `(5,2,-34)` with `MaxIter = 1000` it stops on the gradient test after 432
passes, within `0.001` of `-0.6`, `3` and `-0.2`. -/
theorem C7_parabolas_within_threshold_witness :
    (∃ (s : gd.State ℚ) (a : ℚ),
      gd.Optimize.run 100 ⟨1 / 100, 1 / 1000, 100, 1⟩ (gd.Parabola.toFunction ⟨5, 6, 3⟩) [0]
        = .ok s
      ∧ s.optimized = true ∧ s.iter = 84 ∧ s.x = [a] ∧ |a - -(3 / 5)| < 1 / 1000)
    ∧ ∃ (s : gd.State ℚ) (a b c : ℚ),
      gd.Optimize.run 1000 ⟨1 / 100, 1 / 1000, 1000, 1⟩
          (gd.NDimensionalParabola.toFunction ⟨[⟨5, 6, 3⟩, ⟨1, -6, 4⟩, ⟨5, 2, -34⟩]⟩) [0, 0, 0]
        = .ok s
      ∧ s.optimized = true ∧ s.iter = 432 ∧ s.x = [a, b, c]
      ∧ |a - -(3 / 5)| < 1 / 1000 ∧ |b - 3| < 1 / 1000 ∧ |c - -(1 / 5)| < 1 / 1000 := by
  constructor
  · have hgrad : ∀ x r : gd.NDimensionalValue ℚ, x.length = ([0] : List ℚ).length →
        r.length = ([0] : List ℚ).length →
        (gd.Parabola.toFunction (⟨5, 6, 3⟩ : gd.Parabola ℚ)).Fprime x r
          = some (gd.parabolasGrad [⟨5, 6, 3⟩] x) :=
      fun x r hx hr => gd.Parabola.Fprime_unit_grad _ x r hx hr
    have hG : ∀ j : Nat, gd.parabolasGrad [(⟨5, 6, 3⟩ : gd.Parabola ℚ)]
        ((gd.descentMap (1 / 100) (gd.parabolasGrad [⟨5, 6, 3⟩]))^[j] [0])
        = [(9 / 10) ^ j * 6] := by
      intro j
      rw [gd.parabolasGrad_iterate _ _ _ rfl]
      norm_num
    have hrun := gd.Optimize.run_of_first_below
      (⟨1 / 100, 1 / 1000, 100, 1⟩ : gd.GradientDescent ℚ) _ (le_refl 1) _ [0] hgrad 83
      (by norm_num) (Or.inr (by norm_num))
      (by
        intro j hj
        show gd.below (1 / 1000) _ = false
        rw [hG j]
        have h1 : ((9 : ℚ) / 10) ^ 82 ≤ (9 / 10) ^ j :=
          pow_le_pow_of_le_one (by norm_num) (by norm_num) (by omega)
        have h2 : (1 : ℚ) / 1000 ≤ (9 / 10) ^ 82 * 6 := by norm_num
        have h3 : (0 : ℚ) ≤ (9 / 10) ^ j * 6 := by positivity
        simp only [gd.below, List.all_cons, List.all_nil, Bool.and_true, decide_eq_false_iff_not,
          not_lt, abs_of_nonneg h3]
        linarith)
      (by
        show gd.below (1 / 1000) _ = true
        rw [hG 83]
        norm_num [gd.below, abs_of_pos])
      100 (by norm_num)
    obtain ⟨s, hs, hopt, hiter⟩ : ∃ s : gd.State ℚ,
        gd.Optimize.run 100 ⟨1 / 100, 1 / 1000, 100, 1⟩ (gd.Parabola.toFunction ⟨5, 6, 3⟩) [0]
          = .ok s ∧ s.optimized = true ∧ s.iter = 84 :=
      ⟨_, hrun, rfl, (by norm_num : ((83 : ℕ) : ℤ) + 1 = 84)⟩
    clear hrun
    have hbound := C7_parabolas_within_threshold
      (⟨1 / 100, 1 / 1000, 100, 1⟩ : gd.GradientDescent ℚ) _ [⟨5, 6, 3⟩]
      (Or.inr ⟨_, rfl, rfl⟩) rfl (by simp) (by norm_num) (by simp; norm_num)
      [0] rfl 100 s hs hopt
    obtain ⟨a, ha⟩ := List.length_eq_one.mp hbound.1
    have hb := hbound.2 0 ⟨5, 6, 3⟩ a rfl (by rw [ha]; rfl)
    refine ⟨s, a, hs, hopt, hiter, ha, ?_⟩
    have e1 : (-6 : ℚ) / (2 * 5) = -(3 / 5) := by norm_num
    have e2 : (1 : ℚ) / 1000 / (2 * 5) ≤ 1 / 1000 := by norm_num
    simp only [e1] at hb
    linarith
  · have hgrad : ∀ x r : gd.NDimensionalValue ℚ, x.length = ([0, 0, 0] : List ℚ).length →
        r.length = ([0, 0, 0] : List ℚ).length →
        (gd.NDimensionalParabola.toFunction
          (⟨[⟨5, 6, 3⟩, ⟨1, -6, 4⟩, ⟨5, 2, -34⟩]⟩ : gd.NDimensionalParabola ℚ)).Fprime x r
          = some (gd.parabolasGrad [⟨5, 6, 3⟩, ⟨1, -6, 4⟩, ⟨5, 2, -34⟩] x) :=
      fun x r hx hr => gd.NDimensionalParabola.Fprime_sum_grad _ x r hx hr
    have hG : ∀ j : Nat,
        gd.parabolasGrad [(⟨5, 6, 3⟩ : gd.Parabola ℚ), ⟨1, -6, 4⟩, ⟨5, 2, -34⟩]
          ((gd.descentMap (1 / 100)
            (gd.parabolasGrad [⟨5, 6, 3⟩, ⟨1, -6, 4⟩, ⟨5, 2, -34⟩]))^[j] [0, 0, 0])
        = [(9 / 10) ^ j * 6, (49 / 50) ^ j * (-6), (9 / 10) ^ j * 2] := by
      intro j
      rw [gd.parabolasGrad_iterate _ _ _ rfl]
      norm_num
    have hrun := gd.Optimize.run_of_first_below
      (⟨1 / 100, 1 / 1000, 1000, 1⟩ : gd.GradientDescent ℚ) _ (le_refl 1) _ [0, 0, 0] hgrad
      431 (by norm_num) (Or.inr (by norm_num))
      (by
        intro j hj
        show gd.below (1 / 1000) _ = false
        rw [hG j]
        have h1 : ((49 : ℚ) / 50) ^ 430 ≤ (49 / 50) ^ j :=
          pow_le_pow_of_le_one (by norm_num) (by norm_num) (by omega)
        have h2 : (1 : ℚ) / 1000 ≤ (49 / 50) ^ 430 * 6 := by norm_num
        have h3 : (49 / 50 : ℚ) ^ j * (-6) ≤ 0 := by
          have : (0 : ℚ) ≤ (49 / 50) ^ j := by positivity
          linarith
        rw [Bool.eq_false_iff]
        intro hb
        simp only [gd.below, List.all_cons, List.all_nil, Bool.and_true, Bool.and_eq_true,
          decide_eq_true_eq] at hb
        have := hb.2.1
        rw [abs_of_nonpos h3] at this
        linarith)
      (by
        show gd.below (1 / 1000) _ = true
        rw [hG 431]
        simp only [gd.below, List.all_cons, List.all_nil, Bool.and_true, Bool.and_eq_true,
          decide_eq_true_eq]
        refine ⟨?_, ?_, ?_⟩
        · rw [abs_of_pos (by positivity)]; norm_num
        · rw [abs_of_neg (by norm_num)]; norm_num
        · rw [abs_of_pos (by positivity)]; norm_num)
      1000 (by norm_num)
    obtain ⟨s, hs, hopt, hiter⟩ : ∃ s : gd.State ℚ,
        gd.Optimize.run 1000 ⟨1 / 100, 1 / 1000, 1000, 1⟩
            (gd.NDimensionalParabola.toFunction ⟨[⟨5, 6, 3⟩, ⟨1, -6, 4⟩, ⟨5, 2, -34⟩]⟩)
            [0, 0, 0]
          = .ok s ∧ s.optimized = true ∧ s.iter = 432 :=
      ⟨_, hrun, rfl, (by norm_num : ((431 : ℕ) : ℤ) + 1 = 432)⟩
    clear hrun
    have hbound := C7_parabolas_within_threshold
      (⟨1 / 100, 1 / 1000, 1000, 1⟩ : gd.GradientDescent ℚ) _
      [⟨5, 6, 3⟩, ⟨1, -6, 4⟩, ⟨5, 2, -34⟩]
      (Or.inl rfl) rfl (by simp) (by norm_num) (by simp; norm_num)
      [0, 0, 0] rfl 1000 s hs hopt
    obtain ⟨a, b, c, habc⟩ := List.length_eq_three.mp hbound.1
    have hb0 := hbound.2 0 ⟨5, 6, 3⟩ a rfl (by rw [habc]; rfl)
    have hb1 := hbound.2 1 ⟨1, -6, 4⟩ b rfl (by rw [habc]; rfl)
    have hb2 := hbound.2 2 ⟨5, 2, -34⟩ c rfl (by rw [habc]; rfl)
    refine ⟨s, a, b, c, hs, hopt, hiter, habc, ?_, ?_, ?_⟩
    · have e1 : (-6 : ℚ) / (2 * 5) = -(3 / 5) := by norm_num
      have e2 : (1 : ℚ) / 1000 / (2 * 5) ≤ 1 / 1000 := by norm_num
      simp only [e1] at hb0
      linarith
    · have e1 : (- -6 : ℚ) / (2 * 1) = 3 := by norm_num
      have e2 : (1 : ℚ) / 1000 / (2 * 1) ≤ 1 / 1000 := by norm_num
      simp only [e1] at hb1
      linarith
    · have e1 : (-2 : ℚ) / (2 * 5) = -(1 / 5) := by norm_num
      have e2 : (1 : ℚ) / 1000 / (2 * 5) ≤ 1 / 1000 := by norm_num
      simp only [e1] at hb2
      linarith

/-- C8. For the corpus of `TestMaxent`, whatever the order in which the constructor meets
the keys of the first document (first loop) and the entries of each document (second
loop): the constructor returns an objective with two features, and `Optimize` with
`LearningRate = 1`, `Threshold = 0.01`, `MaxIter = -1` and one worker, started from the
zero vector, returns for every large enough fuel two weights with `w0 + w1 = 0`, so
`|w0 + w1| <= 0.01`. -/
theorem C8_maxent_two_way (keys0 : List String) (d0 d1 : List (String × cloglik.Json))
    (hk : keys0.Perm ["A", "B", "__label__"])
    (h0 : d0.Perm [("A", .arr [.str "a"]), ("B", .arr [.str "b"]), ("__label__", .str "A")])
    (h1 : d1.Perm [("A", .arr [.str "b"]), ("B", .arr [.str "a"]), ("__label__", .str "B")]) :
    ∃ p : cloglik.CLogLik ℝ,
      cloglik.FromJson false keys0 [d0, d1] = .ok (some p)
      ∧ p.DimCnt = 2
      ∧ ∃ (n : Nat) (w0 w1 : ℝ), w0 + w1 = 0 ∧ |w0 + w1| ≤ 1 / 100
        ∧ ∀ fuel, n ≤ fuel →
          gd.Optimize fuel (⟨1, 1 / 100, -1, 1⟩ : gd.GradientDescent ℝ)
            (p.toFunction Real.exp Real.log) (List.replicate p.DimCnt 0) = .ok [w0, w1] := by
  have s1 : cloglik.TestMaxent.shape
      ⟨[⟨[[0], [1]], 0⟩, ⟨[[1], [0]], 1⟩], ["a", "b"], ["A", "B"], [0 + 1 + 1, 0],
        [[0, 3], [2, 1]], 1⟩ 1 := Or.inl ⟨rfl, rfl, Or.inl ⟨rfl, rfl⟩⟩
  have s2 : cloglik.TestMaxent.shape
      ⟨[⟨[[1], [0]], 0⟩, ⟨[[0], [1]], 1⟩], ["b", "a"], ["A", "B"], [0, 0 + 1 + 1],
        [[2, 1], [0, 3]], 1⟩ (-1) := Or.inr ⟨rfl, rfl, Or.inl ⟨rfl, rfl⟩⟩
  have s3 : cloglik.TestMaxent.shape
      ⟨[⟨[[1], [0]], 1⟩, ⟨[[0], [1]], 0⟩], ["a", "b"], ["B", "A"], [0 + 1 + 1, 0],
        [[2, 1], [0, 3]], 1⟩ 1 := Or.inl ⟨rfl, rfl, Or.inr ⟨rfl, rfl⟩⟩
  have s4 : cloglik.TestMaxent.shape
      ⟨[⟨[[0], [1]], 1⟩, ⟨[[1], [0]], 0⟩], ["b", "a"], ["B", "A"], [0, 0 + 1 + 1],
        [[0, 3], [2, 1]], 1⟩ (-1) := Or.inr ⟨rfl, rfl, Or.inr ⟨rfl, rfl⟩⟩
  rcases cloglik.perm_three (by decide) (by decide) (by decide) hk
    with rfl | rfl | rfl | rfl | rfl | rfl <;>
  rcases cloglik.perm_three (by decide) (by decide) (by decide) h0
    with rfl | rfl | rfl | rfl | rfl | rfl <;>
  rcases cloglik.perm_three (by decide) (by decide) (by decide) h1
    with rfl | rfl | rfl | rfl | rfl | rfl <;>
  first
  | exact cloglik.twoWay_case _ _ _ _ rfl s1
  | exact cloglik.twoWay_case _ _ _ _ rfl s2
  | exact cloglik.twoWay_case _ _ _ _ rfl s3
  | exact cloglik.twoWay_case _ _ _ _ rfl s4

/-- C8, witness. The corpus of `TestMaxent` met in the order of the text. -/
theorem C8_maxent_two_way_witness :
    ∃ p : cloglik.CLogLik ℝ,
      cloglik.FromJson false cloglik.TestMaxent.keys0 cloglik.TestMaxent.tmpDocs = .ok (some p)
      ∧ p.DimCnt = 2
      ∧ ∃ (n : Nat) (w0 w1 : ℝ), w0 + w1 = 0 ∧ |w0 + w1| ≤ 1 / 100
        ∧ ∀ fuel, n ≤ fuel →
          gd.Optimize fuel (⟨1, 1 / 100, -1, 1⟩ : gd.GradientDescent ℝ)
            (p.toFunction Real.exp Real.log) (List.replicate p.DimCnt 0) = .ok [w0, w1] :=
  C8_maxent_two_way _ _ _ (List.Perm.refl _) (List.Perm.refl _) (List.Perm.refl _)

/-- C9. For an objective that the constructor returns with one document and one class,
any `T >= 1` workers, any weights `x` and any buffer of length `DimCnt`: `Fprime` returns
the zero vector; and `Optimize` on it with `tau > 0`, `MaxIter != 0` and at least one
worker makes exactly one pass and returns `x0`. -/
theorem C9_single_document_single_class {α : Type} [LinearOrderedField α] (exp log : α → α)
    (err : Bool) (keys0 : List String) (tmpDocs : List (List (String × cloglik.Json)))
    (p : cloglik.CLogLik α) (h : cloglik.FromJson err keys0 tmpDocs = .ok (some p))
    (hN : p.Docs.length = 1) (hC : p.ClassMap.length = 1) (T : Nat) (hT : 1 ≤ T) :
    (∀ x r : gd.NDimensionalValue α, x.length = p.DimCnt → r.length = p.DimCnt →
      cloglik.CLogLik.Fprime exp { p with Threads := T } x r
        = some (List.replicate p.DimCnt 0))
    ∧ ∀ (cfg : gd.GradientDescent α), 1 ≤ cfg.Threads → 0 < cfg.Threshold →
        cfg.MaxIter ≠ 0 → ∀ (x0 : gd.NDimensionalValue α), x0.length = p.DimCnt →
        ∀ fuel : Nat,
          gd.Optimize.run (fuel + 1) cfg
              (cloglik.CLogLik.toFunction exp log { p with Threads := T }) x0
            = .ok ⟨x0, List.replicate p.DimCnt 0, true, 1⟩
          ∧ gd.Optimize.passes cfg
              (cloglik.CLogLik.toFunction exp log { p with Threads := T }) x0.length
              (ceilDiv x0.length cfg.Threads) 1 (gd.Optimize.start x0)
            = some ⟨x0, List.replicate p.DimCnt 0, true, 1⟩
          ∧ gd.Optimize (fuel + 1) cfg
              (cloglik.CLogLik.toFunction exp log { p with Threads := T }) x0
            = .ok x0 := by
  obtain ⟨hv, -⟩ := cloglik.FromJson_valid err keys0 tmpDocs p h
  have hzero : ∀ x r : gd.NDimensionalValue α, x.length = p.DimCnt → r.length = p.DimCnt →
      cloglik.CLogLik.Fprime exp { p with Threads := T } x r
        = some (List.replicate p.DimCnt 0) := by
    intro x r hx hr
    rw [cloglik.CLogLik.Fprime_eq exp _ _ _ (hv.threads T) hT x r hx hr]
    congr 1
    apply List.ext_getElem?
    intro i
    by_cases hi : i < p.DimCnt
    · rw [cloglik.FromJson_gradOf exp err keys0 tmpDocs p h T x i hi, hN, hC]
      have hd0 : p.Docs[0]? = some p.Docs[0] := List.getElem?_eq_getElem (by omega)
      have hmem : p.Docs[0] ∈ p.Docs := List.getElem_mem _
      have hcls : (p.Docs[0]).Class = 0 := by
        have := hv.gold _ hmem
        omega
      have hgold : cloglik.goldFeatures p.Docs = cloglik.featuresOf p.Docs 0 0 := by
        obtain ⟨d, hd⟩ := List.length_eq_one.mp hN
        have hd' : p.Docs[0] = d := by simp [hd]
        rw [hd'] at hcls
        simp [cloglik.goldFeatures, cloglik.featuresOf, hd, hcls, List.getD_eq_getElem?_getD]
      have hprob : p.prob exp x 0 0 = 1 := by
        simp only [cloglik.CLogLik.prob, hd0]
        exact cloglik.probOf_single exp _ x (by rw [hv.classes _ hmem, hC])
      simp [hgold, hprob, hi]
    · have h1 : (cloglik.CLogLik.gradOf exp { p with Threads := T } x)[i]? = none :=
        List.getElem?_eq_none (by
          simp only [cloglik.CLogLik.gradOf, List.length_map, List.length_range]
          exact not_lt.mp hi)
      rw [h1, List.getElem?_eq_none (by simp only [List.length_replicate]; exact not_lt.mp hi)]
  refine ⟨hzero, ?_⟩
  intro cfg hcT htau hM x0 hx0 fuel
  have hg : (cloglik.CLogLik.toFunction exp log { p with Threads := T }).Fprime x0
      (List.replicate x0.length 0) = some (List.replicate p.DimCnt 0) :=
    hzero x0 _ hx0 (by simp [hx0])
  have hrun := gd.Optimize.run_one cfg _ hcT hM x0 _ hg (gd.below_zero _ htau _) fuel
  have hdesc : gd.descend cfg.LearningRate x0 (List.replicate p.DimCnt 0) = x0 := by
    rw [← hx0]
    exact gd.descend_zero _ x0
  rw [hdesc] at hrun
  refine ⟨hrun, ?_, by simp [gd.Optimize, hrun, Except.map]⟩
  have hb := gd.Optimize.body_eq cfg
    (cloglik.CLogLik.toFunction exp log { p with Threads := T }) hcT (gd.Optimize.start x0)
    (by simp [gd.Optimize.start])
  have hx : (gd.Optimize.start x0).x = x0 := rfl
  have hfp : (gd.Optimize.start x0).fp = List.replicate x0.length 0 := rfl
  rw [hx, hfp, hg] at hb
  simp only [gd.Optimize.passes, hb, Option.map_some', Option.some_bind, hdesc,
    gd.below_zero _ htau]
  simp [gd.Optimize.start, wrapInt]

/-- C9, witness. One document with the one class `A` and the feature list `a, a, b`. -/
theorem C9_single_document_single_class_witness :
    ∃ p : cloglik.CLogLik ℚ,
      cloglik.FromJson false ["A", "__label__"]
          [[("A", .arr [.str "a", .str "a", .str "b"]), ("__label__", .str "A")]]
        = .ok (some p)
      ∧ p.DimCnt = 2
      ∧ cloglik.CLogLik.Fprime (fun t => 1 + t) { p with Threads := 1 } [3, 5] [7, 9]
          = some [0, 0]
      ∧ gd.Optimize 1 (⟨1, 1 / 100, -1, 1⟩ : gd.GradientDescent ℚ)
          (cloglik.CLogLik.toFunction (fun t => 1 + t) (fun t => t - 1)
            { p with Threads := 1 }) [3, 5] = .ok [3, 5] := by
  have hp : (cloglik.FromJson false ["A", "__label__"]
      [[("A", .arr [.str "a", .str "a", .str "b"]), ("__label__", .str "A")]]
        : Except Fault (Option (cloglik.CLogLik ℚ)))
      = .ok (some ⟨[⟨[[0, 0, 1]], 0⟩], ["a", "b"], ["A"], [0 + 1 + 1, 0 + 1],
          [[0, 0], [0]], 1⟩) := rfl
  have h := C9_single_document_single_class (fun t : ℚ => 1 + t) (fun t => t - 1) false _ _ _
    hp rfl rfl 1 (le_refl 1)
  refine ⟨_, hp, rfl, h.1 [3, 5] [7, 9] rfl rfl, ?_⟩
  exact (h.2 ⟨1, 1 / 100, -1, 1⟩ (le_refl 1) (by norm_num) (by decide) [3, 5] rfl 0).2.2

/-- C10. In the objective that the constructor returns, with `N` documents and `C`
classes: there is one inverted list per feature; the combined index `c*N + d` occurs in
`features_to_docs[i]` as often as `i` occurs in the feature list of document `d` and
class `c`; every entry of every list is below `C*N`, the length of `P_vec`, and is
`c*N + d` for exactly one pair of a class `c < C` and a document `d < N`. -/
theorem C10_inverted_index_counts {α : Type} [LinearOrderedField α] (err : Bool)
    (keys0 : List String) (tmpDocs : List (List (String × cloglik.Json)))
    (p : cloglik.CLogLik α) (h : cloglik.FromJson err keys0 tmpDocs = .ok (some p)) :
    p.features_to_docs.length = p.DimCnt
    ∧ (∀ d0, p.Docs[0]? = some d0 → d0.Features.length = p.ClassMap.length)
    ∧ (∀ i d c, i < p.DimCnt → d < p.Docs.length → c < p.ClassMap.length →
        (p.features_to_docs.getD i []).count (c * p.Docs.length + d)
          = (cloglik.featuresOf p.Docs d c).count i)
    ∧ (∀ docs ∈ p.features_to_docs, ∀ k ∈ docs,
        k < p.ClassMap.length * p.Docs.length
        ∧ ∃! cd : Nat × Nat, cd.1 < p.ClassMap.length ∧ cd.2 < p.Docs.length
            ∧ k = cd.1 * p.Docs.length + cd.2) := by
  obtain ⟨-, -, -, -, hinv, -⟩ := cloglik.FromJson_spec err keys0 tmpDocs p h
  obtain ⟨hv, hD⟩ := cloglik.FromJson_valid err keys0 tmpDocs p h
  obtain ⟨-, -, hget⟩ := cloglik.FromJson.invert_spec _ _ _ hinv
  have hN : 0 < p.Docs.length := hv.docs
  refine ⟨hv.inverted, ?_, ?_, ?_⟩
  · intro d0 hd0
    rw [List.getElem?_eq_getElem hN] at hd0
    simp only [Option.some.injEq] at hd0
    rw [← hd0]
    exact hv.classes _ (List.getElem_mem _)
  · intro i d c hi hd _
    have := hget i (by rw [hD]; exact hi)
    rw [List.getD_eq_getElem?_getD, this, Option.getD_some, cloglik.count_filter_snd,
      cloglik.FromJson.count_firings p.Docs i d c hd]
  · intro docs hdocs k hk
    have hlt := hv.entries docs hdocs k hk
    refine ⟨hlt, ⟨(k / p.Docs.length, k % p.Docs.length), ⟨?_, Nat.mod_lt _ hN, ?_⟩, ?_⟩⟩
    · exact (Nat.div_lt_iff_lt_mul hN).mpr hlt
    · show k = k / p.Docs.length * p.Docs.length + k % p.Docs.length
      rw [Nat.mul_comm]
      exact (Nat.div_add_mod k _).symm
    · rintro ⟨c, d⟩ ⟨-, hd, hk⟩
      simp only at hd hk
      subst hk
      refine Prod.ext ?_ ?_
      · show c = (c * p.Docs.length + d) / p.Docs.length
        rw [Nat.mul_comm, Nat.mul_add_div hN, Nat.div_eq_of_lt hd, Nat.add_zero]
      · show d = (c * p.Docs.length + d) % p.Docs.length
        rw [Nat.mul_comm, Nat.mul_add_mod, Nat.mod_eq_of_lt hd]

/-- C10, witness. The corpus of `TestMaxent`: the inverted lists are `[0, 3]` for `a` and
`[2, 1]` for `b`, and the statement holds for them. -/
theorem C10_inverted_index_counts_witness :
    ∃ p : cloglik.CLogLik ℚ,
      cloglik.FromJson false cloglik.TestMaxent.keys0 cloglik.TestMaxent.tmpDocs = .ok (some p)
      ∧ p.features_to_docs = [[0, 3], [2, 1]]
      ∧ (∀ i d c, i < p.DimCnt → d < p.Docs.length → c < p.ClassMap.length →
          (p.features_to_docs.getD i []).count (c * p.Docs.length + d)
            = (cloglik.featuresOf p.Docs d c).count i) :=
  ⟨_, cloglik.TestMaxent.FromJson_eq, rfl,
    (C10_inverted_index_counts false cloglik.TestMaxent.keys0 cloglik.TestMaxent.tmpDocs _
      cloglik.TestMaxent.FromJson_eq).2.2.1⟩

/-! ### The constructor, the workers and termination: C11 to C20 -/

/-- C11. For a decoded corpus in the input format (the lists hold the keys and the entries
in the order in which the loops of the constructor meet them, so that every order of
iteration is covered): the constructor returns an objective `p` with as many documents as
the corpus and as many classes `C` as the first document has keys other than the label;
`C >= 1`; `DimCnt() = len(FeatureMap) = len(features_to_docs) = D`; every document has `C`
feature lists, a gold class below `C` and feature indices below `D`; and with such a state
`computeNumerators` returns (with the same numerators), and for every `l` and `r` of length
`D` and any `T >= 1` workers `Document.P` (for every document and class), `Val` and `Fprime`
return, which they do only when no index is out of range. -/
theorem C11_constructed_state_in_range {α : Type} [LinearOrderedField α] (exp log : α → α)
    (keys0 : List String) (tmpDocs : List (List (String × cloglik.Json)))
    (hc : cloglik.FromJson.Corpus keys0 tmpDocs) :
    ∃ p : cloglik.CLogLik α, cloglik.FromJson false keys0 tmpDocs = .ok (some p)
      ∧ p.Docs.length = tmpDocs.length
      ∧ p.ClassMap.length = (keys0.filter fun k => k != "__label__").length
      ∧ 1 ≤ p.ClassMap.length
      ∧ p.DimCnt = p.FeatureMap.length ∧ p.DimCnt = p.features_to_docs.length
      ∧ (∀ d ∈ p.Docs, d.Features.length = p.ClassMap.length ∧ d.Class < p.ClassMap.length
          ∧ ∀ fs ∈ d.Features, ∀ fi ∈ fs, fi < p.DimCnt)
      ∧ p.computeNumerators = some p
      ∧ ∀ l : gd.NDimensionalValue α, l.length = p.DimCnt →
          (∀ d ∈ p.Docs, ∀ c, (d.P exp l c).isSome = true)
          ∧ (p.Val exp log l).isSome = true
          ∧ ∀ T, 1 ≤ T → ∀ r : gd.NDimensionalValue α, r.length = p.DimCnt →
              (cloglik.CLogLik.Fprime exp { p with Threads := T } l r).isSome = true := by
  obtain ⟨p, hp, -, hcm, -⟩ := cloglik.FromJson_returns (α := α) keys0 tmpDocs hc.nonempty
    hc.nodup hc.classes hc.typed
  obtain ⟨hv, hfm⟩ := cloglik.FromJson_valid false keys0 tmpDocs p hp
  obtain ⟨-, hlen, -, -, -, -⟩ := cloglik.FromJson_spec false keys0 tmpDocs p hp
  have hC : 1 ≤ p.ClassMap.length := by
    obtain ⟨d, hd⟩ := List.exists_mem_of_length_pos hv.docs
    exact lt_of_le_of_lt (Nat.zero_le _) (hv.gold d hd)
  refine ⟨p, hp, hlen, by rw [hcm], hC, hfm.symm, hv.inverted.symm, ?_,
    cloglik.FromJson_numerators false keys0 tmpDocs p hp, ?_⟩
  · intro d hd
    exact ⟨hv.classes d hd, hv.gold d hd, hv.features d hd⟩
  · intro l hl
    refine ⟨?_, ?_, ?_⟩
    · intro d hd c
      rw [cloglik.Document.P_eq exp d l c (by rw [hl]; exact hv.features d hd)]
      rfl
    · rw [cloglik.CLogLik.Val_eq exp log p _ _ hv l hl]
      rfl
    · intro T hT r hr
      rw [cloglik.CLogLik.Fprime_eq exp _ _ _ (hv.threads T) hT l r hl hr]
      rfl

/-- C11, witness. The corpus of `TestMaxent` is in the input format. -/
theorem C11_constructed_state_in_range_witness :
    cloglik.FromJson.Corpus cloglik.TestMaxent.keys0 cloglik.TestMaxent.tmpDocs
    ∧ ∃ p : cloglik.CLogLik ℚ,
      cloglik.FromJson false cloglik.TestMaxent.keys0 cloglik.TestMaxent.tmpDocs = .ok (some p)
      ∧ p.Docs.length = cloglik.TestMaxent.tmpDocs.length
      ∧ p.ClassMap.length
          = (cloglik.TestMaxent.keys0.filter fun k => k != "__label__").length
      ∧ 1 ≤ p.ClassMap.length
      ∧ p.DimCnt = p.FeatureMap.length ∧ p.DimCnt = p.features_to_docs.length
      ∧ (∀ d ∈ p.Docs, d.Features.length = p.ClassMap.length ∧ d.Class < p.ClassMap.length
          ∧ ∀ fs ∈ d.Features, ∀ fi ∈ fs, fi < p.DimCnt)
      ∧ p.computeNumerators = some p
      ∧ ∀ l : gd.NDimensionalValue ℚ, l.length = p.DimCnt →
          (∀ d ∈ p.Docs, ∀ c, (d.P (fun t => 1 + t) l c).isSome = true)
          ∧ (p.Val (fun t => 1 + t) (fun t => t - 1) l).isSome = true
          ∧ ∀ T, 1 ≤ T → ∀ r : gd.NDimensionalValue ℚ, r.length = p.DimCnt →
              (cloglik.CLogLik.Fprime (fun t => 1 + t) { p with Threads := T } l r).isSome
                = true :=
  ⟨cloglik.TestMaxent.corpus,
    C11_constructed_state_in_range (fun t : ℚ => 1 + t) (fun t => t - 1) _ _
      cloglik.TestMaxent.corpus⟩

/-- C12. For every objective that the constructor returns, with `keys0` the keys of the
first decoded document (a map, so no key twice): `FeatureMap` has `D = DimCnt()` entries, no
name twice, and its names are exactly the strings that occur in an array under a key other
than the label in some document; `ClassMap` has no name twice and its names are exactly the
keys of the first document other than the label; and for a decoded document that is a map
with keys among those of the first one, the list stored for the class key `k` is at the
position of `k` in `ClassMap` and holds, for each name of the array, the position of the
name in `FeatureMap`, and the gold class is the position in `ClassMap` of the class that
the label names. -/
theorem C12_maps_are_bijections {α : Type} [LinearOrderedField α] (err : Bool)
    (keys0 : List String) (tmpDocs : List (List (String × cloglik.Json)))
    (p : cloglik.CLogLik α) (h : cloglik.FromJson err keys0 tmpDocs = .ok (some p))
    (hk : keys0.Nodup) :
    p.FeatureMap.length = p.DimCnt ∧ p.FeatureMap.Nodup
    ∧ (∀ name, name ∈ p.FeatureMap ↔
        ∃ d ∈ tmpDocs, ∃ k items, (k, cloglik.Json.arr items) ∈ d ∧ k ≠ "__label__"
          ∧ cloglik.Item.str name ∈ items)
    ∧ p.ClassMap.Nodup
    ∧ (∀ k, k ∈ p.ClassMap ↔ k ∈ keys0 ∧ k ≠ "__label__")
    ∧ ∀ (di : Nat) (d : List (String × cloglik.Json)) (doc : cloglik.Document),
        tmpDocs[di]? = some d → p.Docs[di]? = some doc →
        (d.map Prod.fst).Nodup → (∀ k ∈ d.map Prod.fst, k ∈ keys0) →
        (∀ k items, (k, cloglik.Json.arr items) ∈ d → k ≠ "__label__" →
          doc.Features[p.ClassMap.indexOf k]?
            = some ((cloglik.FromJson.itemNames items).map fun n => p.FeatureMap.indexOf n))
        ∧ (∀ s, ("__label__", cloglik.Json.str s) ∈ d → s ∈ p.ClassMap →
            doc.Class = p.ClassMap.indexOf s) := by
  obtain ⟨hFM, hCM, hDocs⟩ := cloglik.FromJson_shape err keys0 tmpDocs p h hk
  obtain ⟨-, hfm⟩ := cloglik.FromJson_valid err keys0 tmpDocs p h
  have hCMmem : ∀ k, k ∈ p.ClassMap ↔ k ∈ keys0 ∧ k ≠ "__label__" := by
    intro k
    rw [hCM, List.mem_filter]
    simp
  have hCMnd : p.ClassMap.Nodup := by
    rw [hCM]
    exact hk.filter _
  refine ⟨hfm, ?_, ?_, hCMnd, hCMmem, ?_⟩
  · rw [hFM]
    exact cloglik.FromJson.addNames_nodup _ _ List.nodup_nil
  · intro name
    rw [hFM, cloglik.FromJson.mem_addNames, ← cloglik.FromJson.mem_featureNames]
    simp
  · intro di d doc hd hdoc hdn hdk
    rw [hDocs, List.getElem?_map, hd, Option.map_some', Option.some.injEq] at hdoc
    subst hdoc
    have hget : ∀ k, k ∈ p.ClassMap → (cloglik.GoMap.ofNames p.ClassMap).get k
        = p.ClassMap.indexOf k := fun k hkm => cloglik.GoMap.get_ofNames _ k hkm
    have hcls : ∀ kv ∈ d, (kv.1 == "__label__") = false → kv.1 ∈ p.ClassMap := by
      intro kv hkv hl
      rw [hCMmem]
      exact ⟨hdk _ (List.mem_map_of_mem Prod.fst hkv), by simpa using hl⟩
    constructor
    · intro k items hkv hkl
      have hl : (k == "__label__") = false := by simpa using hkl
      have hkm := hcls _ hkv hl
      have := cloglik.FromJson.entries_written (cloglik.GoMap.ofNames p.ClassMap) p.FeatureMap
        d (List.replicate (cloglik.GoMap.ofNames p.ClassMap).length [], 0) hdn ?_
        (k, cloglik.Json.arr items) hkv hl ?_
      · rw [hget k hkm] at this
        unfold cloglik.FromJson.documentOf
        simp only
        rw [this]
        unfold cloglik.FromJson.entryNames
        simp only [hl, Bool.false_eq_true, if_false]
      · intro kv hkv kv' hkv' hl1 hl2 heq
        rw [hget _ (hcls kv hkv hl1), hget _ (hcls kv' hkv' hl2)] at heq
        exact (List.indexOf_inj (hcls kv hkv hl1) (hcls kv' hkv' hl2)).mp heq
      · simp only [List.length_replicate, cloglik.GoMap.length_ofNames]
        rw [hget k hkm]
        exact List.indexOf_lt_length.mpr hkm
    · intro s hs hsm
      unfold cloglik.FromJson.documentOf
      simp only
      rw [cloglik.FromJson.entries_labelled _ _ s d _ hdn hs, hget s hsm]

/-- C12, witness. The corpus of `TestMaxent`: `FeatureMap = [a, b]`, `ClassMap = [A, B]`,
and the lists of the second document, `A: [b]` and `B: [a]`, are stored as `[[1], [0]]`. -/
theorem C12_maps_are_bijections_witness :
    ∃ p : cloglik.CLogLik ℚ,
      cloglik.FromJson false cloglik.TestMaxent.keys0 cloglik.TestMaxent.tmpDocs = .ok (some p)
      ∧ p.FeatureMap = ["a", "b"] ∧ p.ClassMap = ["A", "B"]
      ∧ p.FeatureMap.Nodup ∧ p.ClassMap.Nodup
      ∧ (∀ name, name ∈ p.FeatureMap ↔
          ∃ d ∈ cloglik.TestMaxent.tmpDocs, ∃ k items,
            (k, cloglik.Json.arr items) ∈ d ∧ k ≠ "__label__" ∧ cloglik.Item.str name ∈ items)
      ∧ (∀ k, k ∈ p.ClassMap ↔ k ∈ ["A", "B", "__label__"] ∧ k ≠ "__label__")
      ∧ (⟨[[1], [0]], 1⟩ : cloglik.Document).Features[p.ClassMap.indexOf "A"]?
          = some ((cloglik.FromJson.itemNames [cloglik.Item.str "b"]).map
              fun n => p.FeatureMap.indexOf n) := by
  have hp := cloglik.TestMaxent.FromJson_eq (α := ℚ)
  obtain ⟨-, h2, h3, h4, h5, h6⟩ := C12_maps_are_bijections false cloglik.TestMaxent.keys0
    cloglik.TestMaxent.tmpDocs _ hp (by decide)
  exact ⟨_, hp, rfl, rfl, h2, h4, h3, h5,
    (h6 1 [("A", .arr [.str "b"]), ("B", .arr [.str "a"]), ("__label__", .str "B")]
      ⟨[[1], [0]], 1⟩ rfl rfl (by decide) (by decide)).1 "A" [.str "b"] (by decide)
      (by decide)⟩

/-- C13. `Fprime` of the objective never reads what the buffer `r` held before the call:
for every objective, weight vector and worker count, two buffers of the same length give
the same outcome (the same vector, or a run-time error in both calls); for the objective
that the constructor returns, any `T >= 1` workers and a weight vector of length `DimCnt`
there is one vector `g` that every call with a buffer of length `DimCnt` returns; and a
pass of the loop of `Optimize`, which hands the buffer of the previous pass to `Fprime`,
does not depend on what that buffer holds. -/
theorem C13_fprime_ignores_buffer {α : Type} [LinearOrderedField α]
    (exp log : α → α) (err : Bool) (keys0 : List String)
    (tmpDocs : List (List (String × cloglik.Json))) (p : cloglik.CLogLik α)
    (h : cloglik.FromJson err keys0 tmpDocs = .ok (some p)) (T : Nat) (hT : 1 ≤ T) :
    (∀ (q : cloglik.CLogLik α) (l r1 r2 : gd.NDimensionalValue α), r1.length = r2.length →
        cloglik.CLogLik.Fprime exp q l r1 = cloglik.CLogLik.Fprime exp q l r2)
    ∧ (∀ l : gd.NDimensionalValue α, l.length = p.DimCnt →
        ∃ g : gd.NDimensionalValue α, ∀ r : gd.NDimensionalValue α, r.length = p.DimCnt →
          cloglik.CLogLik.Fprime exp { p with Threads := T } l r = some g)
    ∧ (∀ (cfg : gd.GradientDescent α) (dim ipt : Nat) (s : gd.State α)
          (r : gd.NDimensionalValue α), r.length = s.fp.length →
        gd.Optimize.body cfg (cloglik.CLogLik.toFunction exp log { p with Threads := T })
            dim ipt { s with fp := r }
          = gd.Optimize.body cfg (cloglik.CLogLik.toFunction exp log { p with Threads := T })
            dim ipt s) := by
  obtain ⟨hv, -⟩ := cloglik.FromJson_valid err keys0 tmpDocs p h
  refine ⟨fun q l r1 r2 hr => cloglik.CLogLik.Fprime_buffer exp q l r1 r2 hr, ?_, ?_⟩
  · intro l hl
    exact ⟨_, fun r hr => cloglik.CLogLik.Fprime_eq exp _ _ _ (hv.threads T) hT l r hl hr⟩
  · intro cfg dim ipt s r hr
    unfold gd.Optimize.body
    have : (cloglik.CLogLik.toFunction exp log { p with Threads := T }).Fprime s.x r
        = (cloglik.CLogLik.toFunction exp log { p with Threads := T }).Fprime s.x s.fp :=
      cloglik.CLogLik.Fprime_buffer exp _ s.x r s.fp hr
    simp only [this]

/-- C13, witness. The corpus of `TestMaxent` over the rationals with two workers: the calls
with the buffers `[5, 7]` and `[0, 0]` return the same vector. -/
theorem C13_fprime_ignores_buffer_witness :
    ∃ g : gd.NDimensionalValue ℚ,
      cloglik.CLogLik.Fprime (fun t : ℚ => 1 + t)
          (⟨[⟨[[0], [1]], 0⟩, ⟨[[1], [0]], 1⟩], ["a", "b"], ["A", "B"],
            [0 + 1 + 1, 0], [[0, 3], [2, 1]], 2⟩ : cloglik.CLogLik ℚ) [0, 0] [5, 7] = some g
      ∧ cloglik.CLogLik.Fprime (fun t : ℚ => 1 + t)
          (⟨[⟨[[0], [1]], 0⟩, ⟨[[1], [0]], 1⟩], ["a", "b"], ["A", "B"],
            [0 + 1 + 1, 0], [[0, 3], [2, 1]], 2⟩ : cloglik.CLogLik ℚ) [0, 0] [0, 0] = some g := by
  obtain ⟨g, hg⟩ := (C13_fprime_ignores_buffer (fun t : ℚ => 1 + t) (fun t => t - 1) false
    cloglik.TestMaxent.keys0 cloglik.TestMaxent.tmpDocs _ cloglik.TestMaxent.FromJson_eq 2
    (by decide)).2.1 [0, 0] rfl
  exact ⟨g, hg [5, 7] rfl, hg [0, 0] rfl⟩

/-- C14. The constructor returns no objective (`nil`) when decoding has failed and when the
decoded sequence of documents is empty, and it returns an objective for every decoded
corpus in the input format. On an input of the first two kinds the driver, which does not
test for `nil`, stops with a run-time error at `maxent.Threads = threads`, before it calls
`Optimize`: whatever the other settings, no optimization runs. -/
theorem C14_constructor_rejects_empty_input {α : Type} [LinearOrderedField α]
    (exp log : α → α) (keys0 : List String) (tmpDocs : List (List (String × cloglik.Json))) :
    (cloglik.FromJson true keys0 tmpDocs : Except Fault (Option (cloglik.CLogLik α)))
        = .ok none
    ∧ (∀ err, (cloglik.FromJson err keys0 [] : Except Fault (Option (cloglik.CLogLik α)))
        = .ok none)
    ∧ (cloglik.FromJson.Corpus keys0 tmpDocs →
        ∃ p : cloglik.CLogLik α, cloglik.FromJson false keys0 tmpDocs = .ok (some p))
    ∧ (∀ fuel threads, driver.main exp log fuel threads true keys0 tmpDocs = .error .panic)
    ∧ (∀ fuel threads err, driver.main exp log fuel threads err keys0 [] = .error .panic) := by
  have h1 : (cloglik.FromJson true keys0 tmpDocs : Except Fault (Option (cloglik.CLogLik α)))
      = .ok none := rfl
  have h2 : ∀ err, (cloglik.FromJson err keys0 [] : Except Fault (Option (cloglik.CLogLik α)))
      = .ok none := by
    intro err
    cases err <;> rfl
  refine ⟨h1, h2, ?_, ?_, ?_⟩
  · intro hc
    obtain ⟨p, hp, -⟩ := cloglik.FromJson_returns (α := α) keys0 tmpDocs hc.nonempty
      hc.nodup hc.classes hc.typed
    exact ⟨p, hp⟩
  · intro fuel threads
    unfold driver.main
    rw [h1]
  · intro fuel threads err
    unfold driver.main
    rw [h2 err]

/-- C14, witness. The corpus of `TestMaxent` is in the input format, and the constructor
returns an objective for it. -/
theorem C14_constructor_rejects_empty_input_witness :
    cloglik.FromJson.Corpus cloglik.TestMaxent.keys0 cloglik.TestMaxent.tmpDocs
    ∧ ∃ p : cloglik.CLogLik ℚ,
        cloglik.FromJson false cloglik.TestMaxent.keys0 cloglik.TestMaxent.tmpDocs
          = .ok (some p) :=
  ⟨cloglik.TestMaxent.corpus,
    (C14_constructor_rejects_empty_input (fun t : ℚ => 1 + t) (fun t => t - 1)
      cloglik.TestMaxent.keys0 cloglik.TestMaxent.tmpDocs).2.2.1 cloglik.TestMaxent.corpus⟩

/-- C15, counterexample. For the corpus of `TestMaxent` the inverted list of the feature
`b` (index 1) is `[1*2 + 0, 0*2 + 1]`: the entry of class 1 and document 0 comes before
the entry of class 0 and document 1, so the list is not non-decreasing in `c*N + d`. -/
theorem C15_counterexample :
    ∃ p : cloglik.CLogLik ℚ,
      cloglik.FromJson false cloglik.TestMaxent.keys0 cloglik.TestMaxent.tmpDocs = .ok (some p)
      ∧ p.features_to_docs[1]? = some [1 * 2 + 0, 0 * 2 + 1]
      ∧ ¬ cloglik.FromJson.classOuter [1 * 2 + 0, 0 * 2 + 1] := by
  refine ⟨_, cloglik.TestMaxent.FromJson_eq, rfl, ?_⟩
  unfold cloglik.FromJson.classOuter
  decide

/-- C15, as amended. In every inverted list of the objective that the constructor returns
the entries stand in the order of the loops of the constructor, documents outer and
classes inner: of two entries `c1*N + d1` and `c2*N + d2`, the earlier one has `d1 < d2`,
or `d1 = d2` and `c1 <= c2`. -/
theorem C15_inverted_lists_document_outer {α : Type} [LinearOrderedField α]
    (err : Bool) (keys0 : List String) (tmpDocs : List (List (String × cloglik.Json)))
    (p : cloglik.CLogLik α) (h : cloglik.FromJson err keys0 tmpDocs = .ok (some p)) :
    ∀ docs ∈ p.features_to_docs, cloglik.FromJson.documentOuter p.Docs.length docs := by
  obtain ⟨-, -, -, -, hinv, -⟩ := cloglik.FromJson_spec err keys0 tmpDocs p h
  obtain ⟨hlen, -, hget⟩ := cloglik.FromJson.invert_spec _ _ _ hinv
  intro docs hdocs
  obtain ⟨i, hi, rfl⟩ := List.getElem_of_mem hdocs
  have := hget i (hlen ▸ hi)
  rw [List.getElem?_eq_getElem hi, Option.some.injEq] at this
  rw [this]
  unfold cloglik.FromJson.documentOuter
  rw [List.pairwise_map]
  exact (cloglik.FromJson.firings_order p.Docs).filter _

/-- C15, witness. The two inverted lists of the corpus of `TestMaxent`, `[0, 3]` and
`[2, 1]`, are in the order of documents outer and classes inner. -/
theorem C15_inverted_lists_document_outer_witness :
    cloglik.FromJson.documentOuter 2 [0, 3] ∧ cloglik.FromJson.documentOuter 2 [2, 1] :=
  ⟨C15_inverted_lists_document_outer false cloglik.TestMaxent.keys0
      cloglik.TestMaxent.tmpDocs _ (cloglik.TestMaxent.FromJson_eq (α := ℚ)) [0, 3]
      (by simp),
   C15_inverted_lists_document_outer false cloglik.TestMaxent.keys0
      cloglik.TestMaxent.tmpDocs _ (cloglik.TestMaxent.FromJson_eq (α := ℚ)) [2, 1]
      (by simp)⟩

/-- C16, counterexample. The parabola `5x^2 + 6x + 3` with `eta = 0.01`, `MaxIter = 0` and
the start `[0]`: `Fprime` gives `[6]` at the start, one update would lead to `[-0.06]`, and
`Optimize` returns `[0]`. -/
theorem C16_counterexample :
    (gd.Parabola.toFunction (⟨5, 6, 3⟩ : gd.Parabola ℚ)).Fprime [0] [0] = some [6]
    ∧ gd.descend (1 / 100 : ℚ) [0] [6] = [-(6 / 100)]
    ∧ (∀ fuel, gd.Optimize fuel (⟨1 / 100, 1 / 1000, 0, 1⟩ : gd.GradientDescent ℚ)
        (gd.Parabola.toFunction ⟨5, 6, 3⟩) [0] = .ok [0])
    ∧ ([0] : gd.NDimensionalValue ℚ) ≠ [-(6 / 100)] := by
  refine ⟨?_, ?_, ?_, by norm_num⟩
  · exact (gd.Parabola.Fprime_single _ 0 0).trans (by norm_num)
  · norm_num [gd.descend]
  · intro fuel
    cases fuel <;> rfl

/-- C16, as amended. With `MaxIter = 0` the loop of `Optimize` is not entered: for every
objective (also one whose `Fprime` would stop the program), every start and any other
settings, the run makes no pass, leaves the counter at `0` and the buffer `fp` as made,
and `Optimize` returns `x0` unchanged. -/
theorem C16_zero_cap_makes_no_pass {α : Type} [LinearOrderedField α]
    (cfg : gd.GradientDescent α) (f : gd.Function α) (x0 : gd.NDimensionalValue α)
    (fuel : Nat) :
    gd.Optimize.continues { cfg with MaxIter := 0 } (gd.Optimize.start x0) = false
    ∧ gd.Optimize.run fuel { cfg with MaxIter := 0 } f x0
        = .ok ⟨x0, List.replicate x0.length 0, false, 0⟩
    ∧ gd.Optimize fuel { cfg with MaxIter := 0 } f x0 = .ok x0 := by
  have hc : gd.Optimize.continues { cfg with MaxIter := 0 } (gd.Optimize.start x0) = false := by
    rw [gd.Optimize.start_continues]
    rfl
  have hrun : gd.Optimize.run fuel { cfg with MaxIter := 0 } f x0
      = .ok ⟨x0, List.replicate x0.length 0, false, 0⟩ := by
    unfold gd.Optimize.run gd.Optimize.loop
    rw [hc]
    rfl
  refine ⟨hc, hrun, ?_⟩
  unfold gd.Optimize
  rw [hrun]
  rfl

/-- C17. For `T >= 1` workers and every dimension `D`: the blocks
`[i*ceil(D/T), min((i+1)*ceil(D/T), D))` of the workers `0, ..., T-1`, one after the other,
are `0, ..., D-1`, so every coordinate is in the block of exactly one worker (a block whose
start is not below its end is empty); whatever the order in which the workers get to their
blocks, the update phase gives the same `x` and the same flag as the sequential loop over
all coordinates that it has replaced, namely `x - eta*fp` and the test of every coordinate;
and `Optimize` returns the same with any other number `T' >= 1` of workers. -/
theorem C17_blocks_partition_coordinates {α : Type} [LinearOrderedField α]
    (cfg : gd.GradientDescent α) (hT : 1 ≤ cfg.Threads) :
    (∀ D, (List.range cfg.Threads).flatMap (block D (ceilDiv D cfg.Threads)) = List.range D)
    ∧ (∀ D j, j < D → ∃! i, i < cfg.Threads ∧ j ∈ block D (ceilDiv D cfg.Threads) i)
    ∧ (∀ D per i, block D per i
          = List.range' (gd.Optimize.dispatch D per i).start
              ((gd.Optimize.dispatch D per i).end_ - (gd.Optimize.dispatch D per i).start)
        ∧ ((gd.Optimize.dispatch D per i).end_ ≤ (gd.Optimize.dispatch D per i).start →
            block D per i = []))
    ∧ (∀ (x fp : gd.NDimensionalValue α) (order : List Nat), fp.length = x.length →
        order.Perm (List.range cfg.Threads) →
        gd.Optimize.workers cfg x.length (ceilDiv x.length cfg.Threads) order fp (x, true)
            = gd.Optimize.sequential cfg fp (x, true)
          ∧ gd.Optimize.sequential cfg fp (x, true)
            = some (gd.descend cfg.LearningRate x fp, gd.below cfg.Threshold fp))
    ∧ (∀ T', 1 ≤ T' → ∀ (fuel : Nat) (f : gd.Function α) (x0 : gd.NDimensionalValue α),
        gd.Optimize fuel { cfg with Threads := T' } f x0 = gd.Optimize fuel cfg f x0) := by
  refine ⟨fun D => blocks_partition D _ hT, fun D j hj => block_unique D _ hT j hj, ?_, ?_, ?_⟩
  · intro D per i
    refine ⟨rfl, ?_⟩
    intro h
    unfold block
    have h' : min ((i + 1) * per) D ≤ i * per := h
    have : min ((i + 1) * per) D - i * per = 0 := by omega
    rw [this]
    rfl
  · intro x fp order hlen horder
    rw [gd.Optimize.sequential_eq cfg x fp hlen]
    exact ⟨gd.Optimize.workers_perm cfg x fp hT hlen order horder, rfl⟩
  · intro T' hT' fuel f x0
    unfold gd.Optimize gd.Optimize.run
    have := gd.Optimize.loop_threads cfg f T' cfg.Threads hT' hT x0.length fuel
      (gd.Optimize.start x0) rfl (by simp [gd.Optimize.start])
    rw [this]

/-- C17, witness. Four workers on three coordinates (the last block is empty), taken in the
order 3, 1, 0, 2. -/
theorem C17_blocks_partition_coordinates_witness :
    (List.range 4).flatMap (block 3 (ceilDiv 3 4)) = List.range 3
    ∧ gd.Optimize.workers (⟨1 / 100, 1 / 1000, 100, 4⟩ : gd.GradientDescent ℚ) 3 (ceilDiv 3 4)
        [3, 1, 0, 2] [6, -6, 2] ([0, 0, 0], true)
      = some ([-(6 / 100), 6 / 100, -(2 / 100)], false) := by
  obtain ⟨h1, -, -, h4, -⟩ := C17_blocks_partition_coordinates
    (⟨1 / 100, 1 / 1000, 100, 4⟩ : gd.GradientDescent ℚ) (by decide)
  refine ⟨h1 3, ?_⟩
  obtain ⟨h5, h6⟩ := h4 [0, 0, 0] [6, -6, 2] [3, 1, 0, 2] rfl (by decide)
  refine (h5.trans h6).trans ?_
  norm_num [gd.descend, gd.below]

/-- C18. For the objective that the constructor returns, with `N` documents, `C` classes
and `D` features, and any `T >= 1` workers: the document blocks of the first pool of
`Fprime`, one after the other, are `0, ..., N-1`, and the feature blocks of the second pool
are `0, ..., D-1`, so each document and each feature is in the block of exactly one worker;
the indices of `P_vec` that the first pool writes are the numbers below `C*N`, each once
(a rearrangement of `0, ..., C*N-1`), and every entry that the second pool reads holds the
probability written there; and for `l` and `r` of length `D`, `Fprime` returns the same
vector with `T` workers as with one. -/
theorem C18_fprime_blocks_partition {α : Type} [LinearOrderedField α] (exp : α → α)
    (err : Bool) (keys0 : List String) (tmpDocs : List (List (String × cloglik.Json)))
    (p : cloglik.CLogLik α) (h : cloglik.FromJson err keys0 tmpDocs = .ok (some p))
    (T : Nat) (hT : 1 ≤ T) :
    (List.range T).flatMap (block p.Docs.length (ceilDiv p.Docs.length T))
        = List.range p.Docs.length
    ∧ (∀ d, d < p.Docs.length →
        ∃! i, i < T ∧ d ∈ block p.Docs.length (ceilDiv p.Docs.length T) i)
    ∧ (List.range T).flatMap (block p.DimCnt (ceilDiv p.DimCnt T)) = List.range p.DimCnt
    ∧ (∀ j, j < p.DimCnt → ∃! i, i < T ∧ j ∈ block p.DimCnt (ceilDiv p.DimCnt T) i)
    ∧ (cloglik.CLogLik.Fprime.writes { p with Threads := T }).Perm
        (List.range (p.ClassMap.length * p.Docs.length))
    ∧ ∀ l : gd.NDimensionalValue α, l.length = p.DimCnt →
        (∃ P_vec, cloglik.CLogLik.Fprime.matrix exp { p with Threads := T } l
              p.ClassMap.length p.Docs.length = some P_vec
            ∧ ∀ docs ∈ p.features_to_docs, ∀ k ∈ docs,
                P_vec[k]? = some (p.prob exp l (k % p.Docs.length) (k / p.Docs.length)))
        ∧ ∀ r : gd.NDimensionalValue α, r.length = p.DimCnt →
            ∃ g, cloglik.CLogLik.Fprime exp { p with Threads := T } l r = some g
              ∧ cloglik.CLogLik.Fprime exp { p with Threads := 1 } l r = some g := by
  obtain ⟨hv, -⟩ := cloglik.FromJson_valid err keys0 tmpDocs p h
  refine ⟨blocks_partition _ _ hT, fun d hd => block_unique _ _ hT d hd,
    blocks_partition _ _ hT, fun j hj => block_unique _ _ hT j hj, ?_, ?_⟩
  · rw [cloglik.CLogLik.Fprime.writes_eq p _ _ hv T hT]
    exact cloglik.combined_perm _ _ hv.docs
  · intro l hl
    constructor
    · obtain ⟨Pm, hPm, -, hget⟩ := cloglik.CLogLik.Fprime.matrix_spec exp _ _ _
        (hv.threads T) hT l hl
      refine ⟨Pm, hPm, ?_⟩
      intro docs hdocs k hk
      have hkl := hv.entries docs hdocs k hk
      rw [hget k hkl]
      rfl
    · intro r hr
      refine ⟨_, cloglik.CLogLik.Fprime_eq exp _ _ _ (hv.threads T) hT l r hl hr, ?_⟩
      exact cloglik.CLogLik.Fprime_eq exp _ _ _ (hv.threads 1) (le_refl 1) l r hl hr

/-- C18, witness. The corpus of `TestMaxent` with three workers (more than there are
documents or features): the first pool writes the entries 0, 2, 1, 3 of `P_vec`. -/
theorem C18_fprime_blocks_partition_witness :
    (List.range 3).flatMap (block 2 (ceilDiv 2 3)) = List.range 2
    ∧ cloglik.CLogLik.Fprime.writes
        (⟨[⟨[[0], [1]], 0⟩, ⟨[[1], [0]], 1⟩], ["a", "b"], ["A", "B"],
          [0 + 1 + 1, 0], [[0, 3], [2, 1]], 3⟩ : cloglik.CLogLik ℚ) = [0, 2, 1, 3]
    ∧ ([0, 2, 1, 3] : List Nat).Perm (List.range (2 * 2))
    ∧ ∃ g, cloglik.CLogLik.Fprime (fun t : ℚ => 1 + t)
          (⟨[⟨[[0], [1]], 0⟩, ⟨[[1], [0]], 1⟩], ["a", "b"], ["A", "B"],
            [0 + 1 + 1, 0], [[0, 3], [2, 1]], 3⟩ : cloglik.CLogLik ℚ) [0, 0] [0, 0] = some g
        ∧ cloglik.CLogLik.Fprime (fun t : ℚ => 1 + t)
          (⟨[⟨[[0], [1]], 0⟩, ⟨[[1], [0]], 1⟩], ["a", "b"], ["A", "B"],
            [0 + 1 + 1, 0], [[0, 3], [2, 1]], 1⟩ : cloglik.CLogLik ℚ) [0, 0] [0, 0] = some g := by
  obtain ⟨h1, -, -, -, h5, h6⟩ := C18_fprime_blocks_partition (fun t : ℚ => 1 + t) false
    cloglik.TestMaxent.keys0 cloglik.TestMaxent.tmpDocs _ cloglik.TestMaxent.FromJson_eq 3
    (by decide)
  exact ⟨h1, rfl, h5, (h6 [0, 0] rfl).2 [0, 0] rfl⟩

/-- C19, counterexample. First, in binary64 arithmetic with one worker: the parabola `x^2`
with `eta = 2^-60`, `tau = 2^-10`, no cap (`MaxIter = -1`) and the start `[1]`, all of them
binary64 numbers, with `0 < eta < 1/a`. Every pass computes the gradient `2`, and the step
`1 - 2^-59` is rounded back to `1`: after any number of passes the point is `[1]`, the
gradient `[2]` and the flag unset; the loop never returns on the gradient test (it could
return only with the counter at `MaxIter`), and it is still running after any number of
passes below `2^63`. Second, in exact arithmetic with one worker: the parabola `x^2` with
`eta = 2^-70`, `tau = 1`, `MaxIter = -2^63` and the start `[1]`. The gradient is at least
`tau` in each of the first `2^63` passes, the Go `int` counter wraps round to `MaxIter` in
the pass numbered `2^63`, and the run returns there with the flag unset. -/
theorem C19_counterexample :
    (((0 : ℚ) < 1 ∧ (0 : ℚ) < 1 / 2 ^ 60 ∧ (1 : ℚ) / 2 ^ 60 < 1 / 1 ∧ (0 : ℚ) < 1 / 1024)
      ∧ (binary64.nearest (1 / 2 ^ 60) = some (1 / 2 ^ 60)
        ∧ binary64.nearest (1 / 1024) = some (1 / 1024)
        ∧ binary64.nearest 1 = some 1 ∧ binary64.nearest 0 = some 0)
      ∧ (∀ n, ∃ it, gd.Optimize.passes64 ⟨1 / 2 ^ 60, 1 / 1024, -1, 1⟩
            (gd.Parabola.toFunction64 ⟨1, 0, 0⟩) 1 1 (n + 1) (gd.Optimize.start64 [.finite 1])
          = some ⟨[.finite 1], [.finite 2], false, it⟩)
      ∧ (∀ fuel s, gd.Optimize.run64 fuel ⟨1 / 2 ^ 60, 1 / 1024, -1, 1⟩
            (gd.Parabola.toFunction64 ⟨1, 0, 0⟩) [.finite 1] = .ok s →
          s.x = [.finite 1] ∧ s.optimized = false ∧ s.iter = -1)
      ∧ ∀ fuel : Nat, (fuel : Int) < 2 ^ 63 →
          gd.Optimize.run64 fuel ⟨1 / 2 ^ 60, 1 / 1024, -1, 1⟩
            (gd.Parabola.toFunction64 ⟨1, 0, 0⟩) [.finite 1] = .error .outOfFuel)
    ∧ (((0 : ℚ) < 1 ∧ (0 : ℚ) < 1 / 2 ^ 70 ∧ (1 : ℚ) / 2 ^ 70 < 1 / 1 ∧ (-2 ^ 63 : Int) < 0)
      ∧ ∃ s : gd.State ℚ,
        (∀ fuel : Nat, 2 ^ 63 ≤ fuel →
          gd.Optimize.run fuel (⟨1 / 2 ^ 70, 1, -2 ^ 63, 1⟩ : gd.GradientDescent ℚ)
            (gd.Parabola.toFunction ⟨1, 0, 0⟩) [1] = .ok s)
        ∧ s.optimized = false ∧ s.iter = -2 ^ 63
        ∧ ∃ g ∈ s.fp, (1 : ℚ) ≤ |g|) := by
  refine ⟨⟨by norm_num, ⟨by decide!, by decide!, by decide!, by decide!⟩, ?_, ?_, ?_⟩,
    by norm_num, ?_⟩
  · intro n
    have hgen : ∀ (n : Nat) (r : Float64) (opt : Bool) (it : Int), ∃ it',
        gd.Optimize.passes64 ⟨1 / 2 ^ 60, 1 / 1024, -1, 1⟩
          (gd.Parabola.toFunction64 ⟨1, 0, 0⟩) 1 1 (n + 1) ⟨[.finite 1], [r], opt, it⟩
        = some ⟨[.finite 1], [.finite 2], false, it'⟩ := by
      intro n
      induction n with
      | zero =>
        intro r opt it
        refine ⟨wrapInt (it + 1), ?_⟩
        rw [gd.Optimize.passes64, gd.Optimize.body64_standstill]
        rfl
      | succ n ih =>
        intro r opt it
        obtain ⟨it', h⟩ := ih (.finite 2) false (wrapInt (it + 1))
        refine ⟨it', ?_⟩
        rw [gd.Optimize.passes64, gd.Optimize.body64_standstill]
        exact h
    exact hgen n _ _ _
  · intro fuel s h
    exact gd.Optimize.loop64_standstill _ _ _ _
      (fun r it => gd.Optimize.body64_standstill r false it) fuel _ _ s h
  · intro fuel hfuel
    exact gd.Optimize.loop64_running _ (by decide) _ _ _
      (fun r it => gd.Optimize.body64_standstill r false it) fuel 0
      (by rw [Nat.zero_add]; exact hfuel) (.finite 0)
  · have hgrad : ∀ x r : gd.NDimensionalValue ℚ, x.length = ([1] : List ℚ).length →
        r.length = ([1] : List ℚ).length →
        (gd.Parabola.toFunction (⟨1, 0, 0⟩ : gd.Parabola ℚ)).Fprime x r
          = some (gd.parabolasGrad [⟨1, 0, 0⟩] x) :=
      fun x r hx hr => gd.Parabola.Fprime_unit_grad _ x r hx hr
    have hG : ∀ j : Nat, gd.parabolasGrad [(⟨1, 0, 0⟩ : gd.Parabola ℚ)]
        ((gd.descentMap (1 / 2 ^ 70) (gd.parabolasGrad [⟨1, 0, 0⟩]))^[j] [1])
        = [(1 - 2 * 1 * (1 / 2 ^ 70)) ^ j * (2 * 1 * 1 + 0)] := by
      intro j
      rw [gd.parabolasGrad_iterate _ _ _ rfl]
      rfl
    obtain ⟨n, hn⟩ : ∃ n : Nat, n + 2 = 2 ^ 63 := ⟨2 ^ 63 - 2, by norm_num⟩
    have hnI : (n : Int) + 2 = 2 ^ 63 := by exact_mod_cast hn
    have hlow : ∀ j, j ≤ n + 1 →
        (1 : ℚ) ≤ (1 - 2 * 1 * (1 / 2 ^ 70)) ^ j * (2 * 1 * 1 + 0) := by
      intro j hj
      have hB := one_add_mul_le_pow (show (-2 : ℚ) ≤ -(2 * 1 * (1 / 2 ^ 70)) by norm_num) j
      have hj' : (j : ℚ) ≤ 2 ^ 63 := by
        have : j ≤ 2 ^ 63 := by omega
        exact_mod_cast this
      have e : (1 : ℚ) + -(2 * 1 * (1 / 2 ^ 70)) = 1 - 2 * 1 * (1 / 2 ^ 70) := by ring
      rw [e] at hB
      have h70 : (2 : ℚ) ^ 70 = 2 ^ 63 * 128 := by norm_num
      have hstep : (j : ℚ) * (2 * 1 * (1 / 2 ^ 70)) ≤ 1 / 64 := by
        rw [h70]
        calc (j : ℚ) * (2 * 1 * (1 / (2 ^ 63 * 128)))
            ≤ 2 ^ 63 * (2 * 1 * (1 / (2 ^ 63 * 128))) := by
              apply mul_le_mul_of_nonneg_right hj'
              positivity
          _ = 1 / 64 := by field_simp; ring
      linarith
    have hfail : ∀ j, j ≤ n + 1 → gd.below (1 : ℚ) (gd.parabolasGrad [⟨1, 0, 0⟩]
        ((gd.descentMap (1 / 2 ^ 70) (gd.parabolasGrad [⟨1, 0, 0⟩]))^[j] [1])) = false := by
      intro j hj
      rw [hG j]
      have h1 := hlow j hj
      simp only [gd.below, List.all_cons, List.all_nil, Bool.and_true, decide_eq_false_iff_not,
        not_lt, abs_of_nonneg (le_trans zero_le_one h1)]
      exact h1
    refine ⟨_, fun fuel hfuel =>
      gd.Optimize.run_to_wrap (⟨1 / 2 ^ 70, 1, -2 ^ 63, 1⟩ : gd.GradientDescent ℚ)
        (gd.Parabola.toFunction ⟨1, 0, 0⟩) (le_refl 1) _ [1] hgrad n hnI rfl hfail fuel
        (by omega), rfl, rfl, ?_⟩
    refine ⟨(1 - 2 * 1 * (1 / 2 ^ 70)) ^ (n + 1) * (2 * 1 * 1 + 0), ?_, ?_⟩
    · show _ ∈ gd.parabolasGrad [(⟨1, 0, 0⟩ : gd.Parabola ℚ)]
        ((gd.descentMap (1 / 2 ^ 70) (gd.parabolasGrad [⟨1, 0, 0⟩]))^[n + 1] [1])
      rw [hG (n + 1)]
      exact List.mem_singleton.mpr rfl
    · have h1 := hlow (n + 1) (le_refl _)
      rw [abs_of_nonneg (le_trans zero_le_one h1)]
      exact h1

/-- C19, as amended. In exact arithmetic (any ordered field in which the natural numbers
are unbounded) and with one worker: for a sum of parabolas `a_i*x_i^2 + b_i*x_i + c_i` (the
test objective `NDimensionalParabola`, or `Parabola` in one dimension) with every
`a_i > 0`, a threshold `tau > 0`, a learning rate with `0 < eta < 1/a_i` for every `i`, no
cap (`MaxIter < 0`) and every start `x0`: `Fprime` computes the gradient `2*a_i*x_i + b_i`;
there is a first iterate `n` of `x - eta*grad(x)` at which every coordinate of the gradient
is below `tau` in absolute value; `Optimize` returns, after at most `n + 1` passes, with
the flag set or the counter equal to `MaxIter`; and when `n + 1` is below `2^63` (the
counter does not wrap) it returns after exactly `n + 1` passes with the flag set, at the
`(n+1)`-st iterate. -/
theorem C19_quadratics_terminate {α : Type} [LinearOrderedField α] [Archimedean α]
    (cfg : gd.GradientDescent α) (hT : cfg.Threads = 1) (hM : cfg.MaxIter < 0)
    (htau : 0 < cfg.Threshold) (heta : 0 < cfg.LearningRate)
    (ps : List (gd.Parabola α)) (f : gd.Function α)
    (hf : f = gd.NDimensionalParabola.toFunction ⟨ps⟩
      ∨ ∃ p, ps = [p] ∧ f = gd.Parabola.toFunction p)
    (ha : ∀ p ∈ ps, 0 < p.a)
    (heta' : ∀ p ∈ ps, cfg.LearningRate < 1 / p.a)
    (x0 : gd.NDimensionalValue α) (hx0 : x0.length = ps.length) :
    (∀ x r : gd.NDimensionalValue α, x.length = ps.length → r.length = ps.length →
        f.Fprime x r = some (gd.parabolasGrad ps x))
    ∧ ∃ n : Nat,
      gd.below cfg.Threshold (gd.parabolasGrad ps
          ((gd.descentMap cfg.LearningRate (gd.parabolasGrad ps))^[n] x0)) = true
      ∧ (∀ j, j < n → gd.below cfg.Threshold (gd.parabolasGrad ps
          ((gd.descentMap cfg.LearningRate (gd.parabolasGrad ps))^[j] x0)) = false)
      ∧ (∃ (m : Nat) (s : gd.State α), m ≤ n + 1
          ∧ (∀ fuel, m ≤ fuel → gd.Optimize.run fuel cfg f x0 = .ok s)
          ∧ (s.optimized = true ∨ s.iter = cfg.MaxIter))
      ∧ ((n : Int) + 1 < 2 ^ 63 → ∀ fuel, n + 1 ≤ fuel →
          gd.Optimize.run fuel cfg f x0
            = .ok ⟨(gd.descentMap cfg.LearningRate (gd.parabolasGrad ps))^[n + 1] x0,
                gd.parabolasGrad ps
                  ((gd.descentMap cfg.LearningRate (gd.parabolasGrad ps))^[n] x0),
                true, (n : Int) + 1⟩) := by
  classical
  have hT' : 1 ≤ cfg.Threads := le_of_eq hT.symm
  have hgrad0 : ∀ x r : gd.NDimensionalValue α, x.length = ps.length → r.length = ps.length →
      f.Fprime x r = some (gd.parabolasGrad ps x) := by
    intro x r hx hr
    rcases hf with rfl | ⟨p, rfl, rfl⟩
    · exact gd.NDimensionalParabola.Fprime_sum_grad ps x r hx hr
    · exact gd.Parabola.Fprime_unit_grad p x r hx hr
  have hgrad : ∀ x r : gd.NDimensionalValue α, x.length = x0.length → r.length = x0.length →
      f.Fprime x r = some (gd.parabolasGrad ps x) :=
    fun x r hx hr => hgrad0 x r (hx.trans hx0) (hr.trans hx0)
  have hq : ∀ p ∈ ps, |1 - 2 * p.a * cfg.LearningRate| < 1 := by
    intro p hp
    have h1 := ha p hp
    have h2 := heta' p hp
    rw [lt_div_iff₀ h1] at h2
    have h3 : 0 < p.a * cfg.LearningRate := mul_pos h1 heta
    rw [abs_lt]
    constructor <;> nlinarith
  obtain ⟨N, hN⟩ := gd.parabolas_eventually_below cfg.LearningRate cfg.Threshold htau ps x0 hq
  have hex : ∃ n, gd.below cfg.Threshold (gd.parabolasGrad ps
      ((gd.descentMap cfg.LearningRate (gd.parabolasGrad ps))^[n] x0)) = true := by
    refine ⟨N, ?_⟩
    rw [gd.parabolasGrad_iterate ps cfg.LearningRate x0 hx0 N]
    exact hN N (le_refl N)
  have hpass := Nat.find_spec hex
  have hfail : ∀ j, j < Nat.find hex → gd.below cfg.Threshold (gd.parabolasGrad ps
      ((gd.descentMap cfg.LearningRate (gd.parabolasGrad ps))^[j] x0)) = false := by
    intro j hj
    have := Nat.find_min hex hj
    simpa using this
  refine ⟨hgrad0, Nat.find hex, hpass, hfail, ?_, ?_⟩
  · exact gd.Optimize.run_terminates cfg _ hT' (gd.parabolasGrad ps) x0 hgrad _ hpass
  · intro hn fuel hfuel
    exact gd.Optimize.run_of_first_below cfg _ hT' (gd.parabolasGrad ps) x0 hgrad _ hn
      (Or.inl hM) hfail hpass fuel hfuel

/-- C19, witness. The parabola `5x^2 + 6x + 3` with `eta = 0.01`, `tau = 0.001`, no cap,
one worker and the start `[0]`, over the rationals. -/
theorem C19_quadratics_terminate_witness :
    ∃ n : Nat,
      gd.below (1 / 1000 : ℚ) (gd.parabolasGrad [⟨5, 6, 3⟩]
          ((gd.descentMap (1 / 100) (gd.parabolasGrad [⟨5, 6, 3⟩]))^[n] [0])) = true
      ∧ ∃ (m : Nat) (s : gd.State ℚ), m ≤ n + 1
          ∧ (∀ fuel, m ≤ fuel →
              gd.Optimize.run fuel (⟨1 / 100, 1 / 1000, -1, 1⟩ : gd.GradientDescent ℚ)
                (gd.NDimensionalParabola.mk [⟨5, 6, 3⟩]).toFunction [0] = .ok s)
          ∧ (s.optimized = true ∨ s.iter = -1) := by
  obtain ⟨-, n, h1, -, h3, -⟩ := C19_quadratics_terminate
    (⟨1 / 100, 1 / 1000, -1, 1⟩ : gd.GradientDescent ℚ) rfl (by decide)
    (by norm_num) (by norm_num) [⟨5, 6, 3⟩] _ (Or.inl rfl) (by simp) (by norm_num) [0] rfl
  exact ⟨n, h1, h3⟩

/-- C20. Over the reals, with `math.Exp` and `math.Log` the exponential and the logarithm,
for every weight vector `l`. For a document with at least one class whose feature indices
are below `len(l)`, and every class `c` of the document: the loop of `Document.P` ends with
a numerator and a denominator that are positive, the numerator at most the denominator, so
the quotient is a number (the branch for `NaN` is not taken) and `P` returns it, a value
in `(0, 1]`; and the values of `P` over the classes of the document add up to `1`. For an
objective all of whose documents are such and have their gold class among their classes,
`Val` returns a number that is at most `0`. -/
theorem C20_probabilities_sum_to_one (l : gd.NDimensionalValue ℝ) :
    (∀ d : cloglik.Document, 0 < d.Features.length →
      (∀ fs ∈ d.Features, ∀ fi ∈ fs, fi < l.length) →
      (∀ c, c < d.Features.length →
        ∃ numerator denominator : ℝ,
          d.Features.enum.foldlM (cloglik.Document.P.accumulate Real.exp l c) (0, 0)
            = some (numerator, denominator)
          ∧ 0 < numerator ∧ numerator ≤ denominator
          ∧ ¬ (numerator = 0 ∧ denominator = 0)
          ∧ d.P Real.exp l c = some (numerator / denominator)
          ∧ 0 < numerator / denominator ∧ numerator / denominator ≤ 1)
      ∧ ((List.range d.Features.length).map fun c => (d.P Real.exp l c).getD 0).sum = 1)
    ∧ (∀ p : cloglik.CLogLik ℝ,
        (∀ d ∈ p.Docs, d.Class < d.Features.length
          ∧ ∀ fs ∈ d.Features, ∀ fi ∈ fs, fi < l.length) →
        ∃ V : ℝ, p.Val Real.exp Real.log l = some V ∧ V ≤ 0) := by
  constructor
  · intro d hC hf
    have hP : ∀ c, d.P Real.exp l c = some (cloglik.probOf Real.exp d l c) :=
      fun c => cloglik.Document.P_eq Real.exp d l c hf
    constructor
    · intro c hc
      have hfold := cloglik.Document.P_fold Real.exp l c d.Features 0 (0, 0) hf
      have hpick := cloglik.sum_pick (fun fs => Real.exp (cloglik.scoreOf l fs)) c d.Features 0
      rw [if_pos ⟨Nat.zero_le _, by omega⟩, Nat.sub_zero] at hpick
      simp only [zero_add] at hfold
      rw [hpick] at hfold
      have hnum : 0 < Real.exp (cloglik.scoreOf l (d.Features.getD c [])) := Real.exp_pos _
      have hle := cloglik.numerOf_le_denomOf d l c hc
      have hden : 0 < (d.Features.map fun fs => Real.exp (cloglik.scoreOf l fs)).sum :=
        cloglik.denomOf_pos d l hC
      have hne : ¬ (Real.exp (cloglik.scoreOf l (d.Features.getD c [])) = 0
          ∧ (d.Features.map fun fs => Real.exp (cloglik.scoreOf l fs)).sum = 0) :=
        fun h => hnum.ne' h.1
      refine ⟨_, _, hfold, hnum, hle, hne, ?_, div_pos hnum hden, (div_le_one hden).mpr hle⟩
      unfold cloglik.Document.P
      have hfold' : d.Features.enum.foldlM (cloglik.Document.P.accumulate Real.exp l c) (0, 0)
          = some (Real.exp (cloglik.scoreOf l (d.Features.getD c [])),
              (d.Features.map fun fs => Real.exp (cloglik.scoreOf l fs)).sum) := hfold
      rw [hfold']
      simp only [if_neg hne]
    · have : (List.range d.Features.length).map (fun c => (d.P Real.exp l c).getD 0)
          = (List.range d.Features.length).map (fun c => cloglik.probOf Real.exp d l c) := by
        apply List.map_congr_left
        intro c _
        rw [hP c]
        rfl
      rw [this]
      exact cloglik.probOf_sum d l hC
  · intro p hp
    refine ⟨_, cloglik.CLogLik.Val_fold Real.exp Real.log l p.Docs 0
      (fun d hd => (hp d hd).2) |>.trans (by rw [zero_add]), ?_⟩
    apply cloglik.sum_nonpos_list
    intro v hv
    obtain ⟨doc, hdoc, rfl⟩ := List.mem_map.mp hv
    obtain ⟨h1, h2⟩ := cloglik.probOf_bounds doc l doc.Class (hp doc hdoc).1
    exact Real.log_nonpos h1.le h2

/-- C20, witness. The first document of the corpus of `TestMaxent` at the weights
`[0, 0]`. -/
theorem C20_probabilities_sum_to_one_witness :
    ((List.range 2).map fun c =>
        ((⟨[[0], [1]], 0⟩ : cloglik.Document).P Real.exp [0, 0] c).getD 0).sum = 1
    ∧ ∃ V : ℝ, cloglik.CLogLik.Val Real.exp Real.log
        (⟨[⟨[[0], [1]], 0⟩, ⟨[[1], [0]], 1⟩], ["a", "b"], ["A", "B"],
          [0 + 1 + 1, 0], [[0, 3], [2, 1]], 1⟩ : cloglik.CLogLik ℝ) [0, 0] = some V
      ∧ V ≤ 0 := by
  obtain ⟨h1, h2⟩ := C20_probabilities_sum_to_one [0, 0]
  refine ⟨(h1 ⟨[[0], [1]], 0⟩ (by decide) (by decide)).2, h2 _ ?_⟩
  intro d hd
  simp only [List.mem_cons, List.mem_singleton, List.not_mem_nil, or_false] at hd
  rcases hd with rfl | rfl <;> exact ⟨by decide, by decide⟩
